import Mathlib

/-!
A shell: command tokeniser, command tree and job table.

Shallow embedding of `Cmd.c` and `processList.c`.

* A C string is the list of its characters before the terminating NUL.
* A `char*` slot of `args` / `symbols` is an `Option`: `none` is `NULL`.
* `args` and `symbols` are arrays of `MAX_ARGS` slots.  Every read and write goes through
  `Slots.read` / `Slots.write`, which fail (`none`) on an index outside the array, so a function
  that returns `some _` has stayed inside its arrays.
-/

namespace Shell

/-! ## shellVariables.h -/

def MAX_LINE : Nat := 80

def MAX_ARGS : Nat := MAX_LINE / 2 + 1

def REDIRECT_OUT_OP : Char := '>'

def REDIRECT_IN_OP : Char := '<'

def PIPE_OP : Char := '|'

def BG_OP : Char := '&'

/-! ## C strings and the library functions used by the tokeniser -/

/-- The characters of a C string, terminator excluded. -/
abbrev CStr := List Char

/-- The terminating byte of a C string. -/
def NUL : Char := Char.ofNat 0

/-- Value of `*s` for a C string `s`: its first character, the terminator when it is empty. -/
def deref (s : CStr) : Char := s.headD NUL

/-- The string `strcpy` copies out of a buffer: everything before the first NUL byte. -/
def strcpy (src : List Char) : CStr := src.takeWhile (fun c => c != NUL)

/-- What `fgets(buf, n, stdin)` leaves in a zeroed buffer, `k = n - 1` being the number of
characters it may store: it stops after a newline, at the end of the stream, or when `k`
characters have been stored. -/
def fgets : Nat → List Char → List Char
  | 0, _ => []
  | _ + 1, [] => []
  | k + 1, c :: cs => if c = '\n' then [c] else c :: fgets k cs

/-- One call of `strtok` on the text that is left: skip the leading delimiters; `none` (NULL)
when nothing is left; otherwise the token that runs up to the next delimiter, and the text
after that delimiter (which the call overwrites with NUL), where the next call resumes. -/
def strtok (delim : List Char) (s : CStr) : Option (CStr × CStr) :=
  match s.dropWhile (fun c => decide (c ∈ delim)) with
  | [] => none
  | c :: r =>
    some ((c :: r).takeWhile (fun c => !decide (c ∈ delim)),
          ((c :: r).dropWhile (fun c => !decide (c ∈ delim))).tail)

/-- The successive results of `strtok(s, delim)`, `strtok(NULL, delim)`, ... up to the first
NULL.  Each call consumes at least one character, so `fuel = s.length` calls reach the NULL. -/
def strtokAll (delim : List Char) : Nat → CStr → List CStr
  | 0, _ => []
  | fuel + 1, s =>
    match strtok delim s with
    | none => []
    | some (tok, rest) => tok :: strtokAll delim fuel rest

/-- The buffer, read as a C string, after `strtok(buf, "\n")`: the call overwrites the first
newline that follows a character other than a newline, and leaves a buffer made of newlines
only (or empty) as it is. -/
def cutNewline (s : CStr) : CStr :=
  s.takeWhile (fun c => c == '\n') ++
    (s.dropWhile (fun c => c == '\n')).takeWhile (fun c => c != '\n')

/-! ## Cmd.h -/

/-- An array of `MAX_ARGS` pointers into `tokenLine`. -/
abbrev Slots := Nat → Option CStr

/-- A zeroed array. -/
def Slots.zero : Slots := fun _ => none

/-- Checked read of slot `i`. -/
def Slots.read (a : Slots) (i : Nat) : Option (Option CStr) :=
  if i < MAX_ARGS then some (a i) else none

/-- Checked write of slot `i`. -/
def Slots.write (a : Slots) (i : Nat) (v : Option CStr) : Option Slots :=
  if i < MAX_ARGS then some (fun j => if j = i then v else a j) else none

/-- Holds a single command. -/
structure Cmd where
  /-- The command as input by the user. -/
  line : List Char
  /-- The command as null terminated tokens. -/
  tokenLine : CStr
  /-- Pointers to each argument in tokenLine, non-arguments are NULL. -/
  args : Slots
  /-- Pointers to each symbol in tokenLine, non-symbols are NULL. -/
  symbols : Slots
  /-- The process id of the executing command. -/
  pid : Int
  /-- The value left by setCmdLength. -/
  length : Nat
  /-- Children made by splitCMD. -/
  left : Option Cmd
  /-- Children made by splitCMD. -/
  right : Option Cmd

/-- The block `calloc(1, sizeof(Cmd))` returns. -/
def Cmd.calloc : Cmd :=
  { line := [], tokenLine := [], args := Slots.zero, symbols := Slots.zero,
    pid := 0, length := 0, left := none, right := none }

/-- A zeroed `Cmd` whose `line` has been filled in, as `main` prepares it. -/
def Cmd.ofLine (line : List Char) : Cmd := { Cmd.calloc with line := line }

/-! ## Cmd.c: tokeniser -/

/-- The scan of `setCmdLength` from index `length`, with `fuel = MAX_ARGS - length` slots left
in the arrays; reading slot `MAX_ARGS` is out of bounds. -/
def setCmdLengthFrom (args symbols : Slots) : Nat → Nat → Option Nat
  | 0, _ => none
  | fuel + 1, length =>
    match args.read length, symbols.read length with
    | some a, some s =>
      if a ≠ none ∨ s ≠ none then setCmdLengthFrom args symbols fuel (length + 1)
      else some length
    | _, _ => none

/-- Sets the length property in Cmd. -/
def setCmdLength (cmd : Cmd) : Option Cmd :=
  (setCmdLengthFrom cmd.args cmd.symbols MAX_ARGS 0).map (fun n => { cmd with length := n })

/-- Whether the first character of a token is one of the four operator characters, the test
`parseCmd` makes on `*token`. -/
def isOpChar (c : Char) : Bool :=
  c == REDIRECT_OUT_OP || c == REDIRECT_IN_OP || c == PIPE_OP || c == BG_OP

/-- The body of the `while (token != NULL)` loop of `parseCmd`, run over the successive tokens,
starting at index `i`.  Returns the final `i` and the two arrays. -/
def parseTokens : List CStr → Nat → Slots → Slots → Option (Nat × Slots × Slots)
  | [], i, args, symbols => some (i, args, symbols)
  | token :: rest, i, args, symbols =>
    if deref token = '\n' then
      (args.write i none).bind (fun args1 => parseTokens rest (i + 1) args1 symbols)
    else if isOpChar (deref token) then
      (symbols.write i (some token)).bind (fun symbols1 =>
        (args.write i none).bind (fun args1 => parseTokens rest (i + 1) args1 symbols1))
    else
      (args.write i (some token)).bind (fun args1 => parseTokens rest (i + 1) args1 symbols)

/-- Parses the command string contained in `cmd.line`. -/
def parseCmd (cmd : Cmd) : Option Cmd :=
  let tokenLine := cutNewline (strcpy cmd.line)
  match parseTokens (strtokAll [' '] tokenLine.length tokenLine) 0 cmd.args cmd.symbols with
  | none => none
  | some (i, args, symbols) =>
    match args.write i none with
    | none => none
    | some args1 =>
      setCmdLength
        { cmd with tokenLine := tokenLine, args := args1, symbols := symbols,
                   pid := -1, left := none, right := none }

/-! ## Cmd.c: split point and split -/

/-- The test `cmd->symbols[i] && *cmd->symbols[i] == symbol` on a slot. -/
def symbolIs (p : Option CStr) (symbol : Char) : Bool :=
  match p with
  | none => false
  | some s => deref s == symbol

/-- The loop of `findSymbol` from index `i`, with `fuel = MAX_ARGS - i` iterations left. -/
def findSymbolFrom (symbols : Slots) (symbol : Char) : Nat → Nat → Option Int
  | 0, _ => some (-1)
  | fuel + 1, i =>
    match symbols.read i with
    | none => none
    | some p => if symbolIs p symbol then some (i : Int) else findSymbolFrom symbols symbol fuel (i + 1)

/-- Finds the index of the first occurance of symbol in `cmd.symbols`; -1 if not found. -/
def findSymbol (cmd : Cmd) (symbol : Char) : Option Int :=
  findSymbolFrom cmd.symbols symbol MAX_ARGS 0

/-- The loop `for (i = ...; i >= 0; i--)` of `findSymbolReverse`, entered with index `i`. -/
def findSymbolReverseFrom (symbols : Slots) (symbol : Char) : Nat → Option Int
  | 0 =>
    match symbols.read 0 with
    | none => none
    | some p => if symbolIs p symbol then some 0 else some (-1)
  | i + 1 =>
    match symbols.read (i + 1) with
    | none => none
    | some p =>
      if symbolIs p symbol then some ((i + 1 : Nat) : Int)
      else findSymbolReverseFrom symbols symbol i

/-- Finds the last occurance of a symbol in `cmd.symbols`, scanning down from index
`cmd.length`; -1 if not found. -/
def findSymbolReverse (cmd : Cmd) (symbol : Char) : Option Int :=
  findSymbolReverseFrom cmd.symbols symbol cmd.length

/-- Returns the index of the furthest right symbol in `cmd.symbols`, -1 if there is none. -/
def splitPoint (cmd : Cmd) : Option Int :=
  match findSymbolReverse cmd REDIRECT_IN_OP, findSymbolReverse cmd REDIRECT_OUT_OP,
        findSymbolReverse cmd PIPE_OP, findSymbolReverse cmd BG_OP with
  | some insignal, some outsignal, some pipesignal, some bgopsignal =>
    let parse : Int := -1
    let parse := if parse < insignal then insignal else parse
    let parse := if parse < outsignal then outsignal else parse
    let parse := if parse < pipesignal then pipesignal else parse
    let parse := if parse < bgopsignal then bgopsignal else parse
    some parse
  | _, _, _, _ => none

/-- The copy loop of `splitCMD`: `n` iterations from index `i`, each copying slot `i` of the
source arrays to slot `i - off` of the destination arrays. -/
def copySlots (srcArgs srcSymbols : Slots) (off : Nat) :
    Nat → Nat → Slots → Slots → Option (Slots × Slots)
  | 0, _, dstArgs, dstSymbols => some (dstArgs, dstSymbols)
  | n + 1, i, dstArgs, dstSymbols =>
    match srcArgs.read i, srcSymbols.read i with
    | some a, some s =>
      match dstArgs.write (i - off) a, dstSymbols.write (i - off) s with
      | some dstArgs1, some dstSymbols1 =>
        copySlots srcArgs srcSymbols off n (i + 1) dstArgs1 dstSymbols1
      | _, _ => none
    | _, _ => none

/-- Fills `cmd.left` and `cmd.right` by splitting at a provided index; children the node
already has are freed and replaced by two zeroed blocks.  A split index below -1 makes the
second loop read `cmd->args[i]` at a negative `i`, which is out of bounds. -/
def splitCMD (cmd : Cmd) (splitIndex : Int) : Option Cmd :=
  -- for (i = 0; i < splitIndex; i++): leaves i = max 0 splitIndex
  let i1 : Nat := splitIndex.toNat
  match copySlots cmd.args cmd.symbols 0 i1 0 Slots.zero Slots.zero with
  | none => none
  | some (leftArgs, leftSymbols) =>
    match leftArgs.write (i1 + 1) none, leftSymbols.write (i1 + 1) none with
    | some leftArgs1, some leftSymbols1 =>
      if splitIndex + 1 < 0 then none
      else
        -- for (i = splitIndex + 1; i < cmd->length; i++): leaves i = max (splitIndex + 1) length
        let start : Nat := (splitIndex + 1).toNat
        let i2 : Nat := max start cmd.length
        match copySlots cmd.args cmd.symbols start (cmd.length - start) start
                Slots.zero Slots.zero with
        | none => none
        | some (rightArgs, rightSymbols) =>
          match rightArgs.write (((i2 : Int) - splitIndex).toNat) none,
                rightSymbols.write (((i2 : Int) - splitIndex).toNat) none with
          | some rightArgs1, some rightSymbols1 =>
            match setCmdLength { Cmd.calloc with args := leftArgs1, symbols := leftSymbols1 },
                  setCmdLength { Cmd.calloc with args := rightArgs1, symbols := rightSymbols1 } with
            | some l, some r => some { cmd with left := some l, right := some r }
            | _, _ => none
          | _, _ => none
    | _, _ => none

/-! ## The tree obtained by splitting until no operator is left -/

/-- A command tree: a leaf, or a node with the two children `splitCMD` made for it. -/
inductive Tree where
  | leaf (cmd : Cmd) : Tree
  | node (cmd : Cmd) (left right : Tree) : Tree

/-- The leaves of a tree, from left to right. -/
def Tree.leaves : Tree → List Cmd
  | .leaf c => [c]
  | .node _ l r => l.leaves ++ r.leaves

/-- Split a node at `splitPoint` with `splitCMD`, then its children in the same way, until
`splitPoint` finds no operator.  Each child is shorter than its parent, so
`fuel = cmd.length + 1` is enough. -/
def splitAll : Nat → Cmd → Option Tree
  | 0, _ => none
  | fuel + 1, cmd =>
    match splitPoint cmd with
    | none => none
    | some splitIndex =>
      if splitIndex = -1 then some (.leaf cmd)
      else
        match splitCMD cmd splitIndex with
        | none => none
        | some cmd1 =>
          match cmd1.left, cmd1.right with
          | some l, some r =>
            match splitAll fuel l, splitAll fuel r with
            | some tl, some tr => some (.node cmd1 tl tr)
            | _, _ => none
          | _, _ => none

/-- The argument vector a node hands to `execvp`: the slots of `args` before the first NULL. -/
def argv (cmd : Cmd) : List CStr :=
  (((List.range MAX_ARGS).map cmd.args).takeWhile Option.isSome).filterMap id

/-- All the argument tokens a node holds, in slot order. -/
def argTokens (cmd : Cmd) : List CStr :=
  (List.range MAX_ARGS).filterMap cmd.args

/-! ## Specification-side helpers for the tokeniser -/

/-- The pointer `parseCmd` leaves in `args[i]` for the token met at index `i`. -/
def argOf (token : CStr) : Option CStr :=
  if deref token = '\n' then none else if isOpChar (deref token) then none else some token

/-- The pointer `parseCmd` leaves in `symbols[i]` for the token met at index `i` (the slot was
zero before). -/
def symOf (token : CStr) : Option CStr :=
  if deref token = '\n' then none else if isOpChar (deref token) then some token else none

/-- The tokens `parseCmd` walks over for a given line. -/
def tokensOf (line : List Char) : List CStr :=
  strtokAll [' '] (cutNewline (strcpy line)).length (cutNewline (strcpy line))

/-- Text made of tokens separated by spaces: each token comes with the number of extra spaces
put before it; tokens after the first are preceded by one more space. -/
def spacedTail : List (Nat × CStr) → CStr
  | [] => []
  | (k, t) :: r => ' ' :: (List.replicate k ' ' ++ t ++ spacedTail r)

/-- Text made of tokens separated by spaces, see `spacedTail`. -/
def spaced : List (Nat × CStr) → CStr
  | [] => []
  | (k, t) :: r => List.replicate k ' ' ++ t ++ spacedTail r

/-- A slot index is populated when `args` or `symbols` holds a pointer there. -/
def Cmd.populated (c : Cmd) (i : Nat) : Prop := c.args i ≠ none ∨ c.symbols i ≠ none

instance (c : Cmd) (i : Nat) : Decidable (c.populated i) := by
  unfold Cmd.populated; infer_instance

/-- The greatest index `i ≤ n` with `p i`, or -1 when there is none. -/
def lastIdx (p : Nat → Bool) : Nat → Int
  | 0 => if p 0 then 0 else -1
  | i + 1 => if p (i + 1) then ((i + 1 : Nat) : Int) else lastIdx p i

/-- A node whose populated slots are exactly the indices below `length`, with the terminator
slot `length` inside the array, an operator slot holding no argument. -/
structure Cmd.WellFormed (c : Cmd) : Prop where
  length_lt : c.length < MAX_ARGS
  populated_iff : ∀ i, i < MAX_ARGS → (c.populated i ↔ i < c.length)
  symbols_op : ∀ i, i < MAX_ARGS → ∀ s, c.symbols i = some s →
    isOpChar (deref s) = true ∧ c.args i = none

/-- The node of `ls > out &`, written out slot by slot. -/
def sampleNode : Cmd :=
  { Cmd.calloc with
    args := fun i => if i = 0 then some ['l', 's'] else if i = 2 then some ['o', 'u', 't'] else none
    symbols := fun i => if i = 1 then some ['>'] else if i = 3 then some ['&'] else none
    length := 4 }

/-- The nodes the program works on: the result of `parseCmd` on the zeroed `Cmd` of a line,
and the children `splitCMD` makes for such a node. -/
inductive Produced : Cmd → Prop
  | parse (line : List Char) (c : Cmd) : parseCmd (Cmd.ofLine line) = some c → Produced c
  | left (c : Cmd) (splitIndex : Int) (c1 l : Cmd) :
      Produced c → splitCMD c splitIndex = some c1 → c1.left = some l → Produced l
  | right (c : Cmd) (splitIndex : Int) (c1 r : Cmd) :
      Produced c → splitCMD c splitIndex = some c1 → c1.right = some r → Produced r

/-! ## Cmd.c: execution

A process is described by the system calls it makes and by how it ends.  The results of the
system calls come from an `OS`, which may answer each call according to everything the calling
process has done so far.  `fork` returns twice: `callCmd` yields the list of all the processes
that come out of the call, the calling process first; each of them either is back in the
caller of `callCmd` (`Status.returned`) or has ended. -/

def STDIN_FILENO : Int := 0

def STDOUT_FILENO : Int := 1

/-- The two flag sets `callCmd` passes to `open`. -/
inductive OpenFlags where
  /-- `O_RDONLY` -/
  | rdonly : OpenFlags
  /-- `O_WRONLY|O_TRUNC|O_CREAT` -/
  | wronlyTruncCreat : OpenFlags
  deriving DecidableEq, Repr

/-- A system call (or library call with an effect) together with the value it returned. -/
inductive Ev where
  | dup2 (oldfd newfd : Int) : Ev
  | openFile (path : Option CStr) (flags : OpenFlags) (fd : Int) : Ev
  | close (fd : Int) : Ev
  | pipe (ok : Bool) (readEnd writeEnd : Int) : Ev
  | printf (text : CStr) : Ev
  | fork (ret : Int) : Ev
  | waitpid (pid ret : Int) : Ev
  | execvp (file : Option CStr) (argv : List CStr) (ok : Bool) : Ev
  | exit (code : Int) : Ev
  deriving DecidableEq, Repr

/-- The answers of the operating system; the first argument is the list of calls the calling
process has made so far (a child starts with the calls of its parent up to the fork). -/
structure OS where
  /-- descriptor returned by `open` (-1 on failure) -/
  openFile : List Ev → Option CStr → OpenFlags → Int
  /-- whether `pipe` succeeds, and the two descriptors found in the array afterwards -/
  pipe : List Ev → Bool × Int × Int
  /-- process id `fork` returns in the parent; a value that is not positive means failure -/
  fork : List Ev → Int
  /-- whether `execvp` replaces the process image -/
  execvp : List Ev → Option CStr → List CStr → Bool
  /-- value returned by `waitpid(pid, NULL, 0)`: a process id or -1 -/
  waitpid : List Ev → Int → Int

/-- How a process ends, as far as `callCmd` is concerned. -/
inductive Status where
  /-- the call returned to its caller -/
  | returned : Status
  /-- `execvp` replaced the process image -/
  | execed : Status
  /-- the process called `exit(code)` -/
  | exited (code : Int) : Status
  /-- an access outside an array, or a null program handed to `execvp` -/
  | undefined : Status
  /-- the recursion bound of the model was reached -/
  | outOfFuel : Status
  deriving DecidableEq, Repr

/-- A process: its calls so far and its status. -/
structure Proc where
  trace : List Ev
  status : Status
  deriving DecidableEq, Repr

/-- Continue with `k` every process that has returned; the others have ended. -/
def andThen : List Proc → (List Ev → List Proc) → List Proc
  | [], _ => []
  | p :: ps, k =>
    (match p.status with
     | .returned => k p.trace
     | _ => [p]) ++ andThen ps k

/-- A call of `fork`: the parent goes on with the returned process id, and when the call
succeeded a child goes on with 0. -/
def forkThen (os : OS) (hist : List Ev) (child : List Ev → List Proc)
    (parent : Int → List Ev → List Proc) : List Proc :=
  if 0 < os.fork hist then
    parent (os.fork hist) (hist ++ [Ev.fork (os.fork hist)]) ++ child (hist ++ [Ev.fork 0])
  else parent (-1) (hist ++ [Ev.fork (-1)])

/-- The argument vector `execvp` reads from `args`, from slot `i`, up to the first NULL; with
`fuel = MAX_ARGS - i` slots left in the array. -/
def readArgv (args : Slots) : Nat → Nat → Option (List CStr)
  | 0, _ => none
  | fuel + 1, i =>
    match args.read i with
    | none => none
    | some none => some []
    | some (some a) => (readArgv args fuel (i + 1)).map (fun rest => a :: rest)

/-- Executes a given Cmd with a given input and output. -/
def exec (os : OS) (cmd : Cmd) (input output : Int) (hist : List Ev) : Proc :=
  let hist1 := if input ≠ STDIN_FILENO then hist ++ [Ev.dup2 input 0] else hist
  let hist2 := if output ≠ STDOUT_FILENO then hist1 ++ [Ev.dup2 output 1] else hist1
  match cmd.args.read 0, readArgv cmd.args MAX_ARGS 0 with
  | some (some file), some argv =>
    if os.execvp hist2 (some file) argv then
      { trace := hist2 ++ [Ev.execvp (some file) argv true], status := .execed }
    else
      { trace := hist2 ++ [Ev.execvp (some file) argv false, Ev.exit 10], status := .exited 10 }
  | some none, some argv =>
    { trace := hist2 ++ [Ev.execvp none argv false], status := .undefined }
  | _, _ => { trace := hist2, status := .undefined }

/-- The end of the pipe branch of `callCmd`, in a process that holds `leftPid` and `rightPid`
in `cmd->left->pid` and `cmd->right->pid`: close the read end, wait for both, and exit when
either value returned by `waitpid` is 10. -/
def pipeWait (os : OS) (readEnd leftPid rightPid : Int) (hist : List Ev) : List Proc :=
  let hist1 := hist ++ [Ev.close readEnd]
  let leftStatus := os.waitpid hist1 leftPid
  let hist2 := hist1 ++ [Ev.waitpid leftPid leftStatus]
  let rightStatus := os.waitpid hist2 rightPid
  let hist3 := hist2 ++ [Ev.waitpid rightPid rightStatus]
  if leftStatus = 10 ∨ rightStatus = 10 then
    [{ trace := hist3 ++ [Ev.exit 10], status := .exited 10 }]
  else [{ trace := hist3, status := .returned }]

/-- Recursively breaks down a given Cmd.  The chain of `if (symbol == ...)` tests of the source
is rendered as one `if ... else if ...` chain: the four constants are distinct and `symbol` is
not assigned between the tests. -/
def callCmd (os : OS) : Nat → Cmd → Int → Int → List Ev → List Proc
  | 0, _, _, _, hist => [{ trace := hist, status := .outOfFuel }]
  | fuel + 1, cmd, input, output, hist =>
    match splitPoint cmd with
    | none => [{ trace := hist, status := .undefined }]
    | some splitIndex =>
      if splitIndex ≠ -1 then
        match splitCMD cmd splitIndex with
        | none => [{ trace := hist, status := .undefined }]
        | some cmd1 =>
          match cmd1.left, cmd1.right, cmd1.symbols.read splitIndex.toNat with
          | some left, some right, some (some sym) =>
            let symbol := deref sym
            if symbol = BG_OP then
              andThen (callCmd os fuel { left with pid := cmd1.pid } input output hist)
                (fun h => [{ trace := h, status := .returned }])
            else if symbol = REDIRECT_IN_OP then
              match right.args.read 0 with
              | none => [{ trace := hist, status := .undefined }]
              | some path =>
                let input1 := os.openFile hist path .rdonly
                andThen (callCmd os fuel { left with pid := cmd1.pid } input1 output
                    (hist ++ [Ev.openFile path .rdonly input1]))
                  (fun h => [{ trace := h ++ [Ev.close input1], status := .returned }])
            else if symbol = REDIRECT_OUT_OP then
              match right.args.read 0 with
              | none => [{ trace := hist, status := .undefined }]
              | some path =>
                let output1 := os.openFile hist path .wronlyTruncCreat
                andThen (callCmd os fuel { left with pid := cmd1.pid } input output1
                    (hist ++ [Ev.openFile path .wronlyTruncCreat output1]))
                  (fun h => [{ trace := h ++ [Ev.close output1], status := .returned }])
            else if symbol = PIPE_OP then
              let readEnd := (os.pipe hist).2.1
              let writeEnd := (os.pipe hist).2.2
              let hist1 :=
                if (os.pipe hist).1 then hist ++ [Ev.pipe true readEnd writeEnd]
                else hist ++ [Ev.pipe false readEnd writeEnd, Ev.printf "Pipe Error\n".toList]
              -- what follows the first `if (cmd->left->pid == 0) { ... }`
              let afterLeft : Int → List Ev → List Proc := fun leftPid h =>
                forkThen os (h ++ [Ev.close writeEnd])
                  (fun hc =>
                    andThen (callCmd os fuel { right with pid := 0 } readEnd output hc)
                      (pipeWait os readEnd leftPid 0))
                  (fun rightPid hp => pipeWait os readEnd leftPid rightPid hp)
              forkThen os hist1
                (fun hc =>
                  andThen (callCmd os fuel { left with pid := 0 } input writeEnd
                      (hc ++ [Ev.close readEnd]))
                    (afterLeft 0))
                (fun leftPid hp => afterLeft leftPid hp)
            else [{ trace := hist, status := .returned }]
          | _, _, _ => [{ trace := hist, status := .undefined }]
      else [exec os cmd input output hist]

/-- An operating system for examples: `open` returns descriptor 3, `pipe` succeeds with the
descriptors 3 and 4, `fork` returns 100 plus the number of calls the parent has made,
`waitpid` returns the process id it was asked to wait for (-1 when that is not a process id),
and `execvp` succeeds for every program but `b`. -/
def sampleOS : OS :=
  { openFile := fun _ _ _ => 3
    pipe := fun _ => (true, 3, 4)
    fork := fun hist => 100 + (hist.length : Int)
    execvp := fun _ file _ => decide (file ≠ some ['b'])
    waitpid := fun _ pid => if 0 < pid then pid else -1 }

/-! ## processList.h, processList.c

The job list lives in a heap of blocks indexed by address.  `calloc` hands out a fresh address
each time.  `free` leaves the bytes of a block in place: the model keeps the block, so that the
read of `node->next` which the second loop of `checkProcessStatus` makes after
`removeProcess(node)` sees what `removeProcess` stored there before freeing.  Following a
pointer to an address that was never allocated fails (`none`). -/

/-- A node of the doubly linked list of background processes. -/
structure processList where
  /-- Stores the associated command -/
  cmd : Cmd
  /-- Stores the tmp file index for the output -/
  file : Int
  /-- Stores the Process Id -/
  pid : Int
  /-- Stores the status of a node -/
  status : Int
  /-- Holds the next node in a list -/
  next : Option Nat
  /-- Holds the previous node in a list -/
  last : Option Nat

/-- The blocks handed out by `calloc`, by address. -/
abbrev Heap := Nat → Option processList

/-- Store a block at an address. -/
def Heap.store (h : Heap) (a : Nat) (n : processList) : Heap :=
  fun b => if b = a then some n else h b

/-- `a->next = v` -/
def Heap.setNext (h : Heap) (a : Nat) (v : Option Nat) : Option Heap :=
  match h a with
  | none => none
  | some n => some (h.store a { n with next := v })

/-- `a->last = v` -/
def Heap.setLast (h : Heap) (a : Nat) (v : Option Nat) : Option Heap :=
  match h a with
  | none => none
  | some n => some (h.store a { n with last := v })

/-- `a->status = v` -/
def Heap.setStatus (h : Heap) (a : Nat) (v : Int) : Option Heap :=
  match h a with
  | none => none
  | some n => some (h.store a { n with status := v })

/-- The value an `int` holds after an increment has left its range: the 32-bit two's
complement wrap of the compiled program (2147483647 + 1 gives -2147483648; the C standard
leaves the overflow undefined).  Inside the range it is the identity. -/
def wrapInt (x : Int) : Int := (x + 2147483648) % 4294967296 - 2147483648

/-- The globals of processList.c, with the heap. -/
structure Jobs where
  heap : Heap
  /-- the address the next `calloc` returns; every allocated address is below it -/
  brk : Nat
  /-- The head (the furthest left node) -/
  head : Option Nat
  /-- Internally used to assign process numbers to each processList node. -/
  processNumber : Int

/-- The state at program start: `processNumber = 1`, `head = NULL`. -/
def Jobs.fresh : Jobs :=
  { heap := fun _ => none, brk := 0, head := none, processNumber := 1 }

/-- Creates a new process node and returns a reference to it. -/
def newProcess (st : Jobs) (cmd : Cmd) (output status : Int) : Jobs × Nat :=
  ({ st with
      heap := st.heap.store st.brk
        { cmd := cmd, file := output, pid := st.processNumber, status := status,
          next := none, last := none }
      brk := st.brk + 1
      processNumber := wrapInt (st.processNumber + 1) },
   st.brk)

/-- The loop `while (node->next != NULL) node = node->next;` of `addProcess`. -/
def lastNode (heap : Heap) : Nat → Nat → Option Nat
  | 0, _ => none
  | fuel + 1, node =>
    match heap node with
    | none => none
    | some n =>
      match n.next with
      | none => some node
      | some nx => lastNode heap fuel nx

/-- Adds a process at the furthest right position of the list; it becomes the head when the
list is empty.  A list of distinct allocated nodes has at most `brk` nodes, which bounds the
walk. -/
def addProcess (st : Jobs) (toAdd : Nat) : Option Jobs :=
  match st.head with
  | none => some { st with head := some toAdd }
  | some h =>
    match lastNode st.heap st.brk h with
    | none => none
    | some node =>
      match st.heap.setNext node (some toAdd) with
      | none => none
      | some heap1 =>
        match heap1.setLast toAdd (some node) with
        | none => none
        | some heap2 => some { st with heap := heap2 }

/-- The loop `while (node != NULL && node != toRemove) node = node->next;` of `removeProcess`:
the value of `node` when it ends. -/
def findNode (heap : Heap) (toRemove : Nat) : Nat → Option Nat → Option (Option Nat)
  | 0, _ => none
  | _ + 1, none => some none
  | fuel + 1, some a =>
    if a = toRemove then some (some a)
    else
      match heap a with
      | none => none
      | some n => findNode heap toRemove fuel n.next

/-- Removes a given node from the list. When the head is removed the next node takes its
place. -/
def removeProcess (st : Jobs) (toRemove : Nat) : Option Jobs :=
  match st.head with
  | none => some st
  | some h =>
    if h = toRemove then
      match st.heap h with
      | none => none
      | some hn =>
        -- newlist = head->next; head->next = NULL; free(toRemove->cmd); free(toRemove);
        match st.heap.setNext h none with
        | none => none
        | some heap1 =>
          match hn.next with
          | none => some { st with heap := heap1, head := none }
          | some newlist =>
            -- newlist->last = NULL; head = newlist;
            match heap1.setLast newlist none with
            | none => none
            | some heap2 => some { st with heap := heap2, head := some newlist }
    else
      match findNode st.heap toRemove (st.brk + 1) (some h) with
      | none => none
      | some none => some st
      | some (some node) =>
        match st.heap node with
        | none => none
        | some n =>
          -- if (node->next != NULL) node->next->last = node->last;
          match (match n.next with
                 | none => some st.heap
                 | some nx => st.heap.setLast nx n.last) with
          | none => none
          | some heap1 =>
            -- node->last->next = node->next;
            match heap1 node with
            | none => none
            | some n1 =>
              match n1.last with
              | none => none
              | some lp =>
                match heap1.setNext lp n1.next with
                | none => none
                | some heap2 =>
                  -- node->last = NULL; node->next = NULL; free(toRemove->cmd); free(toRemove);
                  match heap2.setLast node none with
                  | none => none
                  | some heap3 =>
                    match heap3.setNext node none with
                    | none => none
                    | some heap4 => some { st with heap := heap4 }

/-- The loop of `removeAllProcesses`. -/
def removeAllLoop : Nat → Jobs → Option Jobs
  | 0, _ => none
  | fuel + 1, st =>
    match st.head with
    | none => some st
    | some h =>
      match removeProcess st h with
      | none => none
      | some st1 => removeAllLoop fuel st1

/-- Deletes the entire list. -/
def removeAllProcesses (st : Jobs) : Option Jobs := removeAllLoop (st.brk + 1) st

/-- The number of the continue signal (its Linux value). -/
def SIGCONT : Int := 18

/-- The loop of `resumeProcess` from `node`: the value returned, the new heap, and the signals
sent with `kill` as pairs (process id, signal). -/
def resumeLoop (heap : Heap) (processID : Int) :
    Nat → Option Nat → Option (Int × Heap × List (Int × Int))
  | 0, _ => none
  | _ + 1, none => some (1, heap, [])
  | fuel + 1, some a =>
    match heap a with
    | none => none
    | some n =>
      if n.pid = processID then
        some (0, heap.store a { n with status := 0 }, [(n.cmd.pid, SIGCONT)])
      else resumeLoop heap processID fuel n.next

/-- Resumes a stopped process given a process id. -/
def resumeProcess (st : Jobs) (processID : Int) : Option (Int × Jobs × List (Int × Int)) :=
  match st.head with
  | none => some (1, st, [])
  | some h =>
    (resumeLoop st.heap processID (st.brk + 1) (some h)).map
      (fun r => (r.1, { st with heap := r.2.1 }, r.2.2))

/-- What `waitpid(pid, &status, WNOHANG)` reports: the value returned, and the three readings
of `status` that `checkProcessStatus` takes. -/
structure WaitResult where
  ret : Int
  ifSignaled : Bool
  ifExited : Bool
  exitStatus : Int

/-- What `checkProcessStatus` sends to standard output: one of its three lines, or bytes of a
job's captured output written by `printOutput`. -/
inductive Output where
  | terminated (id : Int) (text : CStr) : Output
  | exit (id code : Int) (text : CStr) : Output
  | done (id : Int) (text : CStr) : Output
  | write (bytes : List Char) : Output
  deriving DecidableEq, Repr

/-- The descriptors of the shell: the bytes of the file behind each open readable descriptor,
`none` for a descriptor on which `read` fails (one that is closed, or -1). -/
abbrev Files := Int → Option (List Char)

/-- `close(fd)` -/
def Files.close (files : Files) (fd : Int) : Files :=
  fun x => if x = fd then none else files x

/-- The size `sizeof(buff)` of the pointer `char *buff`, which `printOutput` passes to `read`
as the byte count (an LP64 system). -/
def BUFF_SIZE : Nat := 8

/-- The loop of `printOutput` on the bytes of the file from the current position: `read`
takes at most `sizeof(buff)` bytes; while it returns more than 0 they are written to standard
output and `read` is called again. -/
def copyLoop : Nat → List Char → Option (List Output)
  | 0, _ => none
  | fuel + 1, rest =>
    if (rest.take BUFF_SIZE).length > 0 then
      (copyLoop fuel (rest.drop BUFF_SIZE)).map (fun out => Output.write (rest.take BUFF_SIZE) :: out)
    else some []

/-- Prints the output of the command inside the node stored in the temporary file, from its
start, and closes the file; nothing is done for a node whose file is standard output.  The
result is `none` when `read` fails on the descriptor: the -1 it returns is stored in the
`size_t buffLen`, where it is greater than 0, and every further `read` fails the same way, so
`while (buffLen > 0)` never ends and the call does not return. -/
def printOutput (files : Files) (node : processList) : Option (Files × List Output) :=
  if node.file ≠ STDOUT_FILENO then
    match files node.file with
    | none => none
    | some content =>
      (copyLoop (content.length + 1) content).map (fun out => (files.close node.file, out))
  else some (files, [])

/-- The buffer, read as a C string, after `strtok(buf, delim)` (see `cutNewline`). -/
def cutAt (delim : List Char) (s : CStr) : CStr :=
  s.takeWhile (fun c => decide (c ∈ delim)) ++
    (s.dropWhile (fun c => decide (c ∈ delim))).takeWhile (fun c => !decide (c ∈ delim))

/-- The token `strtok(node->cmd->line, "&\n")` returns, as `printf("%s")` shows it (`(null)`
when there is none). -/
def lineText (line : CStr) : CStr :=
  match strtok ['&', '\n'] line with
  | none => "(null)".toList
  | some (tok, _) => tok

/-- The body of the first loop of `checkProcessStatus` for the block `n`: the block and the
descriptors after it, and what it printed; `none` when `printOutput` does not return. -/
def pollNode (waitpid : Int → WaitResult) (files : Files) (n : processList) :
    Option (processList × Files × List Output) :=
  if n.status = 0 then
    let w := waitpid n.cmd.pid
    let n1 := { n with status := w.ret }
    if n1.status > 0 then
      let text := lineText (strcpy n1.cmd.line)
      let cut : processList → processList := fun m =>
        { m with cmd := { m.cmd with line := cutAt ['&', '\n'] (strcpy m.cmd.line) } }
      let (n2, out2) :=
        if w.ifSignaled then
          ({ cut n1 with status := -2 }, [Output.terminated n1.pid text])
        else (n1, [])
      let (n3, out3) :=
        if w.ifExited ∧ w.exitStatus ≠ 0 then
          ({ cut n2 with status := 1 },
            out2 ++ [Output.exit n2.pid w.exitStatus (lineText (strcpy n2.cmd.line))])
        else (n2, out2)
      if n3.status = n3.cmd.pid then
        (printOutput files (cut n3)).map (fun r =>
          (cut n3, r.1, out3 ++ [Output.done n3.pid (lineText (strcpy n3.cmd.line))] ++ r.2))
      else some (n3, files, out3)
    else some (n1, files, [])
  else some (n, files, [])

/-- The first loop of `checkProcessStatus`, from `node`. -/
def pollLoop (waitpid : Int → WaitResult) :
    Nat → Heap → Files → Option Nat → List Output → Option (Heap × Files × List Output)
  | 0, _, _, _, _ => none
  | _ + 1, heap, files, none, out => some (heap, files, out)
  | fuel + 1, heap, files, some a, out =>
    match heap a with
    | none => none
    | some n =>
      match pollNode waitpid files n with
      | none => none
      | some (n1, files1, out1) =>
        pollLoop waitpid fuel (heap.store a n1) files1 n.next (out ++ out1)

/-- The second loop of `checkProcessStatus`, from `node`.  Each round removes a node or moves
on, so `2 * brk + 1` rounds are enough. -/
def sweepLoop : Nat → Jobs → Option Nat → Option Jobs
  | 0, _, _ => none
  | _ + 1, st, none => some st
  | fuel + 1, st, some a =>
    match st.heap a with
    | none => none
    | some n =>
      if n.status > 0 then
        -- tmp = head; removeProcess(node);
        match removeProcess st a with
        | none => none
        | some st1 =>
          if st1.head ≠ st.head then sweepLoop fuel st1 st1.head
          else
            -- skip == 0: node = node->next, read from the block just freed
            match st1.heap a with
            | none => none
            | some n1 => sweepLoop fuel st1 n1.next
      else sweepLoop fuel st n.next

/-- Checks the status of all the processes in the list.  When the call returns, the result
is the table and the descriptors it leaves and what it printed. -/
def checkProcessStatus (waitpid : Int → WaitResult) (files : Files) (st : Jobs) :
    Option (Jobs × Files × List Output) :=
  match st.head with
  | none => some (st, files, [])
  | some h =>
    match pollLoop waitpid (st.brk + 1) st.heap files (some h) [] with
    | none => none
    | some (heap1, files1, out) =>
      (sweepLoop (2 * st.brk + 1) { st with heap := heap1 } (some h)).map
        (fun st2 => (st2, files1, out))

/-- The addresses of the nodes of the list, following `next` from `node`. -/
def walk (heap : Heap) : Nat → Option Nat → List Nat
  | 0, _ => []
  | _ + 1, none => []
  | fuel + 1, some a =>
    match heap a with
    | none => [a]
    | some n => a :: walk heap fuel n.next

/-- The nodes of the table, from the head. -/
def Jobs.nodes (st : Jobs) : List Nat := walk st.heap st.brk st.head

/-- The pairs (display id, status) of the nodes of the table, from the head. -/
def Jobs.listing (st : Jobs) : List (Int × Int) :=
  st.nodes.filterMap (fun a => (st.heap a).map (fun n => (n.pid, n.status)))

/-- The heap holds a doubly linked segment: `cur` points to the first node of `l`, each node's
`next` points to the following one (NULL after the final one), the first node's `last` is
`prev` and each other node's `last` points to the one before. -/
def IsSeg (heap : Heap) : Option Nat → Option Nat → List Nat → Prop
  | _, cur, [] => cur = none
  | prev, cur, a :: l =>
    cur = some a ∧ ∃ n, heap a = some n ∧ n.last = prev ∧ IsSeg heap (some a) n.next l

/-- The job table holds exactly the nodes `l`, in this order: a well-formed doubly linked list
of distinct allocated blocks, starting at `head`. -/
structure Table (st : Jobs) (l : List Nat) : Prop where
  seg : IsSeg st.heap none st.head l
  nodup : l.Nodup
  lt_brk : ∀ a, a ∈ l → a < st.brk

/-- The fields of a record other than the two links. -/
def processList.payload (n : processList) : Cmd × Int × Int × Int :=
  (n.cmd, n.file, n.pid, n.status)

/-- Two heaps hold the same records: block by block, all fields but the links agree. -/
def Heap.sameRecords (h1 h2 : Heap) : Prop :=
  ∀ x, (h2 x).map processList.payload = (h1 x).map processList.payload

/-- The display id stored at an address (0 when nothing is stored there). -/
def Heap.pidAt (h : Heap) (a : Nat) : Int :=
  match h a with
  | none => 0
  | some n => n.pid

/-- The operations of the job table, as the shell uses them: create a record and append it
(`newProcess` followed by `addProcess`), remove a node, clear the table. -/
inductive JobOp where
  | create (cmd : Cmd) (output status : Int) : JobOp
  | remove (node : Nat) : JobOp
  | removeAll : JobOp

/-- Run a sequence of table operations; returns the final state and the display ids the
created records received, in creation order. -/
def runOps : List JobOp → Jobs → Option (Jobs × List Int)
  | [], st => some (st, [])
  | .create cmd output status :: ops, st =>
    match addProcess (newProcess st cmd output status).1 (newProcess st cmd output status).2 with
    | none => none
    | some st2 =>
      (runOps ops st2).map (fun r =>
        (r.1, (newProcess st cmd output status).1.heap.pidAt
                (newProcess st cmd output status).2 :: r.2))
  | .remove node :: ops, st =>
    match removeProcess st node with
    | none => none
    | some st1 => runOps ops st1
  | .removeAll :: ops, st =>
    match removeAllProcesses st with
    | none => none
    | some st1 => runOps ops st1

/-- A background command whose process has the given id. -/
def sampleCmd (pid : Int) : Cmd :=
  { Cmd.calloc with line := "sleep 9 &\n".toList, pid := pid }

/-- A table of three running jobs, display ids 1, 2, 3, processes 500, 501, 502. -/
def sampleJobs : Jobs :=
  { heap := fun a =>
      if a = 0 then
        some { cmd := sampleCmd 500, file := 5, pid := 1, status := 0, next := some 1, last := none }
      else if a = 1 then
        some { cmd := sampleCmd 501, file := 5, pid := 2, status := 0, next := some 2,
               last := some 0 }
      else if a = 2 then
        some { cmd := sampleCmd 502, file := 5, pid := 3, status := 0, next := none,
               last := some 1 }
      else none
    brk := 3
    head := some 0
    processNumber := 4 }

/-- Waits in which process 500 has not changed state and every other process has exited with
status 0. -/
def sampleWait : Int → WaitResult := fun pid =>
  if pid = 500 then { ret := 0, ifSignaled := false, ifExited := false, exitStatus := 0 }
  else { ret := pid, ifSignaled := false, ifExited := true, exitStatus := 0 }

/-- Three capture files, open on the descriptors 5, 6 and 7. -/
def sampleFiles : Files := fun fd =>
  if fd = 5 then some "one\n".toList
  else if fd = 6 then some "two\n".toList
  else if fd = 7 then some "a third line\n".toList
  else none

/-- The number of records a sequence of operations creates. -/
def createCount : List JobOp → Nat
  | [] => 0
  | .create _ _ _ :: ops => createCount ops + 1
  | .remove _ :: ops => createCount ops
  | .removeAll :: ops => createCount ops

/-- After `k` creations: the display ids of the records in the table `l` are strictly
increasing along the list and lie in `1..k`, and the counter holds what the increment of `k`
left in it. -/
structure IdsOrdered (st : Jobs) (l : List Nat) (k : Nat) : Prop where
  table : Table st l
  counter : st.processNumber = wrapInt ((k : Int) + 1)
  increasing : (l.map st.heap.pidAt).Pairwise (fun x y => x < y)
  range : ∀ a, a ∈ l → 1 ≤ st.heap.pidAt a ∧ st.heap.pidAt a ≤ (k : Int)


/-! ## processList.c: listing -/

/-- A line printed by `printProcess`. -/
inductive JobLine where
  /-- `No processes to list.` -/
  | noProcesses : JobLine
  /-- `[id] Stopped` followed by the command line -/
  | stopped (id : Int) (line : CStr) : JobLine
  /-- `[id] Running` followed by the command line -/
  | running (id : Int) (line : CStr) : JobLine
  deriving DecidableEq, Repr

/-- The loop of `printProcess`, from `node`. -/
def printLoop (heap : Heap) : Nat → Option Nat → Option (List JobLine)
  | 0, _ => none
  | _ + 1, none => some []
  | fuel + 1, some a =>
    match heap a with
    | none => none
    | some n =>
      (printLoop heap fuel n.next).map (fun rest =>
        (if n.status = -2 then JobLine.stopped n.pid (strcpy n.cmd.line)
         else JobLine.running n.pid (strcpy n.cmd.line)) :: rest)

/-- Prints the status of every node.  Used in the implementation of jobs. -/
def printProcess (st : Jobs) : Option (List JobLine) :=
  match st.head with
  | none => some [JobLine.noProcesses]
  | some h => printLoop st.heap (st.brk + 1) (some h)

/-- A wait in which every process is reported killed by a signal. -/
def signaledWait : Int → WaitResult := fun pid =>
  { ret := pid, ifSignaled := true, ifExited := false, exitStatus := 0 }

/-- The space-separated tokens of the text of a line, the newline that ends it excluded. -/
def textTokens (line : List Char) : List CStr :=
  strtokAll [' '] ((strcpy line).takeWhile (fun c => c != '\n')).length
    ((strcpy line).takeWhile (fun c => c != '\n'))

/-- An operating system like `sampleOS` in which `execvp` succeeds for every program. -/
def launchingOS : OS :=
  { openFile := fun _ _ _ => 3
    pipe := fun _ => (true, 3, 4)
    fork := fun hist => 100 + (hist.length : Int)
    execvp := fun _ _ _ => true
    waitpid := fun _ pid => if 0 < pid then pid else -1 }

/-- The program a process has launched: the file of a successful `execvp`, its final call. -/
def Proc.program (p : Proc) : Option CStr :=
  match p.trace.getLast? with
  | some (Ev.execvp (some file) _ true) => some file
  | _ => none

/-! ## Lemmas: library functions -/

theorem takeWhile_append_stop {α : Type} (p : α → Bool) (t rest : List α)
    (ht : ∀ c, c ∈ t → p c = true) (hr : rest = [] ∨ ∃ c r, rest = c :: r ∧ p c = false) :
    (t ++ rest).takeWhile p = t ∧ (t ++ rest).dropWhile p = rest := by
  induction t with
  | nil =>
    rcases hr with rfl | ⟨c, r, rfl, hc⟩
    · simp
    · simp [List.takeWhile, List.dropWhile, hc]
  | cons a t ih =>
    have ha : p a = true := ht a (List.mem_cons_self _ _)
    have := ih (fun c hc => ht c (List.mem_cons_of_mem _ hc))
    simp [List.takeWhile, List.dropWhile, ha, this]

theorem dropWhile_replicate_append {α : Type} (p : α → Bool) (x : α) (hx : p x = true) (k : Nat)
    (l : List α) : (List.replicate k x ++ l).dropWhile p = l.dropWhile p := by
  induction k with
  | zero => simp
  | succ k ih => simp [List.replicate_succ, List.dropWhile, hx, ih]

theorem strtok_spaces (k : Nat) : strtok [' '] (List.replicate k ' ') = none := by
  have h := dropWhile_replicate_append (fun c => decide (c ∈ [' '])) ' ' (by simp) k []
  simp only [List.append_nil] at h
  simp [strtok, h]

theorem strtok_token (k : Nat) (t rest : CStr) (ht : t ≠ []) (hsp : ' ' ∉ t)
    (hr : rest = [] ∨ ∃ r, rest = ' ' :: r) :
    strtok [' '] (List.replicate k ' ' ++ t ++ rest) = some (t, rest.tail) := by
  obtain ⟨c, r, rfl⟩ := List.exists_cons_of_ne_nil ht
  have hc : c ≠ ' ' := fun h => hsp (by simp [h])
  have h1 : (List.replicate k ' ' ++ (c :: r) ++ rest).dropWhile (fun c => decide (c ∈ [' ']))
      = (c :: r) ++ rest := by
    rw [List.append_assoc, dropWhile_replicate_append _ _ (by simp)]
    simp [List.dropWhile, hc]
  have h2 := takeWhile_append_stop (fun c => !decide (c ∈ [' '])) (c :: r) rest
    (by
      intro x hx
      have : x ≠ ' ' := fun h => hsp (h ▸ hx)
      simp [this])
    (by
      rcases hr with rfl | ⟨r', rfl⟩
      · exact Or.inl rfl
      · exact Or.inr ⟨' ', r', rfl, by simp⟩)
  unfold strtok
  rw [h1]
  simp only [List.cons_append] at h2 ⊢
  rw [h2.1, h2.2]

theorem dropWhile_eq_cons {α : Type} (p : α → Bool) (s : List α) (c : α) (r : List α)
    (h : s.dropWhile p = c :: r) : p c = false ∧ r.length < s.length := by
  induction s with
  | nil => simp at h
  | cons a s ih =>
    by_cases ha : p a = true
    · simp only [List.dropWhile, ha] at h
      have := ih h
      exact ⟨this.1, by simp; omega⟩
    · have ha2 : p a = false := by simpa using ha
      simp only [List.dropWhile, ha2] at h
      simp only [List.cons.injEq] at h
      obtain ⟨rfl, rfl⟩ := h
      exact ⟨ha2, by simp⟩

theorem strtok_shrinks (d : List Char) (s tok rest : CStr) (h : strtok d s = some (tok, rest)) :
    tok ≠ [] ∧ (rest.length + 2 ≤ s.length ∨ (rest = [] ∧ 1 ≤ s.length)) := by
  unfold strtok at h
  cases hs : s.dropWhile (fun c => decide (c ∈ d)) with
  | nil => simp [hs] at h
  | cons c r =>
    rw [hs] at h
    obtain ⟨hc, hr⟩ := dropWhile_eq_cons _ s c r hs
    simp only [Option.some.injEq, Prod.mk.injEq] at h
    obtain ⟨h1, h2⟩ := h
    have hq : (!decide (c ∈ d)) = true := by simp [hc]
    constructor
    · rw [← h1]; simp [List.takeWhile, hq]
    · have hle : (r.dropWhile (fun c => !decide (c ∈ d))).length ≤ r.length :=
        (List.dropWhile_sublist _).length_le
      have h3 : rest = (r.dropWhile (fun c => !decide (c ∈ d))).tail := by
        rw [← h2]; simp [List.dropWhile, hq]
      cases hr2 : r.dropWhile (fun c => !decide (c ∈ d)) with
      | nil =>
        right
        rw [h3, hr2]
        exact ⟨rfl, by omega⟩
      | cons x r2 =>
        left
        rw [hr2] at hle h3
        rw [h3]
        simp at hle ⊢
        omega

theorem strtokAll_length (d : List Char) : ∀ (fuel : Nat) (s : CStr),
    2 * (strtokAll d fuel s).length ≤ s.length + 1 := by
  intro fuel
  induction fuel with
  | zero => intro s; simp [strtokAll]
  | succ fuel ih =>
    intro s
    unfold strtokAll
    cases h : strtok d s with
    | none => simp
    | some p =>
      obtain ⟨tok, rest⟩ := p
      have := strtok_shrinks d s tok rest h
      have := ih rest
      simp only [List.length_cons]
      rcases ‹_ ∧ _›.2 with h1 | ⟨h1, h2⟩
      · omega
      · subst h1
        have h0 : (strtokAll d fuel []).length = 0 := by
          cases fuel <;> simp [strtokAll, strtok]
        omega

theorem spacedTail_shape (r : List (Nat × CStr)) (tail : CStr) :
    (spacedTail r ++ tail = tail ∧ r = []) ∨
      (∃ p r1, r = p :: r1 ∧ spacedTail r ++ tail = ' ' :: (spaced r ++ tail)) := by
  cases r with
  | nil => left; simp [spacedTail]
  | cons p r1 =>
    right
    obtain ⟨k, t⟩ := p
    exact ⟨(k, t), r1, rfl, by simp [spacedTail, spaced]⟩

theorem strtokAll_spaced : ∀ (toks : List (Nat × CStr)) (trail fuel : Nat),
    (∀ p, p ∈ toks → p.2 ≠ [] ∧ ' ' ∉ p.2) →
    (spaced toks ++ List.replicate trail ' ').length ≤ fuel →
    strtokAll [' '] fuel (spaced toks ++ List.replicate trail ' ') = toks.map Prod.snd := by
  intro toks
  induction toks with
  | nil =>
    intro trail fuel _ _
    cases fuel with
    | zero => simp [strtokAll]
    | succ fuel => simp [strtokAll, spaced, strtok_spaces]
  | cons p r ih =>
    intro trail fuel htok hfuel
    obtain ⟨k, t⟩ := p
    have hp := htok (k, t) (List.mem_cons_self _ _)
    have hr : ∀ p, p ∈ r → p.2 ≠ [] ∧ ' ' ∉ p.2 := fun p hp => htok p (List.mem_cons_of_mem _ hp)
    have htlen : 1 ≤ t.length := by
      cases t with
      | nil => exact absurd rfl hp.1
      | cons => simp
    cases fuel with
    | zero =>
      simp only [spaced, List.length_append, List.length_replicate] at hfuel
      omega
    | succ fuel =>
      have hshape : spaced ((k, t) :: r) ++ List.replicate trail ' ' =
          List.replicate k ' ' ++ t ++ (spacedTail r ++ List.replicate trail ' ') := by
        simp [spaced]
      rw [hshape] at hfuel ⊢
      rcases spacedTail_shape r (List.replicate trail ' ') with ⟨h1, rfl⟩ | ⟨q, r1, hq, h1⟩
      · rw [h1] at hfuel ⊢
        have hst := strtok_token k t (List.replicate trail ' ') hp.1 hp.2
          (by cases trail with
              | zero => left; rfl
              | succ n => right; exact ⟨List.replicate n ' ', by simp [List.replicate_succ]⟩)
        unfold strtokAll
        rw [hst]
        have htail : (List.replicate trail ' ').tail = spaced [] ++ List.replicate (trail - 1) ' ' := by
          cases trail <;> simp [spaced, List.replicate_succ]
        simp only [List.map_cons, List.cons.injEq, true_and]
        rw [htail]
        apply ih _ _ hr
        simp [spaced] at hfuel ⊢
        omega
      · rw [h1] at hfuel ⊢
        have hst := strtok_token k t (' ' :: (spaced r ++ List.replicate trail ' ')) hp.1 hp.2
          (Or.inr ⟨_, rfl⟩)
        unfold strtokAll
        rw [hst]
        simp only [List.map_cons, List.cons.injEq, true_and, List.tail_cons]
        apply ih _ _ hr
        simp at hfuel ⊢
        omega

theorem spaced_length (toks : List (Nat × CStr)) (h : ∀ p, p ∈ toks → p.2 ≠ []) :
    2 * toks.length ≤ (spaced toks).length + 1 ∧ 2 * toks.length ≤ (spacedTail toks).length := by
  induction toks with
  | nil => simp [spaced, spacedTail]
  | cons p r ih =>
    obtain ⟨k, t⟩ := p
    have ht : 1 ≤ t.length := by
      have := h (k, t) (List.mem_cons_self _ _)
      cases t with
      | nil => exact absurd rfl this
      | cons => simp
    have := ih (fun p hp => h p (List.mem_cons_of_mem _ hp))
    simp [spaced, spacedTail]
    omega

/-! ## Lemmas: the tokeniser -/

theorem setCmdLengthFrom_spec (a s : Slots) (n : Nat) (hn : n < MAX_ARGS)
    (hempty : a n = none ∧ s n = none) : ∀ (fuel k : Nat), fuel + k = MAX_ARGS → k ≤ n →
    ∃ m, setCmdLengthFrom a s fuel k = some m ∧ k ≤ m ∧ m ≤ n ∧
      (∀ i, k ≤ i → i < m → (a i ≠ none ∨ s i ≠ none)) ∧ a m = none ∧ s m = none := by
  intro fuel
  induction fuel with
  | zero => intro k hk hkn; omega
  | succ fuel ih =>
    intro k hk hkn
    have hklt : k < MAX_ARGS := by omega
    unfold setCmdLengthFrom
    simp only [Slots.read, hklt, if_true]
    by_cases hpop : a k ≠ none ∨ s k ≠ none
    · have hne : k ≠ n := by
        rintro rfl
        rcases hpop with h | h
        · exact h hempty.1
        · exact h hempty.2
      obtain ⟨m, hm, h1, h2, h3, h4⟩ := ih (k + 1) (by omega) (by omega)
      refine ⟨m, ?_, by omega, h2, ?_, h4⟩
      · simp only [hpop, if_true]; exact hm
      · intro i hi him
        by_cases hik : i = k
        · subst hik; exact hpop
        · exact h3 i (by omega) him
    · refine ⟨k, ?_, le_refl _, hkn, ?_, ?_⟩
      · simp only [hpop, if_false]
      · intro i hi him; omega
      · push_neg at hpop; exact hpop

theorem setCmdLengthFrom_some (a s : Slots) : ∀ (fuel k m : Nat), fuel + k = MAX_ARGS →
    setCmdLengthFrom a s fuel k = some m →
    k ≤ m ∧ m < MAX_ARGS ∧ (∀ i, k ≤ i → i < m → (a i ≠ none ∨ s i ≠ none)) ∧
      a m = none ∧ s m = none := by
  intro fuel
  induction fuel with
  | zero => intro k m _ h; simp [setCmdLengthFrom] at h
  | succ fuel ih =>
    intro k m hk h
    have hklt : k < MAX_ARGS := by omega
    unfold setCmdLengthFrom at h
    simp only [Slots.read, hklt, if_true] at h
    by_cases hpop : a k ≠ none ∨ s k ≠ none
    · simp only [hpop, if_true] at h
      obtain ⟨h1, h2, h3, h4⟩ := ih (k + 1) m (by omega) h
      refine ⟨by omega, h2, ?_, h4⟩
      intro i hi him
      by_cases hik : i = k
      · subst hik; exact hpop
      · exact h3 i (by omega) him
    · simp only [hpop, if_false, Option.some.injEq] at h
      subst h
      refine ⟨le_refl _, hklt, ?_, ?_⟩
      · intro i hi him; omega
      · push_neg at hpop; exact hpop

theorem argOf_symOf_cases (t : CStr) :
    (deref t = '\n' ∧ argOf t = none ∧ symOf t = none) ∨
    (deref t ≠ '\n' ∧ isOpChar (deref t) = true ∧ argOf t = none ∧ symOf t = some t) ∨
    (deref t ≠ '\n' ∧ isOpChar (deref t) = false ∧ argOf t = some t ∧ symOf t = none) := by
  unfold argOf symOf
  by_cases h1 : deref t = '\n'
  · left; simp [h1]
  · by_cases h2 : isOpChar (deref t) = true
    · right; left; simp [h1, h2]
    · right; right
      have h3 : isOpChar (deref t) = false := by simpa using h2
      simp [h1, h3]

theorem parseTokens_spec : ∀ (toks : List CStr) (i : Nat) (a s : Slots),
    i + toks.length ≤ MAX_ARGS →
    ∃ a1 s1, parseTokens toks i a s = some (i + toks.length, a1, s1) ∧
      (∀ j, a1 j = if i ≤ j ∧ j < i + toks.length then (toks[j - i]?).bind argOf else a j) ∧
      (∀ j, s1 j = if i ≤ j ∧ ((toks[j - i]?).bind symOf).isSome
                    then (toks[j - i]?).bind symOf else s j) := by
  intro toks
  induction toks with
  | nil =>
    intro i a s _
    refine ⟨a, s, by simp [parseTokens], ?_, ?_⟩
    · intro j
      have : ¬ (i ≤ j ∧ j < i + ([] : List CStr).length) := by simp only [List.length_nil]; omega
      rw [if_neg this]
    · intro j; simp
  | cons t r ih =>
    intro i a s hlen
    simp only [List.length_cons] at hlen
    have hi : i < MAX_ARGS := by omega
    have key : ∀ (a0 s0 : Slots), (∀ j, a0 j = if j = i then argOf t else a j) →
        (∀ j, s0 j = if j = i ∧ (symOf t).isSome then symOf t else s j) →
        ∃ a1 s1, parseTokens r (i + 1) a0 s0 = some (i + (t :: r).length, a1, s1) ∧
          (∀ j, a1 j = if i ≤ j ∧ j < i + (t :: r).length
                        then ((t :: r)[j - i]?).bind argOf else a j) ∧
          (∀ j, s1 j = if i ≤ j ∧ (((t :: r)[j - i]?).bind symOf).isSome
                        then ((t :: r)[j - i]?).bind symOf else s j) := by
      intro a0 s0 ha0 hs0
      obtain ⟨a1, s1, h1, h2, h3⟩ := ih (i + 1) a0 s0 (by omega)
      refine ⟨a1, s1, ?_, ?_, ?_⟩
      · rw [h1]; simp only [List.length_cons]; congr 2; omega
      · intro j
        rw [h2 j, ha0 j]
        simp only [List.length_cons]
        by_cases hji : j = i
        · subst hji; simp
        · by_cases hlt : j < i
          · have h1 : ¬ (i + 1 ≤ j) := by omega
            have h2 : ¬ (i ≤ j) := by omega
            simp [h1, h2, hji]
          · have hsub : j - i = (j - (i + 1)) + 1 := by omega
            have h1 : i + 1 ≤ j := by omega
            have h2 : i ≤ j := by omega
            have h3 : (j < i + 1 + r.length) = (j < i + (r.length + 1)) := by
              apply propext; constructor <;> intro h <;> omega
            simp only [h1, h2, true_and, hji, if_false, h3]
            rw [hsub, List.getElem?_cons_succ]
      · intro j
        rw [h3 j, hs0 j]
        by_cases hji : j = i
        · subst hji
          have h1 : ¬ (j + 1 ≤ j) := by omega
          simp [h1]
        · by_cases hlt : j < i
          · have h1 : ¬ (i + 1 ≤ j) := by omega
            have h2 : ¬ (i ≤ j) := by omega
            simp [h1, h2, hji]
          · have hsub : j - i = (j - (i + 1)) + 1 := by omega
            have h1 : i + 1 ≤ j := by omega
            have h2 : i ≤ j := by omega
            simp only [h1, h2, true_and, hji, false_and, if_false]
            rw [hsub, List.getElem?_cons_succ]
    unfold parseTokens
    rcases argOf_symOf_cases t with ⟨h1, h2, h3⟩ | ⟨h1, h2, h3, h4⟩ | ⟨h1, h2, h3, h4⟩
    · simp only [h1, if_true, Slots.write, hi, Option.bind_some]
      apply key
      · intro j; rw [h2]
      · intro j; simp [h3]
    · simp only [h1, if_false, h2, if_true, Slots.write, hi, Option.bind_some]
      apply key
      · intro j; rw [h3]
      · intro j; rw [h4]; simp
    · simp only [h1, if_false, h2, Slots.write, hi, if_true, Option.bind_some]
      apply key
      · intro j; rw [h3]
      · intro j; simp [h4]

/-- What `parseCmd` returns on a zeroed `Cmd`, in terms of the tokens of the line: it stays in
bounds as soon as there are fewer than `MAX_ARGS` tokens. -/
theorem parseCmd_spec (line : List Char) (h : (tokensOf line).length < MAX_ARGS) :
    ∃ c, parseCmd (Cmd.ofLine line) = some c ∧
      (∀ j, c.args j = ((tokensOf line)[j]?).bind argOf) ∧
      (∀ j, c.symbols j = ((tokensOf line)[j]?).bind symOf) ∧
      c.length ≤ (tokensOf line).length ∧
      (∀ i, i < c.length → c.populated i) ∧ ¬ c.populated c.length ∧
      c.line = line ∧ c.pid = -1 := by
  obtain ⟨a1, s1, h1, h2, h3⟩ := parseTokens_spec (tokensOf line) 0 Slots.zero Slots.zero
    (by omega)
  have ha : ∀ j, a1 j = ((tokensOf line)[j]?).bind argOf := by
    intro j
    rw [h2 j]
    by_cases hj : j < (tokensOf line).length
    · simp [hj]
    · have : (tokensOf line)[j]? = none := by
        rw [List.getElem?_eq_none_iff]; omega
      simp [hj, this, Slots.zero]
  have hs : ∀ j, s1 j = ((tokensOf line)[j]?).bind symOf := by
    intro j
    rw [h3 j]
    by_cases hj : (((tokensOf line)[j]?).bind symOf).isSome
    · simp [hj]
    · have : ((tokensOf line)[j]?).bind symOf = none := by
        simpa using hj
      simp [this, Slots.zero]
  have hnone : (tokensOf line)[(tokensOf line).length]? = none := by
    rw [List.getElem?_eq_none_iff]
  set n := (tokensOf line).length with hn
  have ha2 : ∀ j, (fun j => if j = n then none else a1 j) j = ((tokensOf line)[j]?).bind argOf := by
    intro j
    by_cases hj : j = n
    · subst hj; simp [hnone]
    · simp [hj, ha j]
  obtain ⟨m, hm, _, hmn, hpop, hem⟩ := setCmdLengthFrom_spec
    (fun j => if j = n then none else a1 j) s1 n h
    ⟨by simp, by rw [hs n, hnone]; rfl⟩ MAX_ARGS 0 (by omega) (by omega)
  refine ⟨{ line := line, tokenLine := cutNewline (strcpy line),
             args := fun j => if j = n then none else a1 j, symbols := s1, pid := -1,
             length := m, left := none, right := none }, ?_, ha2, hs, hmn, ?_, ?_, rfl, rfl⟩
  · unfold parseCmd
    simp only [Cmd.ofLine, Cmd.calloc]
    have h1' : parseTokens (strtokAll [' '] (cutNewline (strcpy line)).length
        (cutNewline (strcpy line))) 0 Slots.zero Slots.zero = some (n, a1, s1) := by
      have := h1
      simp only [Nat.zero_add] at this
      exact this
    rw [h1']
    simp only [Slots.write, h, if_true, setCmdLength, hm, Option.map_some']
  · intro i hi; exact hpop i (by omega) hi
  · intro hp
    rcases hp with hp | hp
    · exact hp hem.1
    · exact hp hem.2

theorem mem_spaced (toks : List (Nat × CStr)) (c : Char) :
    (c ∈ spaced toks → c = ' ' ∨ ∃ p, p ∈ toks ∧ c ∈ p.2) ∧
    (c ∈ spacedTail toks → c = ' ' ∨ ∃ p, p ∈ toks ∧ c ∈ p.2) := by
  induction toks with
  | nil => simp [spaced, spacedTail]
  | cons p r ih =>
    obtain ⟨k, t⟩ := p
    have key : c ∈ List.replicate k ' ' ++ t ++ spacedTail r →
        c = ' ' ∨ ∃ p, p ∈ (k, t) :: r ∧ c ∈ p.2 := by
      intro h
      rw [List.mem_append, List.mem_append] at h
      rcases h with (h | h) | h
      · exact Or.inl (List.eq_of_mem_replicate h)
      · exact Or.inr ⟨(k, t), List.mem_cons_self _ _, h⟩
      · rcases ih.2 h with h | ⟨p, hp, hc⟩
        · exact Or.inl h
        · exact Or.inr ⟨p, List.mem_cons_of_mem _ hp, hc⟩
    constructor
    · intro h; exact key (by simpa [spaced] using h)
    · intro h
      simp only [spacedTail, List.mem_cons] at h
      rcases h with h | h
      · exact Or.inl h
      · exact key h

theorem strcpy_eq_self (s : List Char) (h : ∀ c, c ∈ s → c ≠ NUL) : strcpy s = s := by
  unfold strcpy
  rw [List.takeWhile_eq_self_iff]
  intro c hc
  simpa using h c hc

theorem cutNewline_line (body : CStr) (hb : body ≠ []) (hnl : ∀ c, c ∈ body → c ≠ '\n') :
    cutNewline (body ++ ['\n']) = body := by
  obtain ⟨c, r, rfl⟩ := List.exists_cons_of_ne_nil hb
  have hc : c ≠ '\n' := hnl c (List.mem_cons_self _ _)
  have h := takeWhile_append_stop (fun c => c != '\n') (c :: r) ['\n']
    (by intro x hx; simpa using hnl x hx) (Or.inr ⟨'\n', [], rfl, by simp⟩)
  unfold cutNewline
  simp only [List.cons_append] at h ⊢
  simp only [List.takeWhile, List.dropWhile, beq_iff_eq, hc, decide_False, List.nil_append]
  have h1 : (c == '\n') = false := by simpa using hc
  simp only [h1, List.nil_append]
  exact h.1

theorem cutNewline_no_newline (body : CStr) (hnl : ∀ c, c ∈ body → c ≠ '\n') :
    cutNewline body = body := by
  unfold cutNewline
  cases body with
  | nil => rfl
  | cons c r =>
    have hc : (c == '\n') = false := by simpa using hnl c (List.mem_cons_self _ _)
    simp only [List.takeWhile, List.dropWhile, hc, List.nil_append]
    have : (c != '\n') = true := by simp [bne, hc]
    simp only [this]
    congr 1
    rw [List.takeWhile_eq_self_iff]
    intro x hx
    simpa using hnl x (List.mem_cons_of_mem _ hx)

theorem deref_of_mem (t : CStr) (ht : t ≠ []) : deref t ∈ t := by
  cases t with
  | nil => exact absurd rfl ht
  | cons c r => simp [deref]

theorem argOf_plain (t : CStr) (ht : t ≠ []) (hnl : '\n' ∉ t) (hop : isOpChar (deref t) = false) :
    argOf t = some t ∧ symOf t = none := by
  have h1 : deref t ≠ '\n' := fun h => hnl (h ▸ deref_of_mem t ht)
  simp [argOf, symOf, h1, hop]

/-- The tokens `parseCmd` meets on a line of space-separated tokens, none of which begins with
an operator character, as far as the two arrays can tell. -/
theorem tokensOf_spaced (toks : List (Nat × CStr)) (trail : Nat)
    (htok : ∀ p, p ∈ toks → p.2 ≠ [] ∧ ' ' ∉ p.2 ∧ '\n' ∉ p.2 ∧ NUL ∉ p.2 ∧
      isOpChar (deref p.2) = false)
    (hlen : (spaced toks ++ List.replicate trail ' ' ++ ['\n']).length ≤ MAX_LINE) :
    (tokensOf (spaced toks ++ List.replicate trail ' ' ++ ['\n'])).length < MAX_ARGS ∧
    (∀ j : Nat, ((tokensOf (spaced toks ++ List.replicate trail ' ' ++ ['\n']))[j]?).bind argOf =
      (toks[j]?).map Prod.snd) ∧
    (∀ j : Nat, ((tokensOf (spaced toks ++ List.replicate trail ' ' ++ ['\n']))[j]?).bind symOf =
      none) := by
  set body := spaced toks ++ List.replicate trail ' ' with hbody
  have hchars : ∀ c, c ∈ body → c = ' ' ∨ ∃ p, p ∈ toks ∧ c ∈ p.2 := by
    intro c hc
    rw [hbody, List.mem_append] at hc
    rcases hc with hc | hc
    · exact (mem_spaced toks c).1 hc
    · exact Or.inl (List.eq_of_mem_replicate hc)
  have hnl : ∀ c, c ∈ body → c ≠ '\n' := by
    intro c hc
    rcases hchars c hc with rfl | ⟨p, hp, hcp⟩
    · decide
    · rintro rfl; exact (htok p hp).2.2.1 hcp
  have hnul : ∀ c, c ∈ body ++ ['\n'] → c ≠ NUL := by
    intro c hc
    rw [List.mem_append] at hc
    rcases hc with hc | hc
    · rcases hchars c hc with rfl | ⟨p, hp, hcp⟩
      · decide
      · rintro rfl; exact (htok p hp).2.2.2.1 hcp
    · simp only [List.mem_singleton] at hc
      subst hc; decide
  have hN : 2 * toks.length ≤ (spaced toks).length + 1 :=
    (spaced_length toks (fun p hp => (htok p hp).1)).1
  have hN2 : toks.length < MAX_ARGS := by
    simp only [hbody, List.length_append, List.length_replicate, List.length_singleton,
      MAX_LINE] at hlen
    simp only [MAX_ARGS, MAX_LINE]
    omega
  unfold tokensOf
  rw [strcpy_eq_self _ hnul]
  by_cases hb : body = []
  · have htoks : toks = [] := by
      cases toks with
      | nil => rfl
      | cons p r =>
        exfalso
        obtain ⟨k, t⟩ := p
        have := (htok (k, t) (List.mem_cons_self _ _)).1
        have h2 : body.length = 0 := by rw [hb]; rfl
        simp only [hbody, spaced, List.length_append, List.length_replicate] at h2
        cases t with
        | nil => exact this rfl
        | cons => simp at h2
    subst htoks
    rw [hb]
    refine ⟨by decide, ?_, ?_⟩
    · intro j
      cases j with
      | zero => decide
      | succ j => cases j <;> rfl
    · intro j
      cases j with
      | zero => decide
      | succ j => cases j <;> rfl
  · rw [cutNewline_line body hb hnl]
    have hall := strtokAll_spaced toks trail body.length
      (fun p hp => ⟨(htok p hp).1, (htok p hp).2.1⟩) (le_refl _)
    rw [← hbody] at hall
    rw [hall]
    refine ⟨by simpa using hN2, ?_, ?_⟩
    · intro j
      rw [List.getElem?_map]
      cases hj : toks[j]? with
      | none => rfl
      | some p =>
        have hp := htok p (List.getElem?_mem hj)
        simp [(argOf_plain p.2 hp.1 hp.2.2.1 hp.2.2.2.2).1]
    · intro j
      rw [List.getElem?_map]
      cases hj : toks[j]? with
      | none => rfl
      | some p =>
        have hp := htok p (List.getElem?_mem hj)
        simp [(argOf_plain p.2 hp.1 hp.2.2.1 hp.2.2.2.2).2]

/-! ## C1 -/

/-- C1, as amended: for every newline-terminated line that fits the line buffer (at most
`MAX_LINE` characters, the newline included) and is made of N tokens separated by runs of
spaces, none of the tokens beginning with one of the operator characters `| < > &`, `parseCmd`
on a zeroed `Cmd` stays inside its arrays and produces a leaf: `args[0..N-1]` are the N tokens
in their original order, `args[N]` is null, every slot of `symbols` is null, and `length` is N. -/
theorem parseCmd_operator_free_line (toks : List (Nat × CStr)) (trail : Nat)
    (htok : ∀ p, p ∈ toks → p.2 ≠ [] ∧ ' ' ∉ p.2 ∧ '\n' ∉ p.2 ∧ NUL ∉ p.2 ∧
      isOpChar (deref p.2) = false)
    (hlen : (spaced toks ++ List.replicate trail ' ' ++ ['\n']).length ≤ MAX_LINE) :
    ∃ c, parseCmd (Cmd.ofLine (spaced toks ++ List.replicate trail ' ' ++ ['\n'])) = some c ∧
      (∀ i, c.args i = (toks[i]?).map Prod.snd) ∧
      c.args toks.length = none ∧
      (∀ i, c.symbols i = none) ∧
      c.length = toks.length := by
  obtain ⟨h1, h2, h3⟩ := tokensOf_spaced toks trail htok hlen
  obtain ⟨c, hc, ha, hs, _, hpop, hend, _, _⟩ := parseCmd_spec _ h1
  have hargs : ∀ i, c.args i = (toks[i]?).map Prod.snd := fun i => by rw [ha i, h2 i]
  have hsyms : ∀ i, c.symbols i = none := fun i => by rw [hs i, h3 i]
  have hN : c.args toks.length = none := by
    rw [hargs]
    have : toks[toks.length]? = none := by rw [List.getElem?_eq_none_iff]
    rw [this]; rfl
  refine ⟨c, hc, hargs, hN, hsyms, ?_⟩
  apply le_antisymm
  · by_contra hlt
    push_neg at hlt
    rcases hpop toks.length hlt with h | h
    · exact h hN
    · exact h (hsyms _)
  · by_contra hlt
    push_neg at hlt
    apply hend
    left
    rw [hargs, List.getElem?_eq_getElem hlt]
    simp

theorem parseCmd_operator_free_line_witness :
    ∃ c, parseCmd (Cmd.ofLine "echo  hi there \n".toList) = some c ∧
      (∀ i, c.args i = ([(0, "echo".toList), (1, "hi".toList), (0, "there".toList)][i]?).map
        Prod.snd) ∧
      c.args 3 = none ∧ (∀ i, c.symbols i = none) ∧ c.length = 3 :=
  parseCmd_operator_free_line [(0, "echo".toList), (1, "hi".toList), (0, "there".toList)] 1
    (by decide) (by decide)

/-- C1 as stated fails on a token that is not one of the four operators but begins with an
operator character: for the line `>out.txt`, whose only token is `>out.txt`, `parseCmd` leaves
`args[0]` null and records the token in `symbols[0]`. -/
theorem parseCmd_operator_prefixed_token :
    ">out.txt".toList ∉ [['|'], ['<'], ['>'], ['&']] ∧
    ">out.txt\n".toList = spaced [(0, ">out.txt".toList)] ++ List.replicate 0 ' ' ++ ['\n'] ∧
    ∃ c, parseCmd (Cmd.ofLine ">out.txt\n".toList) = some c ∧
      c.args 0 = none ∧ c.symbols 0 = some ">out.txt".toList ∧ c.length = 1 := by
  refine ⟨by decide, by decide, _, rfl, ?_, ?_, ?_⟩ <;> decide

/-! ## C2 -/

theorem lastIdx_spec (p : Nat → Bool) : ∀ n : Nat,
    -1 ≤ lastIdx p n ∧ lastIdx p n ≤ n ∧
    (lastIdx p n = -1 ↔ ∀ i, i ≤ n → p i = false) ∧
    (∀ j : Nat, lastIdx p n = j ↔ j ≤ n ∧ p j = true ∧ ∀ i, j < i → i ≤ n → p i = false) := by
  intro n
  induction n with
  | zero =>
    unfold lastIdx
    by_cases h : p 0 = true
    · simp only [h, if_true]
      refine ⟨by omega, by simp, ?_, ?_⟩
      · constructor
        · intro h1; omega
        · intro h1; have := h1 0 (le_refl _); simp [h] at this
      · intro j
        constructor
        · intro hj
          have : j = 0 := by omega
          subst this
          exact ⟨le_refl _, h, fun i hi hi0 => by omega⟩
        · rintro ⟨hj, _, _⟩
          have : j = 0 := by omega
          subst this; rfl
    · have h0 : p 0 = false := by simpa using h
      simp only [h0, Bool.false_eq_true, if_false]
      refine ⟨le_refl _, by simp, ?_, ?_⟩
      · constructor
        · intro _ i hi
          have : i = 0 := by omega
          subst this; exact h0
        · intro _; first | rfl | trivial
      · intro j
        constructor
        · intro hj; omega
        · rintro ⟨hj, hpj, _⟩
          have : j = 0 := by omega
          subst this; simp [h0] at hpj
  | succ n ih =>
    obtain ⟨ih1, ih2, ih3, ih4⟩ := ih
    unfold lastIdx
    by_cases h : p (n + 1) = true
    · simp only [h, if_true]
      refine ⟨by omega, le_refl _, ?_, ?_⟩
      · constructor
        · intro h1; omega
        · intro h1; have := h1 (n + 1) (le_refl _); simp [h] at this
      · intro j
        constructor
        · intro hj
          have : j = n + 1 := by omega
          subst this
          exact ⟨le_refl _, h, fun i hi hi0 => by omega⟩
        · rintro ⟨hj, _, hmax⟩
          by_contra hne
          have hlt : j < n + 1 := by
            rcases Nat.lt_or_ge j (n + 1) with h | h
            · exact h
            · exfalso; apply hne; congr 1; omega
          have := hmax (n + 1) hlt (le_refl _)
          simp [h] at this
    · have h0 : p (n + 1) = false := by simpa using h
      simp only [h0, Bool.false_eq_true, if_false]
      refine ⟨ih1, by push_cast; omega, ?_, ?_⟩
      · rw [ih3]
        constructor
        · intro h1 i hi
          by_cases hin : i = n + 1
          · subst hin; exact h0
          · exact h1 i (by omega)
        · intro h1 i hi; exact h1 i (by omega)
      · intro j
        rw [ih4 j]
        constructor
        · rintro ⟨hj, hpj, hmax⟩
          refine ⟨by omega, hpj, ?_⟩
          intro i hji hi
          by_cases hin : i = n + 1
          · subst hin; exact h0
          · exact hmax i hji (by omega)
        · rintro ⟨hj, hpj, hmax⟩
          have hjn : j ≠ n + 1 := by
            rintro rfl; simp [h0] at hpj
          exact ⟨by omega, hpj, fun i hji hi => hmax i hji (by omega)⟩

theorem findSymbolReverseFrom_eq (symbols : Slots) (symbol : Char) : ∀ n : Nat, n < MAX_ARGS →
    findSymbolReverseFrom symbols symbol n =
      some (lastIdx (fun i => symbolIs (symbols i) symbol) n) := by
  intro n
  induction n with
  | zero =>
    intro h
    simp only [findSymbolReverseFrom, Slots.read, h, if_true, lastIdx]
    split_ifs <;> rfl
  | succ n ih =>
    intro h
    simp only [findSymbolReverseFrom, Slots.read, h, if_true, lastIdx]
    split_ifs
    · rfl
    · exact ih (by omega)

theorem lastIdx_or (p q : Nat → Bool) (n : Nat) (a : Int)
    (ha : a = -1 ∨ ∃ j : Nat, a = j ∧ j ≤ n ∧ p j = true ∧ ∀ i, j < i → i ≤ n → p i = false)
    (hp : ∀ i, i ≤ n → (a = -1) → p i = false) :
    (if a < lastIdx q n then lastIdx q n else a) = lastIdx (fun i => p i || q i) n := by
  obtain ⟨hq1, hq2, hq3, hq4⟩ := lastIdx_spec q n
  obtain ⟨hr1, hr2, hr3, hr4⟩ := lastIdx_spec (fun i => p i || q i) n
  have hqcase : lastIdx q n = -1 ∨ ∃ k : Nat, lastIdx q n = k := by
    by_cases h : lastIdx q n = -1
    · exact Or.inl h
    · right
      exact ⟨(lastIdx q n).toNat, by omega⟩
  split_ifs with hlt
  · -- the result is the index found for q
    rcases hqcase with h | ⟨k, hk⟩
    · rcases ha with rfl | ⟨j, rfl, _⟩ <;> omega
    · rw [hk]
      symm
      rw [hr4 k]
      obtain ⟨hkn, hqk, hkmax⟩ := (hq4 k).1 hk
      refine ⟨hkn, by simp [hqk], ?_⟩
      intro i hki hin
      have hqi := hkmax i hki hin
      have hpi : p i = false := by
        rcases ha with rfl | ⟨j, rfl, hjn, hpj, hjmax⟩
        · exact hp i hin rfl
        · exact hjmax i (by omega) hin
      simp [hqi, hpi]
  · rcases ha with rfl | ⟨j, rfl, hjn, hpj, hjmax⟩
    · have hq : lastIdx q n = -1 := by omega
      symm
      rw [hr3]
      intro i hi
      simp [hp i hi rfl, hq3.1 hq i hi]
    · symm
      rw [hr4 j]
      refine ⟨hjn, by simp [hpj], ?_⟩
      intro i hji hin
      have hqi : q i = false := by
        by_contra hne
        have hqt : q i = true := by simpa using hne
        -- the last index for q is at least i
        rcases hqcase with h | ⟨k, hk⟩
        · have := hq3.1 h i hin
          simp [hqt] at this
        · obtain ⟨_, _, hkmax⟩ := (hq4 k).1 hk
          have hik : i ≤ k := by
            by_contra hcon
            have := hkmax i (by omega) hin
            simp [hqt] at this
          omega
      simp [hjmax i hji hin, hqi]

theorem lastIdx_or_eq (p q : Nat → Bool) (n : Nat) :
    (if lastIdx p n < lastIdx q n then lastIdx q n else lastIdx p n) =
      lastIdx (fun i => p i || q i) n := by
  obtain ⟨hp1, hp2, hp3, hp4⟩ := lastIdx_spec p n
  apply lastIdx_or p q n (lastIdx p n)
  · by_cases h : lastIdx p n = -1
    · exact Or.inl h
    · right
      have hj : lastIdx p n = ((lastIdx p n).toNat : Int) := by omega
      exact ⟨(lastIdx p n).toNat, hj, (hp4 _).1 hj⟩
  · intro i hi h
    exact hp3.1 h i hi

theorem lastIdx_false (n : Nat) : lastIdx (fun _ => false) n = -1 := by
  induction n with
  | zero => simp [lastIdx]
  | succ n ih => simp [lastIdx, ih]

theorem lastIdx_congr (p q : Nat → Bool) : ∀ n : Nat, (∀ i, i ≤ n → p i = q i) →
    lastIdx p n = lastIdx q n := by
  intro n
  induction n with
  | zero => intro h; simp [lastIdx, h 0 (le_refl _)]
  | succ n ih =>
    intro h
    simp only [lastIdx, h (n + 1) (le_refl _)]
    rw [ih (fun i hi => h i (by omega))]

/-- The value of `splitPoint` on a node with a terminator inside the array: the last index, up
to `length`, whose `symbols` slot begins with one of the four operator characters. -/
theorem splitPoint_eq (c : Cmd) (hlen : c.length < MAX_ARGS) :
    splitPoint c = some (lastIdx (fun i =>
      symbolIs (c.symbols i) REDIRECT_IN_OP || symbolIs (c.symbols i) REDIRECT_OUT_OP ||
      symbolIs (c.symbols i) PIPE_OP || symbolIs (c.symbols i) BG_OP) c.length) := by
  unfold splitPoint findSymbolReverse
  simp only [findSymbolReverseFrom_eq _ _ _ hlen]
  congr 1
  have h0 : (-1 : Int) = lastIdx (fun _ => false) c.length := (lastIdx_false _).symm
  rw [h0, lastIdx_or_eq, lastIdx_or_eq, lastIdx_or_eq, lastIdx_or_eq]
  apply lastIdx_congr
  intro i _
  simp

theorem symbolIs_any (p : Option CStr)
    (h : ∀ s, p = some s → isOpChar (deref s) = true) :
    (symbolIs p REDIRECT_IN_OP || symbolIs p REDIRECT_OUT_OP ||
      symbolIs p PIPE_OP || symbolIs p BG_OP) = p.isSome := by
  cases p with
  | none => rfl
  | some s =>
    have := h s rfl
    simp only [isOpChar, Bool.or_eq_true, beq_iff_eq] at this
    simp only [symbolIs, Option.isSome_some, Bool.or_eq_true, beq_iff_eq]
    tauto

theorem splitPoint_wellFormed (c : Cmd) (hlen : c.length < MAX_ARGS)
    (hops : ∀ i, i < MAX_ARGS → ∀ s, c.symbols i = some s → isOpChar (deref s) = true) :
    splitPoint c = some (lastIdx (fun i => (c.symbols i).isSome) c.length) := by
  rw [splitPoint_eq c hlen]
  congr 1
  apply lastIdx_congr
  intro i hi
  exact symbolIs_any _ (hops i (by omega))

/-- C2: for every node whose populated slots are the `length` slots below its terminator (which
lies inside the array) and whose `symbols` slots hold only tokens that begin with one of the
operator characters `| < > &`, `splitPoint` returns the greatest index `j` with `symbols[j]`
non-null, whichever of the four kinds it is, and returns -1 exactly when no slot of `symbols`
is populated. -/
theorem splitPoint_rightmost_operator (c : Cmd) (hlen : c.length < MAX_ARGS)
    (hpop : ∀ i, i < MAX_ARGS → (c.populated i ↔ i < c.length))
    (hops : ∀ i, i < MAX_ARGS → ∀ s, c.symbols i = some s → isOpChar (deref s) = true) :
    ∃ r : Int, splitPoint c = some r ∧
      (r = -1 ↔ ∀ i, i < MAX_ARGS → c.symbols i = none) ∧
      (∀ j : Nat, r = j ↔
        (j < MAX_ARGS ∧ c.symbols j ≠ none ∧ ∀ i, i < MAX_ARGS → c.symbols i ≠ none → i ≤ j)) := by
  refine ⟨_, splitPoint_wellFormed c hlen hops, ?_, ?_⟩
  · obtain ⟨_, _, h3, _⟩ := lastIdx_spec (fun i => (c.symbols i).isSome) c.length
    rw [h3]
    constructor
    · intro h i hi
      by_cases hil : i ≤ c.length
      · simpa using h i hil
      · by_contra hne
        have := (hpop i hi).1 (Or.inr hne)
        omega
    · intro h i hi
      simp [h i (by omega)]
  · intro j
    obtain ⟨_, _, _, h4⟩ := lastIdx_spec (fun i => (c.symbols i).isSome) c.length
    rw [h4 j]
    constructor
    · rintro ⟨hj, hsj, hmax⟩
      refine ⟨by omega, by simpa [Option.isSome_iff_ne_none] using hsj, ?_⟩
      intro i hi hne
      by_contra hcon
      have hil : i < c.length := (hpop i hi).1 (Or.inr hne)
      have := hmax i (by omega) (by omega)
      simp [Option.isSome_iff_ne_none, hne] at this
    · rintro ⟨hj, hsj, hmax⟩
      have hjl : j < c.length := (hpop j hj).1 (Or.inr hsj)
      refine ⟨by omega, by simpa [Option.isSome_iff_ne_none] using hsj, ?_⟩
      intro i hji hil
      by_contra hne
      have hne2 : c.symbols i ≠ none := by
        intro h; simp [h] at hne
      have := hmax i (by omega) hne2
      omega

theorem splitPoint_rightmost_operator_witness :
    ∃ r : Int, splitPoint sampleNode = some r ∧
      (r = -1 ↔ ∀ i, i < MAX_ARGS → sampleNode.symbols i = none) ∧
      (∀ j : Nat, r = j ↔
        (j < MAX_ARGS ∧ sampleNode.symbols j ≠ none ∧
          ∀ i, i < MAX_ARGS → sampleNode.symbols i ≠ none → i ≤ j)) :=
  splitPoint_rightmost_operator sampleNode (by decide) (by decide) (by decide)

/-! ## Lemmas: split -/

theorem copySlots_spec (srcA srcS : Slots) (off : Nat) : ∀ (n i : Nat) (dA dS : Slots),
    off ≤ i → i + n ≤ MAX_ARGS →
    ∃ dA1 dS1, copySlots srcA srcS off n i dA dS = some (dA1, dS1) ∧
      (∀ j, dA1 j = if i - off ≤ j ∧ j < i - off + n then srcA (j + off) else dA j) ∧
      (∀ j, dS1 j = if i - off ≤ j ∧ j < i - off + n then srcS (j + off) else dS j) := by
  intro n
  induction n with
  | zero =>
    intro i dA dS _ _
    refine ⟨dA, dS, rfl, ?_, ?_⟩ <;>
    · intro j
      have : ¬ (i - off ≤ j ∧ j < i - off + 0) := by omega
      rw [if_neg this]
  | succ n ih =>
    intro i dA dS hoff hb
    have hi : i < MAX_ARGS := by omega
    have hio : i - off < MAX_ARGS := by omega
    unfold copySlots
    simp only [Slots.read, Slots.write, hi, hio, if_true]
    obtain ⟨dA1, dS1, h1, h2, h3⟩ := ih (i + 1)
      (fun j => if j = i - off then srcA i else dA j)
      (fun j => if j = i - off then srcS i else dS j) (by omega) (by omega)
    refine ⟨dA1, dS1, h1, ?_, ?_⟩
    · intro j
      rw [h2 j]
      by_cases hj : j = i - off
      · have h4 : ¬ (i + 1 - off ≤ j ∧ j < i + 1 - off + n) := by omega
        have h5 : i - off ≤ j ∧ j < i - off + (n + 1) := by omega
        have h6 : j + off = i := by omega
        rw [if_neg h4, if_pos h5, if_pos hj, h6]
      · by_cases h4 : i + 1 - off ≤ j ∧ j < i + 1 - off + n
        · have h5 : i - off ≤ j ∧ j < i - off + (n + 1) := by omega
          rw [if_pos h4, if_pos h5]
        · have h5 : ¬ (i - off ≤ j ∧ j < i - off + (n + 1)) := by omega
          rw [if_neg h4, if_neg h5, if_neg hj]
    · intro j
      rw [h3 j]
      by_cases hj : j = i - off
      · have h4 : ¬ (i + 1 - off ≤ j ∧ j < i + 1 - off + n) := by omega
        have h5 : i - off ≤ j ∧ j < i - off + (n + 1) := by omega
        have h6 : j + off = i := by omega
        rw [if_neg h4, if_pos h5, if_pos hj, h6]
      · by_cases h4 : i + 1 - off ≤ j ∧ j < i + 1 - off + n
        · have h5 : i - off ≤ j ∧ j < i - off + (n + 1) := by omega
          rw [if_pos h4, if_pos h5]
        · have h5 : ¬ (i - off ≤ j ∧ j < i - off + (n + 1)) := by omega
          rw [if_neg h4, if_neg h5, if_neg hj]

/-- The result of `setCmdLength` on a zeroed node given arrays whose first `n` slots are
populated and whose slot `n` is empty. -/
theorem setCmdLength_prefix (a s : Slots) (n : Nat) (hn : n < MAX_ARGS)
    (hpop : ∀ i, i < n → (a i ≠ none ∨ s i ≠ none)) (hempty : a n = none ∧ s n = none) :
    setCmdLength { Cmd.calloc with args := a, symbols := s } =
      some { Cmd.calloc with args := a, symbols := s, length := n } := by
  obtain ⟨m, hm, _, hmn, _, hem⟩ := setCmdLengthFrom_spec a s n hn hempty MAX_ARGS 0
    (by omega) (by omega)
  have : m = n := by
    by_contra hne
    have hlt : m < n := by omega
    rcases hpop m hlt with h | h
    · exact h hem.1
    · exact h hem.2
  subst this
  simp only [setCmdLength, hm, Option.map_some']

/-- What `splitCMD` builds when the node has a terminator inside the array, its slots below
`length` are populated and the split index is below `length`. -/
theorem splitCMD_spec (c : Cmd) (k : Nat) (hk : k < c.length) (hlen : c.length < MAX_ARGS)
    (hpop : ∀ i, i < c.length → c.populated i) :
    ∃ l r, splitCMD c (k : Int) = some { c with left := some l, right := some r } ∧
      (∀ j, l.args j = if j < k then c.args j else none) ∧
      (∀ j, l.symbols j = if j < k then c.symbols j else none) ∧
      l.length = k ∧
      (∀ j, r.args j = if j < c.length - (k + 1) then c.args (j + (k + 1)) else none) ∧
      (∀ j, r.symbols j = if j < c.length - (k + 1) then c.symbols (j + (k + 1)) else none) ∧
      r.length = c.length - (k + 1) ∧
      l.pid = 0 ∧ r.pid = 0 := by
  obtain ⟨la, ls, hl1, hl2, hl3⟩ := copySlots_spec c.args c.symbols 0 k 0 Slots.zero Slots.zero
    (le_refl _) (by omega)
  obtain ⟨ra, rs, hr1, hr2, hr3⟩ := copySlots_spec c.args c.symbols (k + 1)
    (c.length - (k + 1)) (k + 1) Slots.zero Slots.zero (le_refl _) (by omega)
  have hla : ∀ j, (fun j => if j = k + 1 then none else la j) j =
      if j < k then c.args j else none := by
    intro j
    simp only [hl2 j, Slots.zero]
    by_cases hj : j < k
    · have : j ≠ k + 1 := by omega
      simp [hj, this]
    · simp [hj]
  have hls : ∀ j, (fun j => if j = k + 1 then none else ls j) j =
      if j < k then c.symbols j else none := by
    intro j
    simp only [hl3 j, Slots.zero]
    by_cases hj : j < k
    · have : j ≠ k + 1 := by omega
      simp [hj, this]
    · simp [hj]
  have hra : ∀ j, (fun j => if j = c.length - k then none else ra j) j =
      if j < c.length - (k + 1) then c.args (j + (k + 1)) else none := by
    intro j
    simp only [hr2 j, Slots.zero]
    by_cases hj : j < c.length - (k + 1)
    · have : j ≠ c.length - k := by omega
      simp [hj, this]
    · have : ¬ (j < k + 1 - (k + 1) + (c.length - (k + 1))) := by omega
      simp [hj, this]
  have hrs : ∀ j, (fun j => if j = c.length - k then none else rs j) j =
      if j < c.length - (k + 1) then c.symbols (j + (k + 1)) else none := by
    intro j
    simp only [hr3 j, Slots.zero]
    by_cases hj : j < c.length - (k + 1)
    · have : j ≠ c.length - k := by omega
      simp [hj, this]
    · have : ¬ (j < k + 1 - (k + 1) + (c.length - (k + 1))) := by omega
      simp [hj, this]
  have hsl := setCmdLength_prefix (fun j => if j = k + 1 then none else la j)
    (fun j => if j = k + 1 then none else ls j) k (by omega)
    (by
      intro i hi
      have := hpop i (by omega)
      simp only [hla i, hls i, hi, if_true]
      exact this)
    (by simp only [hla k, hls k]; simp)
  have hsr := setCmdLength_prefix (fun j => if j = c.length - k then none else ra j)
    (fun j => if j = c.length - k then none else rs j) (c.length - (k + 1)) (by omega)
    (by
      intro i hi
      have := hpop (i + (k + 1)) (by omega)
      simp only [hra i, hrs i, hi, if_true]
      exact this)
    (by simp only [hra (c.length - (k + 1)), hrs (c.length - (k + 1))]; simp)
  refine ⟨{ Cmd.calloc with args := fun j => if j = k + 1 then none else la j,
                             symbols := fun j => if j = k + 1 then none else ls j,
                             length := k },
          { Cmd.calloc with args := fun j => if j = c.length - k then none else ra j,
                             symbols := fun j => if j = c.length - k then none else rs j,
                             length := c.length - (k + 1) },
          ?_, hla, hls, rfl, hra, hrs, rfl, rfl, rfl⟩
  unfold splitCMD
  have e1 : ((k : Int)).toNat = k := Int.toNat_natCast k
  have e2 : ((k : Int) + 1).toNat = k + 1 := by omega
  have e3 : ¬ ((k : Int) + 1 < 0) := by omega
  have e4 : (((max (k + 1) c.length : Nat) : Int) - (k : Int)).toNat = c.length - k := by
    have : max (k + 1) c.length = c.length := by omega
    rw [this]; omega
  have hk1 : k + 1 < MAX_ARGS := by omega
  have hk2 : c.length - k < MAX_ARGS := by omega
  simp only [e1, e2, e3, e4, hl1, hr1, Slots.write, hk1, hk2, if_true, if_false, hsl, hsr]
/-! ## C3 -/

theorem setCmdLength_some (x y : Cmd) (h : setCmdLength x = some y) :
    y.length < MAX_ARGS ∧ (∀ i, i < y.length → y.populated i) ∧ ¬ y.populated y.length := by
  unfold setCmdLength at h
  cases hm : setCmdLengthFrom x.args x.symbols MAX_ARGS 0 with
  | none => simp [hm] at h
  | some m =>
    rw [hm] at h
    simp only [Option.map_some', Option.some.injEq] at h
    subst h
    obtain ⟨_, h2, h3, h4⟩ := setCmdLengthFrom_some x.args x.symbols MAX_ARGS 0 m (by omega) hm
    refine ⟨h2, fun i hi => h3 i (by omega) hi, ?_⟩
    rintro (h | h)
    · exact h h4.1
    · exact h h4.2

theorem parseCmd_some (cmd c : Cmd) (h : parseCmd cmd = some c) :
    ∃ x, setCmdLength x = some c := by
  unfold parseCmd at h
  simp only at h
  split at h
  · simp at h
  · split at h
    · simp at h
    · exact ⟨_, h⟩

theorem splitCMD_some (c c1 : Cmd) (i : Int) (h : splitCMD c i = some c1) :
    ∃ xl xr l r, setCmdLength xl = some l ∧ setCmdLength xr = some r ∧
      c1 = { c with left := some l, right := some r } := by
  unfold splitCMD at h
  simp only at h
  split at h
  · simp at h
  · split at h
    · split at h
      · simp at h
      · split at h
        · simp at h
        · split at h
          · split at h
            · rename_i l r hl hr
              simp only [Option.some.injEq] at h
              exact ⟨_, _, l, r, hl, hr, h.symm⟩
            · simp at h
          · simp at h
    · simp at h

theorem Produced.bounds (c : Cmd) (h : Produced c) :
    c.length < MAX_ARGS ∧ (∀ i, i < c.length → c.populated i) := by
  cases h with
  | parse line c hp =>
    obtain ⟨x, hx⟩ := parseCmd_some _ _ hp
    exact ⟨(setCmdLength_some x c hx).1, (setCmdLength_some x c hx).2.1⟩
  | left c0 i c1 l _ hs hl =>
    obtain ⟨xl, xr, l1, r1, h1, h2, rfl⟩ := splitCMD_some _ _ _ hs
    simp only [Option.some.injEq] at hl
    subst hl
    exact ⟨(setCmdLength_some xl _ h1).1, (setCmdLength_some xl _ h1).2.1⟩
  | right c0 i c1 r _ hs hr =>
    obtain ⟨xl, xr, l1, r1, h1, h2, rfl⟩ := splitCMD_some _ _ _ hs
    simp only [Option.some.injEq] at hr
    subst hr
    exact ⟨(setCmdLength_some xr _ h2).1, (setCmdLength_some xr _ h2).2.1⟩

/-- C3: for every node produced by `parseCmd` or by an earlier split, and every split index
`i` with `0 <= i < node.length`, `splitCMD(node, i)` stays inside its arrays and the children
it makes satisfy `left.length + right.length == node.length - 1`. -/
theorem splitCMD_size_preserving (c : Cmd) (hc : Produced c) (i : Int) (h0 : 0 ≤ i)
    (h1 : i < c.length) :
    ∃ c1 l r, splitCMD c i = some c1 ∧ c1.left = some l ∧ c1.right = some r ∧
      (l.length : Int) + (r.length : Int) = (c.length : Int) - 1 := by
  obtain ⟨hlen, hpop⟩ := Produced.bounds c hc
  obtain ⟨k, rfl⟩ := Int.eq_ofNat_of_zero_le h0
  have hk : k < c.length := by omega
  obtain ⟨l, r, hs, _, _, hl, _, _, hr, _⟩ := splitCMD_spec c k hk hlen hpop
  refine ⟨_, l, r, hs, rfl, rfl, ?_⟩
  rw [hl, hr]
  omega

theorem splitCMD_size_preserving_witness :
    ∃ c, parseCmd (Cmd.ofLine "a | b > c\n".toList) = some c ∧ c.length = 5 ∧
      ∃ c1 l r, splitCMD c 1 = some c1 ∧ c1.left = some l ∧ c1.right = some r ∧
        (l.length : Int) + (r.length : Int) = (c.length : Int) - 1 :=
  ⟨_, rfl, by decide,
    splitCMD_size_preserving _ (Produced.parse "a | b > c\n".toList _ rfl) 1 (by decide)
      (by decide)⟩
/-! ## Lemmas: argument lists -/

theorem filterMap_range_prefix {α : Type} (f : Nat → Option α) (n N : Nat) (hn : n ≤ N)
    (h : ∀ i, n ≤ i → i < N → f i = none) :
    (List.range N).filterMap f = (List.range n).filterMap f := by
  have hN : N = n + (N - n) := by omega
  rw [hN, List.range_add, List.filterMap_append]
  have : List.filterMap f (List.map (fun x => n + x) (List.range (N - n))) = [] := by
    rw [List.filterMap_eq_nil_iff]
    intro a ha
    rw [List.mem_map] at ha
    obtain ⟨x, hx, rfl⟩ := ha
    rw [List.mem_range] at hx
    exact h _ (by omega) (by omega)
  rw [this, List.append_nil]

theorem filterMap_range_split {α : Type} (f : Nat → Option α) (k m : Nat) (hk : f k = none) :
    (List.range (k + 1 + m)).filterMap f =
      (List.range k).filterMap f ++ (List.range m).filterMap (fun j => f (j + (k + 1))) := by
  rw [List.range_add, List.filterMap_append, List.range_succ, List.filterMap_append]
  have h1 : List.filterMap f [k] = [] := by simp [hk]
  rw [h1, List.append_nil, List.filterMap_map]
  congr 1
  apply List.filterMap_congr
  intro x _
  simp only [Function.comp]
  congr 1
  omega

theorem takeWhile_range_prefix {α : Type} (f : Nat → Option α) (n N : Nat) (hn : n < N)
    (hsome : ∀ i, i < n → (f i).isSome = true) (hnone : f n = none) :
    (((List.range N).map f).takeWhile Option.isSome).filterMap id =
      (List.range n).filterMap f := by
  have hN : N = n + (N - n) := by omega
  have hpos : N - n = (N - n - 1) + 1 := by omega
  have hsplit : (List.range N).map f =
      (List.range n).map f ++ (f n :: ((List.range' 1 (N - n - 1)).map (fun x => f (n + x)))) := by
    conv_lhs => rw [hN]
    rw [List.range_add, List.map_append, List.map_map]
    congr 1
    rw [hpos, List.range_eq_range', List.range'_succ]
    simp
  rw [hsplit]
  have := takeWhile_append_stop Option.isSome ((List.range n).map f)
    (f n :: ((List.range' 1 (N - n - 1)).map (fun x => f (n + x))))
    (by
      intro c hc
      rw [List.mem_map] at hc
      obtain ⟨i, hi, rfl⟩ := hc
      exact hsome i (List.mem_range.1 hi))
    (Or.inr ⟨_, _, rfl, by simp [hnone]⟩)
  rw [this.1, List.filterMap_map]
  rfl

theorem argTokens_wellFormed (c : Cmd) (h : c.WellFormed) :
    argTokens c = (List.range c.length).filterMap c.args := by
  unfold argTokens
  apply filterMap_range_prefix _ _ _ (le_of_lt h.length_lt)
  intro i hi hiN
  by_contra hne
  have := (h.populated_iff i hiN).1 (Or.inl hne)
  omega

theorem argv_leaf (c : Cmd) (h : c.WellFormed) (hs : ∀ i, i < MAX_ARGS → c.symbols i = none) :
    argv c = (List.range c.length).filterMap c.args := by
  unfold argv
  apply takeWhile_range_prefix _ _ _ h.length_lt
  · intro i hi
    have := (h.populated_iff i (by have := h.length_lt; omega)).2 hi
    rcases this with h1 | h1
    · exact Option.isSome_iff_ne_none.2 h1
    · exact absurd (hs i (by have := h.length_lt; omega)) h1
  · by_contra hne
    have := (h.populated_iff c.length h.length_lt).1 (Or.inl hne)
    omega

/-- The children `splitCMD` makes at the split point of a well-formed node with an operator. -/
theorem splitCMD_at_splitPoint (c : Cmd) (h : c.WellFormed) (k : Nat)
    (hk : splitPoint c = some (k : Int)) :
    ∃ l r, splitCMD c (k : Int) = some { c with left := some l, right := some r } ∧
      l.WellFormed ∧ r.WellFormed ∧ l.length = k ∧ r.length = c.length - (k + 1) ∧
      k < c.length ∧ (∀ i, i < MAX_ARGS → r.symbols i = none) ∧
      argTokens c = argTokens l ++ argTokens r ∧
      (∀ j, l.args j = if j < k then c.args j else none) ∧
      (∀ j, l.symbols j = if j < k then c.symbols j else none) ∧
      (∀ j, r.args j = if j < c.length - (k + 1) then c.args (j + (k + 1)) else none) ∧
      (∃ s, c.symbols k = some s ∧ isOpChar (deref s) = true) ∧
      l.pid = 0 ∧ r.pid = 0 := by
  have hsp := splitPoint_wellFormed c h.length_lt (fun i hi s hs => (h.symbols_op i hi s hs).1)
  rw [hsp] at hk
  simp only [Option.some.injEq] at hk
  obtain ⟨_, _, _, h4⟩ := lastIdx_spec (fun i => (c.symbols i).isSome) c.length
  obtain ⟨hkl, hks, hkmax⟩ := (h4 k).1 hk
  have hlen := h.length_lt
  have hkN : k < MAX_ARGS := by omega
  have hks2 : c.symbols k ≠ none := Option.isSome_iff_ne_none.1 hks
  have hklt : k < c.length := (h.populated_iff k hkN).1 (Or.inr hks2)
  obtain ⟨s, hs⟩ := Option.ne_none_iff_exists'.1 hks2
  have hargk : c.args k = none := (h.symbols_op k hkN s hs).2
  obtain ⟨l, r, hsplit, hla, hls, hll, hra, hrs, hrl, hlp, hrp⟩ :=
    splitCMD_spec c k hklt hlen (fun i hi => (h.populated_iff i (by omega)).2 hi)
  have hrsym : ∀ i, r.symbols i = none := by
    intro i
    rw [hrs i]
    split_ifs with hi
    · have := hkmax (i + (k + 1)) (by omega) (by omega)
      simpa using this
    · rfl
  have hwl : l.WellFormed := by
    refine ⟨by omega, ?_, ?_⟩
    · intro i hi
      unfold Cmd.populated
      rw [hla i, hls i, hll]
      by_cases hik : i < k
      · simp only [hik, if_true, iff_true]
        exact (h.populated_iff i hi).2 (by omega)
      · simp [hik]
    · intro i hi s' hs'
      rw [hls i] at hs'
      rw [hla i]
      by_cases hik : i < k
      · simp only [hik, if_true] at hs' ⊢
        exact h.symbols_op i hi s' hs'
      · simp [hik] at hs'
  have hwr : r.WellFormed := by
    refine ⟨by omega, ?_, ?_⟩
    · intro i hi
      unfold Cmd.populated
      rw [hra i, hrsym i, hrl]
      by_cases hik : i < c.length - (k + 1)
      · simp only [hik, if_true, iff_true]
        have := (h.populated_iff (i + (k + 1)) (by omega)).2 (by omega)
        rcases this with h1 | h1
        · exact Or.inl h1
        · exfalso
          have h2 := hrsym i
          rw [hrs i, if_pos hik] at h2
          exact h1 h2
      · simp [hik]
    · intro i hi s' hs'
      rw [hrsym i] at hs'
      simp at hs'
  refine ⟨l, r, hsplit, hwl, hwr, hll, hrl, hklt, fun i _ => hrsym i, ?_, hla, hls, hra,
    ⟨s, hs, (h.symbols_op k hkN s hs).1⟩, hlp, hrp⟩
  rw [argTokens_wellFormed c h, argTokens_wellFormed l hwl, argTokens_wellFormed r hwr, hll, hrl]
  have hc : c.length = k + 1 + (c.length - (k + 1)) := by omega
  conv_lhs => rw [hc]
  rw [filterMap_range_split _ _ _ hargk]
  congr 1
  · apply List.filterMap_congr
    intro x hx
    rw [hla x, if_pos (List.mem_range.1 hx)]
  · apply List.filterMap_congr
    intro x hx
    rw [hra x, if_pos (List.mem_range.1 hx)]
/-! ## Lemmas: splitting down to the leaves -/

theorem splitPoint_none_symbols (c : Cmd) (h : c.WellFormed) (hsp : splitPoint c = some (-1)) :
    ∀ i, i < MAX_ARGS → c.symbols i = none := by
  have hlen := h.length_lt
  have hsp2 := splitPoint_wellFormed c hlen (fun i hi s hs => (h.symbols_op i hi s hs).1)
  rw [hsp2] at hsp
  simp only [Option.some.injEq] at hsp
  obtain ⟨_, _, h3, _⟩ := lastIdx_spec (fun i => (c.symbols i).isSome) c.length
  intro i hi
  by_cases hil : i ≤ c.length
  · simpa using h3.1 hsp i hil
  · by_contra hne
    have := (h.populated_iff i hi).1 (Or.inr hne)
    omega

theorem splitPoint_cases (c : Cmd) (h : c.WellFormed) :
    splitPoint c = some (-1) ∨ ∃ k : Nat, splitPoint c = some (k : Int) := by
  have hsp := splitPoint_wellFormed c h.length_lt (fun i hi s hs => (h.symbols_op i hi s hs).1)
  obtain ⟨h1, _, _, _⟩ := lastIdx_spec (fun i => (c.symbols i).isSome) c.length
  rw [hsp]
  by_cases hr : lastIdx (fun i => (c.symbols i).isSome) c.length = -1
  · left; rw [hr]
  · right
    refine ⟨(lastIdx (fun i => (c.symbols i).isSome) c.length).toNat, ?_⟩
    congr 1
    omega

theorem splitAll_leaves : ∀ (fuel : Nat) (c : Cmd), c.WellFormed → c.length < fuel →
    ∃ t, splitAll fuel c = some t ∧ (t.leaves.map argv).flatten = argTokens c ∧
      ∀ leaf, leaf ∈ t.leaves → ∀ i, i < MAX_ARGS → leaf.symbols i = none := by
  intro fuel
  induction fuel with
  | zero => intro c _ h; omega
  | succ fuel ih =>
    intro c hwf hlen
    rcases splitPoint_cases c hwf with hsp | ⟨k, hsp⟩
    · have hsym := splitPoint_none_symbols c hwf hsp
      refine ⟨.leaf c, ?_, ?_, ?_⟩
      · simp only [splitAll, hsp, if_true]
      · simp only [Tree.leaves, List.map_cons, List.map_nil, List.flatten_cons,
          List.flatten_nil, List.append_nil]
        rw [argv_leaf c hwf hsym, argTokens_wellFormed c hwf]
      · intro leaf hleaf
        simp only [Tree.leaves, List.mem_singleton] at hleaf
        subst hleaf
        exact hsym
    · obtain ⟨l, r, hsplit, hwl, hwr, hll, hrl, hkl, _, hargs, _⟩ :=
        splitCMD_at_splitPoint c hwf k hsp
      obtain ⟨tl, htl, hal, hsl⟩ := ih l hwl (by omega)
      obtain ⟨tr, htr, har, hsr⟩ := ih r hwr (by omega)
      have hne : ¬ ((k : Int) = -1) := by omega
      refine ⟨.node { c with left := some l, right := some r } tl tr, ?_, ?_, ?_⟩
      · simp only [splitAll, hsp, hne, if_false, hsplit, htl, htr]
      · simp only [Tree.leaves, List.map_append, List.flatten_append]
        rw [hal, har, hargs]
      · intro leaf hleaf
        simp only [Tree.leaves, List.mem_append] at hleaf
        rcases hleaf with h1 | h1
        · exact hsl leaf h1
        · exact hsr leaf h1

/-! ## Lemmas: the lines `fgets` delivers -/

theorem fgets_shape : ∀ (k : Nat) (stdin : List Char),
    (fgets k stdin).length ≤ k ∧
    ((∀ c, c ∈ fgets k stdin → c ≠ '\n') ∨
      ∃ body, fgets k stdin = body ++ ['\n'] ∧ ∀ c, c ∈ body → c ≠ '\n') := by
  intro k
  induction k with
  | zero => intro stdin; simp [fgets]
  | succ k ih =>
    intro stdin
    cases stdin with
    | nil => simp [fgets]
    | cons c cs =>
      simp only [fgets]
      by_cases hc : c = '\n'
      · simp only [hc, if_true]
        exact ⟨by simp, Or.inr ⟨[], rfl, by simp⟩⟩
      · simp only [hc, if_false]
        obtain ⟨h1, h2⟩ := ih cs
        refine ⟨by simp; omega, ?_⟩
        rcases h2 with h2 | ⟨body, hb, h2⟩
        · left
          intro x hx
          simp only [List.mem_cons] at hx
          rcases hx with rfl | hx
          · exact hc
          · exact h2 x hx
        · right
          refine ⟨c :: body, by rw [hb]; rfl, ?_⟩
          intro x hx
          simp only [List.mem_cons] at hx
          rcases hx with rfl | hx
          · exact hc
          · exact h2 x hx

theorem strcpy_shape (line : List Char)
    (h : (∀ c, c ∈ line → c ≠ '\n') ∨
      ∃ body, line = body ++ ['\n'] ∧ ∀ c, c ∈ body → c ≠ '\n') :
    (strcpy line).length ≤ line.length ∧
    ((∀ c, c ∈ strcpy line → c ≠ '\n') ∨
      ∃ body, strcpy line = body ++ ['\n'] ∧ ∀ c, c ∈ body → c ≠ '\n') := by
  have hpre : strcpy line <+: line := List.takeWhile_prefix _
  refine ⟨hpre.length_le, ?_⟩
  rcases h with h | ⟨body, rfl, hb⟩
  · left
    intro c hc
    exact h c (hpre.subset hc)
  · by_cases hall : ∀ c, c ∈ body → c ≠ NUL
    · right
      refine ⟨body, ?_, hb⟩
      apply strcpy_eq_self
      intro c hc
      rw [List.mem_append] at hc
      rcases hc with hc | hc
      · exact hall c hc
      · simp only [List.mem_singleton] at hc
        subst hc; decide
    · left
      push_neg at hall
      obtain ⟨x, hx, hxn⟩ := hall
      have : strcpy (body ++ ['\n']) = strcpy body := by
        unfold strcpy
        clear hb hpre
        induction body with
        | nil => simp at hx
        | cons a t iht =>
          by_cases ha : a = NUL
          · simp [List.takeWhile, ha]
          · simp only [List.mem_cons] at hx
            rcases hx with rfl | hx
            · exact absurd hxn ha
            · have := iht hx
              simp only [List.cons_append, List.takeWhile, bne_iff_ne, ne_eq, ha,
                not_false_eq_true, decide_True]
              have hb : (a != NUL) = true := by simpa using ha
              simp only [hb]
              exact congrArg (a :: ·) this
      rw [this]
      intro c hc
      have hpre2 : strcpy body <+: body := List.takeWhile_prefix _
      exact hb c (hpre2.subset hc)
theorem strtok_mem (d : List Char) (s tok rest : CStr) (h : strtok d s = some (tok, rest)) :
    (∀ c, c ∈ tok → c ∈ s) ∧ (∀ c, c ∈ rest → c ∈ s) := by
  unfold strtok at h
  have hsub : s.dropWhile (fun c => decide (c ∈ d)) <:+ s := List.dropWhile_suffix _
  cases hs : s.dropWhile (fun c => decide (c ∈ d)) with
  | nil => simp [hs] at h
  | cons c r =>
    rw [hs] at h hsub
    simp only [Option.some.injEq, Prod.mk.injEq] at h
    obtain ⟨h1, h2⟩ := h
    constructor
    · intro x hx
      rw [← h1] at hx
      exact hsub.subset ((List.takeWhile_prefix _).subset hx)
    · intro x hx
      rw [← h2] at hx
      exact hsub.subset ((List.dropWhile_suffix _).subset (List.mem_of_mem_tail hx))

theorem strtokAll_mem (d : List Char) : ∀ (fuel : Nat) (s t : CStr),
    t ∈ strtokAll d fuel s → t ≠ [] ∧ ∀ c, c ∈ t → c ∈ s := by
  intro fuel
  induction fuel with
  | zero => intro s t h; simp [strtokAll] at h
  | succ fuel ih =>
    intro s t h
    unfold strtokAll at h
    cases hs : strtok d s with
    | none => simp [hs] at h
    | some p =>
      obtain ⟨tok, rest⟩ := p
      rw [hs] at h
      simp only [List.mem_cons] at h
      obtain ⟨hm1, hm2⟩ := strtok_mem d s tok rest hs
      rcases h with rfl | h
      · exact ⟨(strtok_shrinks d s t rest hs).1, hm1⟩
      · obtain ⟨h1, h2⟩ := ih rest t h
        exact ⟨h1, fun c hc => hm2 c (h2 c hc)⟩

theorem cutNewline_length (s : CStr) : (cutNewline s).length ≤ s.length := by
  unfold cutNewline
  have h1 := List.takeWhile_append_dropWhile (fun c => c == '\n') s
  have h2 : ((s.dropWhile (fun c => c == '\n')).takeWhile (fun c => c != '\n')).length ≤
      (s.dropWhile (fun c => c == '\n')).length := (List.takeWhile_prefix _).length_le
  have h3 : s.length = (s.takeWhile (fun c => c == '\n')).length +
      (s.dropWhile (fun c => c == '\n')).length := by
    conv_lhs => rw [← h1]
    rw [List.length_append]
  rw [List.length_append]
  omega

/-- On a line that fits the line buffer and has no newline except as its last character, the
tokens `parseCmd` meets are fewer than `MAX_ARGS`, and either none of them begins with a
newline or (the line being just a newline) all of them do. -/
theorem tokensOf_inputLine (line : List Char) (hlen : line.length ≤ MAX_LINE)
    (hshape : (∀ c, c ∈ line → c ≠ '\n') ∨
      ∃ body, line = body ++ ['\n'] ∧ ∀ c, c ∈ body → c ≠ '\n') :
    (tokensOf line).length < MAX_ARGS ∧
    ((∀ t, t ∈ tokensOf line → deref t ≠ '\n') ∨ (∀ t, t ∈ tokensOf line → deref t = '\n')) := by
  obtain ⟨hl, hs⟩ := strcpy_shape line hshape
  constructor
  · have h1 := strtokAll_length [' '] (cutNewline (strcpy line)).length (cutNewline (strcpy line))
    have h2 := cutNewline_length (strcpy line)
    unfold tokensOf
    simp only [MAX_LINE] at hlen
    simp only [MAX_ARGS, MAX_LINE]
    omega
  · have key : ∀ s : CStr, (∀ c, c ∈ s → c ≠ '\n') →
        ∀ t, t ∈ strtokAll [' '] s.length s → deref t ≠ '\n' := by
      intro s hs t ht
      obtain ⟨h1, h2⟩ := strtokAll_mem _ _ _ _ ht
      exact hs _ (h2 _ (deref_of_mem t h1))
    unfold tokensOf
    rcases hs with hs | ⟨body, hb, hs⟩
    · left
      rw [cutNewline_no_newline _ hs]
      exact key _ hs
    · rw [hb]
      by_cases hbody : body = []
      · right
        subst hbody
        intro t ht
        have : t = ['\n'] := by
          have h : strtokAll [' '] (cutNewline ([] ++ ['\n'])).length (cutNewline ([] ++ ['\n']))
              = [['\n']] := by decide
          rw [h] at ht
          simpa using ht
        subst this
        decide
      · left
        rw [cutNewline_line body hbody hs]
        exact key _ hs

theorem parseCmd_wellFormed (line : List Char) (hn : (tokensOf line).length < MAX_ARGS)
    (h : (∀ t, t ∈ tokensOf line → deref t ≠ '\n') ∨
      (∀ t, t ∈ tokensOf line → deref t = '\n')) :
    ∃ c, parseCmd (Cmd.ofLine line) = some c ∧ c.WellFormed ∧
      (∀ j, c.args j = ((tokensOf line)[j]?).bind argOf) ∧
      (∀ j, c.symbols j = ((tokensOf line)[j]?).bind symOf) ∧
      c.line = line ∧ c.pid = -1 := by
  obtain ⟨c, hc, ha, hs, hle, hpop, hend, hline, hpid⟩ := parseCmd_spec line hn
  refine ⟨c, hc, ?_, ha, hs, hline, hpid⟩
  have hsop : ∀ i, i < MAX_ARGS → ∀ s, c.symbols i = some s →
      isOpChar (deref s) = true ∧ c.args i = none := by
    intro i _ s hsi
    rw [hs i] at hsi
    rw [ha i]
    cases ht : (tokensOf line)[i]? with
    | none => simp [ht] at hsi
    | some t =>
      rw [ht] at hsi
      simp only [Option.some_bind] at hsi ⊢
      rcases argOf_symOf_cases t with ⟨_, _, h3⟩ | ⟨_, h2, h3, h4⟩ | ⟨_, _, _, h4⟩
      · rw [h3] at hsi; simp at hsi
      · rw [h4] at hsi
        simp only [Option.some.injEq] at hsi
        subst hsi
        exact ⟨h2, h3⟩
      · rw [h4] at hsi; simp at hsi
  rcases h with h | h
  · -- every token lands in one of the two arrays
    have hall : ∀ i, i < (tokensOf line).length → c.populated i := by
      intro i hi
      unfold Cmd.populated
      rw [ha i, hs i, List.getElem?_eq_getElem hi]
      simp only [Option.some_bind]
      have hne := h _ (List.getElem_mem hi)
      rcases argOf_symOf_cases (tokensOf line)[i] with ⟨h1, _⟩ | ⟨_, _, _, h4⟩ | ⟨_, _, h3, _⟩
      · exact absurd h1 hne
      · right; rw [h4]; simp
      · left; rw [h3]; simp
    have hlenc : c.length = (tokensOf line).length := by
      apply le_antisymm hle
      by_contra hlt
      push_neg at hlt
      exact hend (hall _ hlt)
    refine ⟨by omega, ?_, hsop⟩
    intro i _
    rw [hlenc]
    constructor
    · intro hp
      by_contra hge
      have hnone : (tokensOf line)[i]? = none := by
        rw [List.getElem?_eq_none_iff]; omega
      unfold Cmd.populated at hp
      rw [ha i, hs i, hnone] at hp
      simp at hp
    · exact hall i
  · -- no token lands in an array
    have hnone : ∀ i, ¬ c.populated i := by
      intro i
      unfold Cmd.populated
      rw [ha i, hs i]
      cases ht : (tokensOf line)[i]? with
      | none => simp
      | some t =>
        have h1 := h t (List.getElem?_mem ht)
        simp [argOf, symOf, h1]
    have hlenc : c.length = 0 := by
      by_contra hne
      exact hnone 0 (hpop 0 (by omega))
    refine ⟨by rw [hlenc]; decide, ?_, hsop⟩
    intro i _
    rw [hlenc]
    constructor
    · intro hp; exact absurd hp (hnone i)
    · intro hi; omega

/-! ## C4 -/

/-- C4: for every line `fgets` delivers into the line buffer, `parseCmd` returns a node; and
splitting that node at `splitPoint` with `splitCMD`, then its children in the same way until
`splitPoint` finds no operator, returns a tree whose leaves hold no operator and whose
argument vectors, concatenated from left to right, are exactly the argument tokens of the
original node in their original order. -/
theorem split_leaves_concat (stdin : List Char) :
    ∃ c t, parseCmd (Cmd.ofLine (fgets (MAX_LINE - 1) stdin)) = some c ∧
      splitAll (c.length + 1) c = some t ∧
      (t.leaves.map argv).flatten = argTokens c ∧
      ∀ leaf, leaf ∈ t.leaves → ∀ i, i < MAX_ARGS → leaf.symbols i = none := by
  obtain ⟨h1, h2⟩ := fgets_shape (MAX_LINE - 1) stdin
  obtain ⟨hn, hcase⟩ := tokensOf_inputLine (fgets (MAX_LINE - 1) stdin)
    (by simp only [MAX_LINE] at h1 ⊢; omega) h2
  obtain ⟨c, hc, hwf, _⟩ := parseCmd_wellFormed _ hn hcase
  obtain ⟨t, ht, hl, hs⟩ := splitAll_leaves (c.length + 1) c hwf (by omega)
  exact ⟨c, t, hc, ht, hl, hs⟩
/-! ## Lemmas: execution -/

theorem tokensOf_spaced_eq (toks : List (Nat × CStr)) (trail : Nat) (hne : toks ≠ [])
    (htok : ∀ p, p ∈ toks → p.2 ≠ [] ∧ ' ' ∉ p.2 ∧ '\n' ∉ p.2 ∧ NUL ∉ p.2)
    (hlen : (spaced toks ++ List.replicate trail ' ' ++ ['\n']).length ≤ MAX_LINE) :
    tokensOf (spaced toks ++ List.replicate trail ' ' ++ ['\n']) = toks.map Prod.snd ∧
    toks.length < MAX_ARGS := by
  set body := spaced toks ++ List.replicate trail ' ' with hbody
  have hchars : ∀ c, c ∈ body → c = ' ' ∨ ∃ p, p ∈ toks ∧ c ∈ p.2 := by
    intro c hc
    rw [hbody, List.mem_append] at hc
    rcases hc with hc | hc
    · exact (mem_spaced toks c).1 hc
    · exact Or.inl (List.eq_of_mem_replicate hc)
  have hnl : ∀ c, c ∈ body → c ≠ '\n' := by
    intro c hc
    rcases hchars c hc with rfl | ⟨p, hp, hcp⟩
    · decide
    · rintro rfl; exact (htok p hp).2.2.1 hcp
  have hnul : ∀ c, c ∈ body ++ ['\n'] → c ≠ NUL := by
    intro c hc
    rw [List.mem_append] at hc
    rcases hc with hc | hc
    · rcases hchars c hc with rfl | ⟨p, hp, hcp⟩
      · decide
      · rintro rfl; exact (htok p hp).2.2.2 hcp
    · simp only [List.mem_singleton] at hc
      subst hc; decide
  have hN : 2 * toks.length ≤ (spaced toks).length + 1 :=
    (spaced_length toks (fun p hp => (htok p hp).1)).1
  have hN2 : toks.length < MAX_ARGS := by
    simp only [hbody, List.length_append, List.length_replicate, List.length_singleton,
      MAX_LINE] at hlen
    simp only [MAX_ARGS, MAX_LINE]
    omega
  have hb : body ≠ [] := by
    obtain ⟨p, r, rfl⟩ := List.exists_cons_of_ne_nil hne
    obtain ⟨k, t⟩ := p
    have := (htok (k, t) (List.mem_cons_self _ _)).1
    intro h2
    have h3 : body.length = 0 := by rw [h2]; rfl
    simp only [hbody, spaced, List.length_append, List.length_replicate] at h3
    cases t with
    | nil => exact this rfl
    | cons => simp at h3
  refine ⟨?_, hN2⟩
  unfold tokensOf
  rw [strcpy_eq_self _ hnul, cutNewline_line body hb hnl]
  have hall := strtokAll_spaced toks trail body.length
    (fun p hp => ⟨(htok p hp).1, (htok p hp).2.1⟩) (le_refl _)
  rw [← hbody] at hall
  exact hall

theorem readArgv_spec (args : Slots) (lst : List CStr) (hargs : ∀ j : Nat, args j = lst[j]?) :
    ∀ (fuel i : Nat), fuel + i = MAX_ARGS → lst.length < MAX_ARGS → i ≤ lst.length →
    readArgv args fuel i = some (lst.drop i) := by
  intro fuel
  induction fuel with
  | zero =>
    intro i hi hl hil
    simp only [Nat.zero_add] at hi
    omega
  | succ fuel ih =>
    intro i hi hl _
    have hlt : i < MAX_ARGS := by omega
    unfold readArgv
    simp only [Slots.read, hlt, if_true, hargs i]
    by_cases hil : i < lst.length
    · rw [List.getElem?_eq_getElem hil]
      simp only [ih (i + 1) (by omega) hl (by omega), Option.map_some']
      rw [List.drop_eq_getElem_cons hil]
    · have h1 : lst[i]? = none := by rw [List.getElem?_eq_none_iff]; omega
      have h2 : lst.drop i = [] := by rw [List.drop_eq_nil_iff]; omega
      rw [h1, h2]

theorem callCmd_leaf (os : OS) (fuel : Nat) (cmd : Cmd) (input output : Int) (hist : List Ev)
    (h : splitPoint cmd = some (-1)) :
    callCmd os (fuel + 1) cmd input output hist = [exec os cmd input output hist] := by
  simp [callCmd, h]

/-- A well-formed node without operator is a leaf for `splitPoint`. -/
theorem splitPoint_no_symbols (c : Cmd) (h : c.WellFormed) (hs : ∀ i, c.symbols i = none) :
    splitPoint c = some (-1) := by
  rw [splitPoint_wellFormed c h.length_lt (fun i hi s hs1 => (h.symbols_op i hi s hs1).1)]
  congr 1
  obtain ⟨_, _, h3, _⟩ := lastIdx_spec (fun i => (c.symbols i).isSome) c.length
  rw [h3]
  intro i _
  simp [hs i]

/-- The split point of a well-formed node whose last operator is in slot `k`. -/
theorem splitPoint_last (c : Cmd) (h : c.WellFormed) (k : Nat) (hk : c.symbols k ≠ none)
    (hkN : k < MAX_ARGS) (hmax : ∀ i, k < i → c.symbols i = none) :
    splitPoint c = some (k : Int) := by
  rw [splitPoint_wellFormed c h.length_lt (fun i hi s hs1 => (h.symbols_op i hi s hs1).1)]
  congr 1
  obtain ⟨_, _, _, h4⟩ := lastIdx_spec (fun i => (c.symbols i).isSome) c.length
  rw [h4 k]
  have hkl : k < c.length := (h.populated_iff k hkN).1 (Or.inr hk)
  refine ⟨by omega, Option.isSome_iff_ne_none.2 hk, ?_⟩
  intro i hi _
  simp [hmax i hi]

theorem exec_status (os : OS) (cmd : Cmd) (input output : Int) (hist : List Ev) :
    (exec os cmd input output hist).status ≠ Status.returned := by
  unfold exec
  simp only
  split
  · split_ifs <;> simp
  · simp
  · simp

theorem andThen_single (p : Proc) (k : List Ev → List Proc) (h : p.status ≠ Status.returned) :
    andThen [p] k = [p] := by
  unfold andThen
  cases hs : p.status with
  | returned => exact absurd hs h
  | execed => simp [andThen]
  | exited c => simp [andThen]
  | undefined => simp [andThen]
  | outOfFuel => simp [andThen]
theorem exec_result (b : Bool) (hist : List Ev) (file : CStr) (argv : List CStr) :
    ∃ ok : Bool,
      (if b = true then
          ({ trace := hist ++ [Ev.execvp (some file) argv true], status := .execed } : Proc)
        else
          { trace := hist ++ [Ev.execvp (some file) argv false, Ev.exit 10],
            status := .exited 10 }).trace =
        hist ++ [Ev.execvp (some file) argv ok] ++ (if ok = true then [] else [Ev.exit 10]) ∧
      (if b = true then
          ({ trace := hist ++ [Ev.execvp (some file) argv true], status := .execed } : Proc)
        else
          { trace := hist ++ [Ev.execvp (some file) argv false, Ev.exit 10],
            status := .exited 10 }).status =
        if ok = true then Status.execed else Status.exited 10 := by
  cases b with
  | false => exact ⟨false, by simp, by simp⟩
  | true => exact ⟨true, by simp, by simp⟩

theorem exec_trace (os : OS) (cmd : Cmd) (input output : Int) (hist : List Ev) (file : CStr)
    (argv : List CStr) (h0 : cmd.args 0 = some file)
    (hargv : readArgv cmd.args MAX_ARGS 0 = some argv) :
    ∃ ok : Bool,
      (exec os cmd input output hist).trace =
        hist ++ (if input ≠ STDIN_FILENO then [Ev.dup2 input 0] else []) ++
          (if output ≠ STDOUT_FILENO then [Ev.dup2 output 1] else []) ++
          [Ev.execvp (some file) argv ok] ++ (if ok = true then [] else [Ev.exit 10]) ∧
      (exec os cmd input output hist).status =
        if ok = true then Status.execed else Status.exited 10 := by
  have hr : cmd.args.read 0 = some (some file) := by
    simp only [Slots.read, h0]
    rfl
  have hh : (if output ≠ STDOUT_FILENO then
        (if input ≠ STDIN_FILENO then hist ++ [Ev.dup2 input 0] else hist) ++ [Ev.dup2 output 1]
      else (if input ≠ STDIN_FILENO then hist ++ [Ev.dup2 input 0] else hist)) =
      hist ++ (if input ≠ STDIN_FILENO then [Ev.dup2 input 0] else []) ++
        (if output ≠ STDOUT_FILENO then [Ev.dup2 output 1] else []) := by
    by_cases h1 : input = STDIN_FILENO <;> by_cases h2 : output = STDOUT_FILENO <;>
      simp [h1, h2]
  unfold exec
  simp only [hr, hargv]
  rw [hh]
  exact exec_result _ _ file argv

theorem Cmd.WellFormed.withPid (c : Cmd) (h : c.WellFormed) (p : Int) :
    Cmd.WellFormed { c with pid := p } :=
  ⟨h.length_lt, h.populated_iff, h.symbols_op⟩

/-! ## C5 -/

/-- C5: for every line `w1 ... wn > f` (n at least 1, the tokens separated by runs of spaces,
`w1 ... wn` and `f` not beginning with an operator character) that fits the line buffer,
`callCmd` on the parsed node, called with any `input` and `output`, yields a single process.
That process opens `f` with `O_WRONLY|O_TRUNC|O_CREAT`, leaves its input as it was handed in
(`dup2(input, 0)` only when `input` is not standard input), makes the descriptor returned by
`open` its standard output, and calls `execvp` with program `w1` and argument vector exactly
`[w1, ..., wn]`; it ends in the new program, or with `exit(10)` when `execvp` fails. -/
theorem callCmd_redirect_out (os : OS) (ws : List (Nat × CStr)) (kop kf trail : Nat) (f : CStr)
    (input output : Int) (hist : List Ev) (hws : ws ≠ [])
    (htok : ∀ p, p ∈ ws ++ [(kf, f)] → p.2 ≠ [] ∧ ' ' ∉ p.2 ∧ '\n' ∉ p.2 ∧ NUL ∉ p.2 ∧
      isOpChar (deref p.2) = false)
    (hlen : (spaced (ws ++ [(kop, ['>']), (kf, f)]) ++ List.replicate trail ' ' ++
      ['\n']).length ≤ MAX_LINE) :
    ∃ c p ok, parseCmd (Cmd.ofLine (spaced (ws ++ [(kop, ['>']), (kf, f)]) ++
        List.replicate trail ' ' ++ ['\n'])) = some c ∧
      callCmd os (c.length + 1) c input output hist = [p] ∧
      p.trace =
        hist ++ [Ev.openFile (some f) .wronlyTruncCreat
                  (os.openFile hist (some f) .wronlyTruncCreat)] ++
          (if input ≠ STDIN_FILENO then [Ev.dup2 input 0] else []) ++
          (if os.openFile hist (some f) .wronlyTruncCreat ≠ STDOUT_FILENO
            then [Ev.dup2 (os.openFile hist (some f) .wronlyTruncCreat) 1] else []) ++
          [Ev.execvp ((ws.map Prod.snd).head?) (ws.map Prod.snd) ok] ++
          (if ok = true then [] else [Ev.exit 10]) ∧
      p.status = if ok = true then Status.execed else Status.exited 10 := by
  set toks := ws ++ [(kop, ['>']), (kf, f)] with htoks
  set n := ws.length with hn
  have hf := htok (kf, f) (by simp)
  have hw : ∀ p, p ∈ ws → p.2 ≠ [] ∧ ' ' ∉ p.2 ∧ '\n' ∉ p.2 ∧ NUL ∉ p.2 ∧
      isOpChar (deref p.2) = false := fun p hp => htok p (by simp [hp])
  have hall : ∀ p, p ∈ toks → p.2 ≠ [] ∧ ' ' ∉ p.2 ∧ '\n' ∉ p.2 ∧ NUL ∉ p.2 := by
    intro p hp
    rw [htoks, List.mem_append] at hp
    rcases hp with hp | hp
    · exact ⟨(hw p hp).1, (hw p hp).2.1, (hw p hp).2.2.1, (hw p hp).2.2.2.1⟩
    · simp only [List.mem_cons, List.mem_singleton, List.not_mem_nil, or_false] at hp
      rcases hp with rfl | rfl
      · show (['>'] : CStr) ≠ [] ∧ ' ' ∉ (['>'] : CStr) ∧ '\n' ∉ (['>'] : CStr) ∧
          NUL ∉ (['>'] : CStr)
        decide
      · exact ⟨hf.1, hf.2.1, hf.2.2.1, hf.2.2.2.1⟩
  obtain ⟨htk, hcount⟩ := tokensOf_spaced_eq toks trail (by simp [htoks]) hall hlen
  have hnl : ∀ t, t ∈ tokensOf (spaced toks ++ List.replicate trail ' ' ++ ['\n']) →
      deref t ≠ '\n' := by
    intro t ht
    rw [htk, List.mem_map] at ht
    obtain ⟨p, hp, rfl⟩ := ht
    exact fun h => (hall p hp).2.2.1 (h ▸ deref_of_mem p.2 (hall p hp).1)
  obtain ⟨c, hc, hwf, ha, hs, _, _⟩ := parseCmd_wellFormed _ (by rw [htk]; simpa using hcount)
    (Or.inl hnl)
  rw [htk] at ha hs
  have hmap : toks.map Prod.snd = ws.map Prod.snd ++ [['>'], f] := by simp [htoks]
  have hlenw : (ws.map Prod.snd).length = n := by simp [hn]
  rw [hmap] at ha hs
  have hpos : 0 < n := by
    rw [hn]; exact List.length_pos.2 hws
  -- the slots of the parsed node
  have hlow : ∀ j, j < n → c.args j = (ws.map Prod.snd)[j]? ∧ c.symbols j = none := by
    intro j hj
    have hjl : j < (ws.map Prod.snd).length := by omega
    rw [ha j, hs j, List.getElem?_append_left hjl, List.getElem?_eq_getElem hjl]
    have hmem : (ws.map Prod.snd)[j] ∈ ws.map Prod.snd := List.getElem_mem hjl
    rw [List.mem_map] at hmem
    obtain ⟨p, hp, hpe⟩ := hmem
    have := argOf_plain p.2 (hw p hp).1 (hw p hp).2.2.1 (hw p hp).2.2.2.2
    rw [← hpe]
    simp [this.1, this.2]
  have hn0 : c.symbols n = some ['>'] := by
    rw [hs n, List.getElem?_append_right (by omega), hlenw]
    simp only [Nat.sub_self, List.getElem?_cons_zero, Option.some_bind]
    decide
  have hn1 : c.args (n + 1) = some f ∧ c.symbols (n + 1) = none := by
    rw [ha (n + 1), hs (n + 1), List.getElem?_append_right (by omega), hlenw]
    have : n + 1 - n = 1 := by omega
    rw [this]
    have := argOf_plain f hf.1 hf.2.2.1 hf.2.2.2.2
    simp [this.1, this.2]
  have hhigh : ∀ i, n + 1 < i → c.symbols i = none := by
    intro i hi
    rw [hs i, List.getElem?_append_right (by omega), hlenw]
    have : ([['>'], f] : List CStr)[i - n]? = none := by
      rw [List.getElem?_eq_none_iff]; simp; omega
    rw [this]; rfl
  have hnN : n < MAX_ARGS := by
    simp only [htoks, List.length_append, List.length_cons, List.length_nil] at hcount
    omega
  have hsp : splitPoint c = some (n : Int) := by
    apply splitPoint_last c hwf n (by rw [hn0]; simp) hnN
    intro i hi
    by_cases h1 : i = n + 1
    · subst h1; exact hn1.2
    · exact hhigh i (by omega)
  obtain ⟨l, r, hsplit, hwl, hwr, hll, hrl, hkl, _, _, hla, hls, hra, _, _, _⟩ :=
    splitCMD_at_splitPoint c hwf n hsp
  have hr0 : r.args 0 = some f := by
    rw [hra 0]
    have hclen : n + 1 < c.length := (hwf.populated_iff (n + 1) (by
      simp only [htoks, List.length_append, List.length_cons, List.length_nil] at hcount
      omega)).1 (Or.inl (by rw [hn1.1]; simp))
    rw [if_pos (by omega)]
    simpa using hn1.1
  have hlargs : ∀ j : Nat, l.args j = (ws.map Prod.snd)[j]? := by
    intro j
    rw [hla j]
    by_cases hj : j < n
    · rw [if_pos hj]; exact (hlow j hj).1
    · rw [if_neg hj]
      symm
      rw [List.getElem?_eq_none_iff]; omega
  have hlsym : ∀ j, l.symbols j = none := by
    intro j
    rw [hls j]
    by_cases hj : j < n
    · rw [if_pos hj]; exact (hlow j hj).2
    · rw [if_neg hj]
  obtain ⟨w1, hw1⟩ : ∃ w1, (ws.map Prod.snd).head? = some w1 := by
    cases hws' : ws.map Prod.snd with
    | nil => simp at hws'; exact absurd hws' hws
    | cons a t => exact ⟨a, rfl⟩
  have hl0 : l.args 0 = some w1 := by
    rw [hlargs 0, ← hw1, List.head?_eq_getElem?]
  have hargv : readArgv l.args MAX_ARGS 0 = some (ws.map Prod.snd) := by
    have := readArgv_spec l.args (ws.map Prod.snd) hlargs MAX_ARGS 0 rfl (by omega) (by omega)
    simpa using this
  obtain ⟨m, hm⟩ : ∃ m, c.length = m + 1 := ⟨c.length - 1, by omega⟩
  have hleaf : splitPoint { l with pid := c.pid } = some (-1) :=
    splitPoint_no_symbols _ (hwl.withPid l c.pid) hlsym
  obtain ⟨ok, ht, hst⟩ := exec_trace os { l with pid := c.pid } input
    (os.openFile hist (some f) .wronlyTruncCreat)
    (hist ++ [Ev.openFile (some f) .wronlyTruncCreat
      (os.openFile hist (some f) .wronlyTruncCreat)]) w1 (ws.map Prod.snd) hl0 hargv
  refine ⟨c, _, ok, hc, ?_, ?_, hst⟩
  · have hne : ¬ ((n : Int) = -1) := by omega
    have hrd : c.symbols.read n = some (some ['>']) := by
      simp only [Slots.read, hnN, if_true, hn0]
    have hrr : r.args.read 0 = some (some f) := by
      simp only [Slots.read, hr0]; rfl
    have e1 : ¬ (REDIRECT_OUT_OP = BG_OP) := by decide
    have e2 : ¬ (REDIRECT_OUT_OP = REDIRECT_IN_OP) := by decide
    have e3 : deref ['>'] = REDIRECT_OUT_OP := by decide
    rw [callCmd]
    simp only [hsp, hsplit, ne_eq, hne, not_false_eq_true, if_true, Int.toNat_natCast,
      hrd, e1, e2, e3, if_false, hrr]
    rw [hm, callCmd_leaf os m _ _ _ _ hleaf]
    exact andThen_single _ _ (exec_status _ _ _ _ _)
  · rw [ht, hw1]

theorem callCmd_redirect_out_witness :
    ∃ c p ok, parseCmd (Cmd.ofLine "echo hi > out.txt\n".toList) = some c ∧
      callCmd sampleOS (c.length + 1) c 0 1 [] = [p] ∧
      p.trace =
        [] ++ [Ev.openFile (some "out.txt".toList) .wronlyTruncCreat
                  (sampleOS.openFile [] (some "out.txt".toList) .wronlyTruncCreat)] ++
          (if (0 : Int) ≠ STDIN_FILENO then [Ev.dup2 0 0] else []) ++
          (if sampleOS.openFile [] (some "out.txt".toList) .wronlyTruncCreat ≠ STDOUT_FILENO
            then [Ev.dup2 (sampleOS.openFile [] (some "out.txt".toList) .wronlyTruncCreat) 1]
            else []) ++
          [Ev.execvp (([(0, "echo".toList), (0, "hi".toList)].map Prod.snd).head?)
            ([(0, "echo".toList), (0, "hi".toList)].map Prod.snd) ok] ++
          (if ok = true then [] else [Ev.exit 10]) ∧
      p.status = if ok = true then Status.execed else Status.exited 10 :=
  callCmd_redirect_out sampleOS [(0, "echo".toList), (0, "hi".toList)] 0 0 0 "out.txt".toList
    0 1 [] (by decide) (by decide) (by decide)
/-! ## C6 -/

/-- C6, the code at the failing input: in the three-stage pipe `a | b | c` where `b` cannot be
launched, the process forked for `b` ends with `exit(10)`; its parent, the process that
evaluates `a | b`, gets the two process ids back from `waitpid` (104 and 106), compares those
with 10, and returns instead of exiting; and the process that evaluates the whole line returns
as well.  No process but the one forked for `b` ends with status 10. -/
theorem callCmd_pipe_failure_not_propagated :
    ∃ c, parseCmd (Cmd.ofLine "a | b | c\n".toList) = some c ∧
      callCmd sampleOS (c.length + 1) c STDIN_FILENO STDOUT_FILENO [] =
        [ -- the process that evaluates the whole line
          { trace := [Ev.pipe true 3 4, Ev.fork 101, Ev.close 4, Ev.fork 103, Ev.close 3,
                      Ev.waitpid 101 101, Ev.waitpid 103 103],
            status := Status.returned },
          -- its second child: stage c
          { trace := [Ev.pipe true 3 4, Ev.fork 101, Ev.close 4, Ev.fork 0, Ev.dup2 3 0,
                      Ev.execvp (some ['c']) [['c']] true],
            status := Status.execed },
          -- its first child: evaluates `a | b`, then goes on in the caller
          { trace := [Ev.pipe true 3 4, Ev.fork 0, Ev.close 3, Ev.pipe true 3 4, Ev.fork 104,
                      Ev.close 4, Ev.fork 106, Ev.close 3, Ev.waitpid 104 104,
                      Ev.waitpid 106 106, Ev.close 4, Ev.fork 111, Ev.close 3,
                      Ev.waitpid 0 (-1), Ev.waitpid 111 111],
            status := Status.returned },
          { trace := [Ev.pipe true 3 4, Ev.fork 0, Ev.close 3, Ev.pipe true 3 4, Ev.fork 104,
                      Ev.close 4, Ev.fork 106, Ev.close 3, Ev.waitpid 104 104,
                      Ev.waitpid 106 106, Ev.close 4, Ev.fork 0, Ev.dup2 3 0,
                      Ev.execvp (some ['c']) [['c']] true],
            status := Status.execed },
          -- stage b: the launch fails
          { trace := [Ev.pipe true 3 4, Ev.fork 0, Ev.close 3, Ev.pipe true 3 4, Ev.fork 104,
                      Ev.close 4, Ev.fork 0, Ev.dup2 3 0, Ev.dup2 4 1,
                      Ev.execvp (some ['b']) [['b']] false, Ev.exit 10],
            status := Status.exited 10 },
          -- stage a
          { trace := [Ev.pipe true 3 4, Ev.fork 0, Ev.close 3, Ev.pipe true 3 4, Ev.fork 0,
                      Ev.close 3, Ev.dup2 4 1, Ev.execvp (some ['a']) [['a']] true],
            status := Status.execed } ] := by
  refine ⟨_, rfl, ?_⟩
  decide
/-! ## Lemmas: the job list -/

theorem IsSeg.congr {heap heap1 : Heap} : ∀ (l : List Nat) (prev cur : Option Nat),
    (∀ a, a ∈ l → heap1 a = heap a) → IsSeg heap prev cur l → IsSeg heap1 prev cur l := by
  intro l
  induction l with
  | nil => intro prev cur _ h; exact h
  | cons a l ih =>
    intro prev cur hag h
    obtain ⟨hc, n, hn, hl, hrest⟩ := h
    refine ⟨hc, n, ?_, hl, ih _ _ (fun x hx => hag x (List.mem_cons_of_mem _ hx)) hrest⟩
    rw [hag a (List.mem_cons_self _ _)]; exact hn

theorem IsSeg.cur_eq {heap : Heap} {prev cur : Option Nat} {l : List Nat}
    (h : IsSeg heap prev cur l) : cur = l.head? := by
  cases l with
  | nil => exact h
  | cons a l => exact h.1

theorem IsSeg.allocated {heap : Heap} : ∀ (l : List Nat) (prev cur : Option Nat),
    IsSeg heap prev cur l → ∀ a, a ∈ l → ∃ n, heap a = some n := by
  intro l
  induction l with
  | nil => intro _ _ _ a ha; simp at ha
  | cons b l ih =>
    intro prev cur h a ha
    obtain ⟨_, n, hn, _, hrest⟩ := h
    simp only [List.mem_cons] at ha
    rcases ha with rfl | ha
    · exact ⟨n, hn⟩
    · exact ih _ _ hrest a ha

theorem lastNode_spec {heap : Heap} : ∀ (l : List Nat) (a : Nat) (prev : Option Nat) (fuel : Nat),
    IsSeg heap prev (some a) (a :: l) → l.length < fuel →
    ∃ p n, (a :: l).getLast? = some p ∧ lastNode heap fuel a = some p ∧ heap p = some n ∧
      n.next = none := by
  intro l
  induction l with
  | nil =>
    intro a prev fuel h hf
    obtain ⟨_, n, hn, _, hrest⟩ := h
    cases fuel with
    | zero => simp at hf
    | succ fuel =>
      refine ⟨a, n, rfl, ?_, hn, hrest⟩
      have hnx : n.next = none := hrest
      simp [lastNode, hn, hnx]
  | cons b l ih =>
    intro a prev fuel h hf
    obtain ⟨_, n, hn, _, hrest⟩ := h
    have hb : n.next = some b := hrest.1
    cases fuel with
    | zero => simp at hf
    | succ fuel =>
      rw [hb] at hrest
      obtain ⟨p, np, h1, h2, h3, h4⟩ := ih b (some a) fuel hrest (by simpa using hf)
      refine ⟨p, np, ?_, ?_, h3, h4⟩
      · rw [List.getLast?_cons_cons]; exact h1
      · simp [lastNode, hn, hb, h2]

theorem IsSeg.append_node {heap heap1 : Heap} {toAdd p : Nat} {nt : processList}
    (htn : nt.next = none)
    (hp1 : ∀ np, heap p = some np → heap1 p = some { np with next := some toAdd })
    (ht1 : heap1 toAdd = some { nt with last := some p })
    (hoth : ∀ x, x ≠ p → x ≠ toAdd → heap1 x = heap x) :
    ∀ (l : List Nat) (prev cur : Option Nat), l.getLast? = some p → IsSeg heap prev cur l →
      l.Nodup → toAdd ∉ l → IsSeg heap1 prev cur (l ++ [toAdd]) := by
  intro l
  induction l with
  | nil => intro _ _ h; simp at h
  | cons a l ih =>
    intro prev cur hlast h hnd hnot
    obtain ⟨hc, n, hn, hl, hrest⟩ := h
    have hat : a ≠ toAdd := fun h => hnot (h ▸ List.mem_cons_self _ _)
    cases l with
    | nil =>
      have hap : a = p := by simpa using hlast
      subst hap
      have hnx : n.next = none := hrest
      refine ⟨hc, { n with next := some toAdd }, hp1 n hn, hl, ?_⟩
      exact ⟨rfl, { nt with last := some a }, ht1, rfl, htn⟩
    | cons b l =>
      rw [List.getLast?_cons_cons] at hlast
      have hap : a ≠ p := by
        intro h
        have hmem : p ∈ b :: l := List.mem_of_getLast?_eq_some hlast
        rw [← h] at hmem
        exact (List.nodup_cons.1 hnd).1 hmem
      refine ⟨hc, n, ?_, hl, ?_⟩
      · rw [hoth a hap hat]; exact hn
      · exact ih (some a) n.next hlast hrest (List.nodup_cons.1 hnd).2
          (fun h => hnot (List.mem_cons_of_mem _ h))

theorem Heap.sameRecords.refl (h : Heap) : h.sameRecords h := fun _ => rfl

theorem Heap.sameRecords.trans {h1 h2 h3 : Heap} (h12 : h1.sameRecords h2)
    (h23 : h2.sameRecords h3) : h1.sameRecords h3 := fun x => (h23 x).trans (h12 x)

theorem Heap.setNext_spec {h h1 : Heap} {a : Nat} {v : Option Nat} (hs : h.setNext a v = some h1) :
    (∃ n, h a = some n ∧ h1 a = some { n with next := v }) ∧ (∀ x, x ≠ a → h1 x = h x) ∧
      h.sameRecords h1 := by
  unfold Heap.setNext at hs
  cases hn : h a with
  | none => simp [hn] at hs
  | some n =>
    rw [hn] at hs
    simp only [Option.some.injEq] at hs
    subst hs
    refine ⟨⟨n, rfl, by simp [Heap.store]⟩, fun x hx => by simp [Heap.store, hx], ?_⟩
    intro x
    by_cases hx : x = a
    · subst hx; simp [Heap.store, hn, processList.payload]
    · simp [Heap.store, hx]

theorem Heap.setLast_spec {h h1 : Heap} {a : Nat} {v : Option Nat} (hs : h.setLast a v = some h1) :
    (∃ n, h a = some n ∧ h1 a = some { n with last := v }) ∧ (∀ x, x ≠ a → h1 x = h x) ∧
      h.sameRecords h1 := by
  unfold Heap.setLast at hs
  cases hn : h a with
  | none => simp [hn] at hs
  | some n =>
    rw [hn] at hs
    simp only [Option.some.injEq] at hs
    subst hs
    refine ⟨⟨n, rfl, by simp [Heap.store]⟩, fun x hx => by simp [Heap.store, hx], ?_⟩
    intro x
    by_cases hx : x = a
    · subst hx; simp [Heap.store, hn, processList.payload]
    · simp [Heap.store, hx]

theorem Heap.setNext_some {h : Heap} {a : Nat} {n : processList} (v : Option Nat)
    (hn : h a = some n) : h.setNext a v = some (h.store a { n with next := v }) := by
  simp [Heap.setNext, hn]

theorem Heap.setLast_some {h : Heap} {a : Nat} {n : processList} (v : Option Nat)
    (hn : h a = some n) : h.setLast a v = some (h.store a { n with last := v }) := by
  simp [Heap.setLast, hn]
theorem nodup_length_le (l : List Nat) (n : Nat) (hnd : l.Nodup) (hlt : ∀ a, a ∈ l → a < n) :
    l.length ≤ n := by
  have hsub : l ⊆ List.range n := fun a ha => List.mem_range.2 (hlt a ha)
  have := (List.subperm_of_subset hnd hsub).length_le
  simpa using this

theorem Table.length_le {st : Jobs} {l : List Nat} (h : Table st l) : l.length ≤ st.brk :=
  nodup_length_le l st.brk h.nodup h.lt_brk

theorem Table.head_eq {st : Jobs} {l : List Nat} (h : Table st l) : st.head = l.head? :=
  h.seg.cur_eq

theorem addProcess_spec (st : Jobs) (l : List Nat) (toAdd : Nat) (nt : processList)
    (h : Table st l) (hnot : toAdd ∉ l) (hlt : toAdd < st.brk) (ht : st.heap toAdd = some nt)
    (htn : nt.next = none) (htl : nt.last = none) :
    ∃ st1, addProcess st toAdd = some st1 ∧ Table st1 (l ++ [toAdd]) ∧
      st.heap.sameRecords st1.heap ∧ st1.brk = st.brk ∧
      st1.processNumber = st.processNumber := by
  cases l with
  | nil =>
    have hh : st.head = none := h.seg
    refine ⟨{ st with head := some toAdd }, by simp [addProcess, hh], ?_,
      Heap.sameRecords.refl _, rfl, rfl⟩
    refine ⟨⟨rfl, nt, ht, htl, htn⟩, by simp, ?_⟩
    intro a ha
    simp only [List.nil_append, List.mem_singleton] at ha
    subst ha; exact hlt
  | cons a l =>
    obtain ⟨hc, n, hn, hl, hrest⟩ := h.seg
    have hseg : IsSeg st.heap none (some a) (a :: l) := ⟨rfl, n, hn, hl, hrest⟩
    have hlen := h.length_le
    simp only [List.length_cons] at hlen
    obtain ⟨p, np, hp1, hp2, hp3, hp4⟩ := lastNode_spec l a none st.brk hseg (by omega)
    have hpmem : p ∈ a :: l := List.mem_of_getLast?_eq_some hp1
    have hpt : p ≠ toAdd := fun h => hnot (h ▸ hpmem)
    have e1 := Heap.setNext_some (some toAdd) hp3
    have ht2 : (st.heap.store p { np with next := some toAdd }) toAdd = some nt := by
      simp [Heap.store, Ne.symm hpt, ht]
    have e2 := Heap.setLast_some (some p) ht2
    refine ⟨{ st with heap := ((st.heap.store p { np with next := some toAdd }).store toAdd
        { nt with last := some p }) }, ?_, ?_, ?_, rfl, rfl⟩
    · simp only [addProcess, hc, hp2, e1, e2]
    · refine ⟨?_, ?_, ?_⟩
      · rw [hc]
        apply @IsSeg.append_node st.heap _ toAdd p nt htn
          ?_ ?_ ?_ (a :: l) none (some a) hp1 hseg h.nodup hnot
        · intro np' hnp'
          rw [hp3] at hnp'
          simp only [Option.some.injEq] at hnp'
          subst hnp'
          simp [Heap.store, hpt]
        · simp [Heap.store]
        · intro x hx1 hx2
          simp [Heap.store, hx1, hx2]
      · rw [List.nodup_append]
        refine ⟨h.nodup, by simp, ?_⟩
        intro x hx hx2
        simp only [List.mem_singleton] at hx2
        subst hx2
        exact hnot hx
      · intro x hx
        rw [List.mem_append] at hx
        rcases hx with hx | hx
        · exact h.lt_brk x hx
        · simp only [List.mem_singleton] at hx
          subst hx; exact hlt
    · exact ((Heap.setNext_spec e1).2.2).trans ((Heap.setLast_spec e2).2.2)

theorem findNode_spec {heap : Heap} (r : Nat) : ∀ (l : List Nat) (prev cur : Option Nat)
    (fuel : Nat), IsSeg heap prev cur l → l.length < fuel →
    findNode heap r fuel cur = some (if r ∈ l then some r else none) := by
  intro l
  induction l with
  | nil =>
    intro prev cur fuel h hf
    have hc : cur = none := h
    subst hc
    cases fuel with
    | zero => simp at hf
    | succ fuel => simp [findNode]
  | cons a l ih =>
    intro prev cur fuel h hf
    obtain ⟨hc, n, hn, _, hrest⟩ := h
    subst hc
    cases fuel with
    | zero => simp at hf
    | succ fuel =>
      by_cases har : a = r
      · subst har
        simp [findNode]
      · have hra : r ≠ a := fun h => har h.symm
        simp only [findNode, har, if_false, hn, List.mem_cons, hra, false_or]
        exact ih (some a) n.next fuel hrest (by simpa using hf)

theorem IsSeg.split {heap : Heap} (r : Nat) (l2 : List Nat) : ∀ (l1 : List Nat)
    (prev cur : Option Nat), l1 ≠ [] → IsSeg heap prev cur (l1 ++ r :: l2) →
    ∃ nr p np, heap r = some nr ∧ l1.getLast? = some p ∧ nr.last = some p ∧
      nr.next = l2.head? ∧ heap p = some np ∧
      (∀ nx, l2.head? = some nx → ∃ nnx, heap nx = some nnx) := by
  intro l1
  induction l1 with
  | nil => intro _ _ h; exact absurd rfl h
  | cons a l1 ih =>
    intro prev cur _ h
    obtain ⟨_, n, hn, _, hrest⟩ := h
    cases l1 with
    | nil =>
      obtain ⟨_, nr, hnr, hlast, hrest2⟩ := hrest
      refine ⟨nr, a, n, hnr, rfl, hlast, hrest2.cur_eq, hn, ?_⟩
      intro nx hnx
      cases l2 with
      | nil => simp at hnx
      | cons b l2 =>
        simp only [List.head?_cons, Option.some.injEq] at hnx
        subst hnx
        obtain ⟨_, nb, hnb, _⟩ := hrest2
        exact ⟨nb, hnb⟩
    | cons b l1 =>
      obtain ⟨nr, p, np, h1, h2, h3, h4, h5, h6⟩ := ih (some a) n.next (by simp) hrest
      exact ⟨nr, p, np, h1, by rw [List.getLast?_cons_cons]; exact h2, h3, h4, h5, h6⟩

theorem IsSeg.remove {heap heap1 : Heap} {r p : Nat} {nr : processList} (l2 : List Nat)
    (hr : heap r = some nr)
    (hp1 : ∀ np, heap p = some np → heap1 p = some { np with next := nr.next })
    (hnx1 : ∀ nx nnx, l2.head? = some nx → heap nx = some nnx →
      heap1 nx = some { nnx with last := some p })
    (hoth : ∀ x, x ≠ p → x ≠ r → l2.head? ≠ some x → heap1 x = heap x) :
    ∀ (l1 : List Nat) (prev cur : Option Nat), l1.getLast? = some p →
      IsSeg heap prev cur (l1 ++ r :: l2) → (l1 ++ r :: l2).Nodup →
      IsSeg heap1 prev cur (l1 ++ l2) := by
  intro l1
  induction l1 with
  | nil => intro _ _ h; simp at h
  | cons a l1 ih =>
    intro prev cur hlast h hnd
    obtain ⟨hc, n, hn, hl, hrest⟩ := h
    have hnd2 : (l1 ++ r :: l2).Nodup := (List.nodup_cons.1 hnd).2
    have hanot : a ∉ l1 ++ r :: l2 := (List.nodup_cons.1 hnd).1
    cases l1 with
    | nil =>
      have hap : a = p := by simpa using hlast
      subst hap
      obtain ⟨hnr, nr', hnr', hrl, hrest2⟩ := hrest
      rw [hr] at hnr'
      simp only [Option.some.injEq] at hnr'
      subst hnr'
      simp only [List.nil_append] at hnd2 hanot ⊢
      refine ⟨hc, { n with next := nr.next }, hp1 n hn, hl, ?_⟩
      cases l2 with
      | nil => exact hrest2
      | cons b l2 =>
        obtain ⟨hb, nb, hnb, hbl, hrest3⟩ := hrest2
        refine ⟨hb, { nb with last := some a }, hnx1 b nb rfl hnb, rfl, ?_⟩
        apply IsSeg.congr l2 (some b) nb.next ?_ hrest3
        intro x hx
        have hxa : x ≠ a := by
          rintro rfl
          exact hanot (by simp [hx])
        have hxr : x ≠ r := by
          rintro rfl
          exact (List.nodup_cons.1 hnd2).1 (List.mem_cons_of_mem _ hx)
        have hxb : (b :: l2).head? ≠ some x := by
          simp only [List.head?_cons, ne_eq, Option.some.injEq]
          rintro rfl
          exact (List.nodup_cons.1 (List.nodup_cons.1 hnd2).2).1 hx
        exact hoth x hxa hxr hxb
    | cons b l1 =>
      rw [List.getLast?_cons_cons] at hlast
      have hpmem : p ∈ b :: l1 := List.mem_of_getLast?_eq_some hlast
      have hap : a ≠ p := by
        rintro rfl
        exact hanot (List.mem_append_left _ hpmem)
      have har : a ≠ r := by
        rintro rfl
        exact hanot (by simp)
      have hah : l2.head? ≠ some a := by
        intro h
        have : a ∈ l2 := List.mem_of_mem_head? h
        exact hanot (by simp [this])
      refine ⟨hc, n, ?_, hl, ih (some a) n.next hlast hrest hnd2⟩
      rw [hoth a hap har hah]; exact hn
theorem removeProcess_head (st : Jobs) (a : Nat) (l : List Nat) (h : Table st (a :: l)) :
    ∃ st1, removeProcess st a = some st1 ∧ Table st1 l ∧ st.heap.sameRecords st1.heap ∧
      st1.brk = st.brk ∧ st1.processNumber = st.processNumber := by
  obtain ⟨hc, n, hn, hl, hrest⟩ := h.seg
  have hnd := List.nodup_cons.1 h.nodup
  have e1 := Heap.setNext_some none hn
  cases l with
  | nil =>
    have hnx : n.next = none := hrest
    refine ⟨{ st with heap := st.heap.store a { n with next := none }, head := none }, ?_, ?_,
      (Heap.setNext_spec e1).2.2, rfl, rfl⟩
    · simp only [removeProcess, hc, if_true, hn, e1, hnx]
    · exact ⟨rfl, by simp, by simp⟩
  | cons b l =>
    obtain ⟨hb, nb, hnb, hbl, hrest2⟩ := hrest
    have hba : b ≠ a := by
      rintro rfl
      exact hnd.1 (List.mem_cons_self _ _)
    have hb1 : (st.heap.store a { n with next := none }) b = some nb := by
      simp [Heap.store, hba, hnb]
    have e2 := Heap.setLast_some none hb1
    refine ⟨{ st with heap := ((st.heap.store a { n with next := none }).store b
        { nb with last := none }), head := some b }, ?_, ?_,
      ((Heap.setNext_spec e1).2.2).trans ((Heap.setLast_spec e2).2.2), rfl, rfl⟩
    · simp only [removeProcess, hc, if_true, hn, e1, hb, e2]
    · refine ⟨⟨rfl, { nb with last := none }, by simp [Heap.store], rfl, ?_⟩, hnd.2,
        fun x hx => h.lt_brk x (List.mem_cons_of_mem _ hx)⟩
      apply IsSeg.congr l (some b) nb.next ?_ hrest2
      intro x hx
      have hxb : x ≠ b := by
        rintro rfl
        exact (List.nodup_cons.1 hnd.2).1 hx
      have hxa : x ≠ a := by
        rintro rfl
        exact hnd.1 (List.mem_cons_of_mem _ hx)
      simp [Heap.store, hxb, hxa]

theorem removeProcess_inner (st : Jobs) (l1 l2 : List Nat) (r : Nat) (hl1 : l1 ≠ [])
    (h : Table st (l1 ++ r :: l2)) :
    ∃ st1, removeProcess st r = some st1 ∧ Table st1 (l1 ++ l2) ∧
      st.heap.sameRecords st1.heap ∧ st1.brk = st.brk ∧
      st1.processNumber = st.processNumber ∧ st1.head = st.head := by
  obtain ⟨nr, p, np, hr, hlast, hrl, hrn, hp, hnx⟩ := IsSeg.split r l2 l1 none st.head hl1 h.seg
  obtain ⟨a, l1t, rfl⟩ := List.exists_cons_of_ne_nil hl1
  have hhead : st.head = some a := by
    have := h.head_eq
    simpa using this
  have hnd := h.nodup
  have har : a ≠ r := by
    rintro rfl
    have := (List.nodup_cons.1 hnd).1
    exact this (by simp)
  have hpmem : p ∈ a :: l1t := List.mem_of_getLast?_eq_some hlast
  have hpr : p ≠ r := by
    rintro rfl
    have := List.nodup_append.1 hnd
    exact this.2.2 hpmem (List.mem_cons_self _ _)
  have hfind : findNode st.heap r (st.brk + 1) (some a) = some (some r) := by
    have := findNode_spec r (a :: l1t ++ r :: l2) none st.head (st.brk + 1) h.seg
      (by have := h.length_le; omega)
    rw [hhead] at this
    rw [this]
    simp
  -- the heap after `node->next->last = node->last`
  obtain ⟨heapA, hA, hAr, hAp, hAnx, hAoth, hAsame⟩ :
      ∃ heapA : Heap, (match nr.next with
          | none => some st.heap
          | some nx => st.heap.setLast nx nr.last) = some heapA ∧
        heapA r = some nr ∧ heapA p = some np ∧
        (∀ nx nnx, l2.head? = some nx → st.heap nx = some nnx →
          heapA nx = some { nnx with last := some p }) ∧
        (∀ x, l2.head? ≠ some x → heapA x = st.heap x) ∧ st.heap.sameRecords heapA := by
    cases hl2 : l2.head? with
    | none =>
      rw [hl2] at hrn
      refine ⟨st.heap, by rw [hrn], hr, hp, ?_, fun _ _ => rfl, Heap.sameRecords.refl _⟩
      intro nx nnx h1; simp at h1
    | some nx =>
      rw [hl2] at hrn hnx
      obtain ⟨nnx, hnnx⟩ := hnx nx rfl
      have hnxmem : nx ∈ l2 := List.mem_of_mem_head? hl2
      have hnxr : nx ≠ r := by
        rintro rfl
        have := List.nodup_append.1 hnd
        exact (List.nodup_cons.1 this.2.1).1 hnxmem
      have hnxp : nx ≠ p := by
        rintro rfl
        have := List.nodup_append.1 hnd
        exact this.2.2 hpmem (List.mem_cons_of_mem _ hnxmem)
      have e := Heap.setLast_some nr.last hnnx
      refine ⟨_, by rw [hrn]; exact e, by simp [Heap.store, Ne.symm hnxr, hr],
        by simp [Heap.store, Ne.symm hnxp, hp], ?_, ?_, (Heap.setLast_spec e).2.2⟩
      · intro nx' nnx' h1 h2
        simp only [Option.some.injEq] at h1
        subst h1
        rw [hnnx] at h2
        simp only [Option.some.injEq] at h2
        subst h2
        simp [Heap.store, hrl]
      · intro x hx
        have : x ≠ nx := fun h => hx (by rw [h])
        simp [Heap.store, this]
  rw [hrl] at hA
  -- `node->last->next = node->next; node->last = NULL; node->next = NULL;`
  have eB := Heap.setNext_some nr.next hAp
  have hBr : (heapA.store p { np with next := nr.next }) r = some nr := by
    simp [Heap.store, Ne.symm hpr, hAr]
  have eC := Heap.setLast_some none hBr
  have hCr : ((heapA.store p { np with next := nr.next }).store r { nr with last := none }) r =
      some { nr with last := none } := by
    simp [Heap.store]
  have eD := Heap.setNext_some none hCr
  refine ⟨{ st with heap := (((heapA.store p { np with next := nr.next }).store r
      { nr with last := none }).store r { nr with last := none, next := none }) }, ?_, ?_, ?_,
    rfl, rfl, rfl⟩
  · simp only [removeProcess, hhead, har, if_false, hfind, hr, hA, hAr, hrl, eB, eC, eD]
  · refine ⟨?_, ?_, ?_⟩
    · apply @IsSeg.remove st.heap _ r p nr l2 hr ?_ ?_ ?_
        (a :: l1t) none st.head hlast h.seg hnd
      · intro np' hnp'
        rw [hp] at hnp'
        simp only [Option.some.injEq] at hnp'
        subst hnp'
        simp [Heap.store, hpr]
      · intro nx nnx h1 h2
        have hnxmem : nx ∈ l2 := List.mem_of_mem_head? h1
        have hnxr : nx ≠ r := by
          rintro rfl
          have := List.nodup_append.1 hnd
          exact (List.nodup_cons.1 this.2.1).1 hnxmem
        have hnxp : nx ≠ p := by
          rintro rfl
          have := List.nodup_append.1 hnd
          exact this.2.2 hpmem (List.mem_cons_of_mem _ hnxmem)
        simp [Heap.store, hnxr, hnxp, hAnx nx nnx h1 h2]
      · intro x hxp hxr hxh
        simp [Heap.store, hxp, hxr, hAoth x hxh]
    · have := List.nodup_append.1 hnd
      rw [List.nodup_append]
      refine ⟨this.1, (List.nodup_cons.1 this.2.1).2, ?_⟩
      intro x hx1 hx2
      exact this.2.2 hx1 (List.mem_cons_of_mem _ hx2)
    · intro x hx
      apply h.lt_brk
      rw [List.mem_append] at hx ⊢
      rcases hx with hx | hx
      · exact Or.inl hx
      · exact Or.inr (List.mem_cons_of_mem _ hx)
  · exact hAsame.trans (((Heap.setNext_spec eB).2.2).trans
      (((Heap.setLast_spec eC).2.2).trans ((Heap.setNext_spec eD).2.2)))

theorem removeProcess_absent (st : Jobs) (l : List Nat) (r : Nat) (h : Table st l)
    (hr : r ∉ l) : removeProcess st r = some st := by
  cases l with
  | nil =>
    have hh : st.head = none := h.seg
    simp [removeProcess, hh]
  | cons a l =>
    have hhead : st.head = some a := by
      have := h.head_eq
      simpa using this
    have har : a ≠ r := by
      rintro rfl
      exact hr (List.mem_cons_self _ _)
    have hfind := findNode_spec r (a :: l) none st.head (st.brk + 1) h.seg
      (by have := h.length_le; omega)
    rw [hhead, if_neg hr] at hfind
    simp only [removeProcess, hhead, har, if_false, hfind]

/-- What `removeProcess` does to a well-formed table. -/
theorem removeProcess_spec (st : Jobs) (l : List Nat) (r : Nat) (h : Table st l) :
    ∃ st1, removeProcess st r = some st1 ∧ Table st1 (l.erase r) ∧
      st.heap.sameRecords st1.heap ∧ st1.brk = st.brk ∧
      st1.processNumber = st.processNumber ∧
      (st.head ≠ some r → st1.head = st.head) ∧ (r ∉ l → st1 = st) := by
  by_cases hr : r ∈ l
  · obtain ⟨l1, l2, rfl⟩ := List.append_of_mem hr
    have hnd := List.nodup_append.1 h.nodup
    have hr1 : r ∉ l1 := fun hx => hnd.2.2 hx (List.mem_cons_self _ _)
    have herase : (l1 ++ r :: l2).erase r = l1 ++ l2 := by
      rw [List.erase_append_right _ hr1, List.erase_cons_head]
    rw [herase]
    cases l1 with
    | nil =>
      obtain ⟨st1, h1, h2, h3, h4, h5⟩ := removeProcess_head st r l2 h
      refine ⟨st1, h1, h2, h3, h4, h5, ?_, fun hn => absurd hr hn⟩
      intro hne
      exfalso
      apply hne
      have := h.head_eq
      simpa using this
    | cons a l1 =>
      obtain ⟨st1, h1, h2, h3, h4, h5, h6⟩ :=
        removeProcess_inner st (a :: l1) l2 r (by simp) h
      exact ⟨st1, h1, h2, h3, h4, h5, fun _ => h6, fun hn => absurd hr hn⟩
  · refine ⟨st, removeProcess_absent st l r h hr, ?_, Heap.sameRecords.refl _, rfl, rfl,
      fun _ => rfl, fun _ => rfl⟩
    rw [List.erase_of_not_mem hr]
    exact h
theorem sampleJobs_table : Table sampleJobs [0, 1, 2] :=
  ⟨⟨rfl, _, rfl, rfl, rfl, _, rfl, rfl, rfl, _, rfl, rfl, rfl⟩, by decide, by decide⟩

/-! ## C8 -/

/-- C8: for every job table and every record `r` that is not its head, `removeProcess(r)`
leaves the head unchanged and leaves exactly the other records in the table, in the same
order, every block keeping its fields other than the links; if `r` is not in the table, the
state is unchanged. -/
theorem removeProcess_non_head (st : Jobs) (l : List Nat) (r : Nat) (h : Table st l)
    (hne : st.head ≠ some r) :
    ∃ st1, removeProcess st r = some st1 ∧ st1.head = st.head ∧
      Table st1 (l.filter (fun a => a ≠ r)) ∧ st.heap.sameRecords st1.heap ∧
      (r ∉ l → st1 = st) := by
  obtain ⟨st1, h1, h2, h3, _, _, h6, h7⟩ := removeProcess_spec st l r h
  refine ⟨st1, h1, h6 hne, ?_, h3, h7⟩
  have : l.filter (fun a => a ≠ r) = l.erase r := by
    rw [List.Nodup.erase_eq_filter h.nodup]
    apply List.filter_congr
    intro a _
    by_cases har : a = r <;> simp [har]
  rw [this]; exact h2

theorem removeProcess_non_head_witness :
    ∃ st1, removeProcess sampleJobs 1 = some st1 ∧ st1.head = sampleJobs.head ∧
      Table st1 ([0, 1, 2].filter (fun a => a ≠ 1)) ∧ sampleJobs.heap.sameRecords st1.heap ∧
      (1 ∉ [0, 1, 2] → st1 = sampleJobs) :=
  removeProcess_non_head sampleJobs [0, 1, 2] 1 sampleJobs_table (by decide)
/-! ## C9 -/

theorem IsSeg.pidAt_of_mem {heap : Heap} : ∀ (l : List Nat) (prev cur : Option Nat),
    IsSeg heap prev cur l → ∀ a, a ∈ l → ∃ n, heap a = some n ∧ heap.pidAt a = n.pid := by
  intro l prev cur h a ha
  obtain ⟨n, hn⟩ := IsSeg.allocated l prev cur h a ha
  exact ⟨n, hn, by simp [Heap.pidAt, hn]⟩

theorem resumeLoop_spec {heap : Heap} (processID : Int) : ∀ (l : List Nat)
    (prev cur : Option Nat) (fuel : Nat), IsSeg heap prev cur l → l.length < fuel →
    ((∀ a, a ∈ l → heap.pidAt a ≠ processID) ∧
      resumeLoop heap processID fuel cur = some (1, heap, [])) ∨
    ((∃ a, a ∈ l ∧ heap.pidAt a = processID) ∧
      ∃ heap1 sigs, resumeLoop heap processID fuel cur = some (0, heap1, sigs)) := by
  intro l
  induction l with
  | nil =>
    intro prev cur fuel h hf
    have hc : cur = none := h
    subst hc
    cases fuel with
    | zero => simp at hf
    | succ fuel =>
      left
      exact ⟨by simp, by simp [resumeLoop]⟩
  | cons a l ih =>
    intro prev cur fuel h hf
    obtain ⟨hc, n, hn, _, hrest⟩ := h
    subst hc
    cases fuel with
    | zero => simp at hf
    | succ fuel =>
      have hpa : heap.pidAt a = n.pid := by simp [Heap.pidAt, hn]
      by_cases hid : n.pid = processID
      · right
        exact ⟨⟨a, List.mem_cons_self _ _, by rw [hpa]; exact hid⟩,
          heap.store a { n with status := 0 }, [(n.cmd.pid, SIGCONT)],
          by simp [resumeLoop, hn, hid]⟩
      · rcases ih (some a) n.next fuel hrest (by simpa using hf) with ⟨h1, h2⟩ | ⟨h1, h2⟩
        · left
          refine ⟨?_, by simp [resumeLoop, hn, hid, h2]⟩
          intro x hx
          simp only [List.mem_cons] at hx
          rcases hx with rfl | hx
          · rw [hpa]; exact hid
          · exact h1 x hx
        · right
          obtain ⟨x, hx, hxp⟩ := h1
          obtain ⟨heap1, sigs, h3⟩ := h2
          exact ⟨⟨x, List.mem_cons_of_mem _ hx, hxp⟩, heap1, sigs,
            by simp [resumeLoop, hn, hid, h3]⟩

/-- C9: for every job table and every integer id, `resumeProcess(id)` returns 1 exactly when
no record in the table has display id equal to id; in that case the state (every field of
every record) is unchanged and no signal is sent. -/
theorem resumeProcess_unknown_id (st : Jobs) (l : List Nat) (h : Table st l) (id : Int) :
    ∃ ret st1 sigs, resumeProcess st id = some (ret, st1, sigs) ∧
      (ret = 1 ↔ ∀ a, a ∈ l → st.heap.pidAt a ≠ id) ∧
      (ret = 1 → st1 = st ∧ sigs = []) := by
  cases hh : st.head with
  | none =>
    have hl : l = [] := by
      have := h.head_eq
      rw [hh] at this
      cases l with
      | nil => rfl
      | cons a l => simp at this
    subst hl
    exact ⟨1, st, [], by simp [resumeProcess, hh], by simp, fun _ => ⟨rfl, rfl⟩⟩
  | some a =>
    have hseg := h.seg
    rw [hh] at hseg
    rcases resumeLoop_spec id l none (some a) (st.brk + 1) hseg
        (by have := h.length_le; omega) with ⟨h1, h2⟩ | ⟨h1, heap1, sigs, h2⟩
    · refine ⟨1, st, [], ?_, ?_, fun _ => ⟨rfl, rfl⟩⟩
      · unfold resumeProcess
        split
        · rename_i heq
          rw [hh] at heq
        · rename_i h0 heq
          rw [hh] at heq
          simp only [Option.some.injEq] at heq
          subst heq
          rw [h2]
          rfl
      · exact ⟨fun _ => h1, fun _ => rfl⟩
    · refine ⟨0, { st with heap := heap1 }, sigs, by simp [resumeProcess, hh, h2], ?_, ?_⟩
      · constructor
        · intro h0; omega
        · intro hall
          obtain ⟨x, hx, hxp⟩ := h1
          exact absurd hxp (hall x hx)
      · intro h0; omega

theorem resumeProcess_unknown_id_witness :
    ∃ ret st1 sigs, resumeProcess sampleJobs 7 = some (ret, st1, sigs) ∧
      (ret = 1 ↔ ∀ a, a ∈ [0, 1, 2] → sampleJobs.heap.pidAt a ≠ 7) ∧
      (ret = 1 → st1 = sampleJobs ∧ sigs = []) :=
  resumeProcess_unknown_id sampleJobs [0, 1, 2] sampleJobs_table 7

/-! ## C10 -/

/-- C10, the code at the failing input: three jobs are created from the fresh table, each
with its own capture file (descriptors 5, 6, 7, all open); at the next poll the first is still
running and the two others have exited with status 0.  `checkProcessStatus` returns: it prints
the Done line and the captured output of the second and of the third job.  Its sweep removes
the second record, which is not the head, then reads `node->next` from the block
`removeProcess` has just cleared and freed, finds NULL and stops: the third record stays in
the table with its exited status (502, greater than 0). -/
theorem checkProcessStatus_leaves_exited_record :
    ∃ st ids st1 files1 out,
      runOps [.create (sampleCmd 500) 5 0, .create (sampleCmd 501) 6 0,
              .create (sampleCmd 502) 7 0] Jobs.fresh = some (st, ids) ∧
      st.listing = [(1, 0), (2, 0), (3, 0)] ∧
      checkProcessStatus sampleWait sampleFiles st = some (st1, files1, out) ∧
      out = [Output.done 2 "sleep 9 ".toList, Output.write "two\n".toList,
             Output.done 3 "sleep 9 ".toList, Output.write "a third ".toList,
             Output.write "line\n".toList] ∧
      files1 5 = some "one\n".toList ∧ files1 6 = none ∧ files1 7 = none ∧
      st1.listing = [(1, 0), (3, 502)] := by
  refine ⟨_, _, _, _, _, rfl, ?_, rfl, ?_, ?_, ?_, ?_, ?_⟩ <;> decide

/-- With one capture descriptor shared by the three jobs the call does not return:
`printOutput` closes descriptor 5 after the second job, `read` fails on it for the third and
the copy loop never ends. -/
theorem checkProcessStatus_closed_descriptor :
    ∃ st ids,
      runOps [.create (sampleCmd 500) 5 0, .create (sampleCmd 501) 5 0,
              .create (sampleCmd 502) 5 0] Jobs.fresh = some (st, ids) ∧
      checkProcessStatus sampleWait sampleFiles st = none := by
  exact ⟨_, _, rfl, rfl⟩
/-! ## C7 -/

theorem Heap.sameRecords.pidAt {h1 h2 : Heap} (h : h1.sameRecords h2) (a : Nat) :
    h2.pidAt a = h1.pidAt a := by
  have := h a
  unfold Heap.pidAt
  cases h1a : h1 a with
  | none =>
    rw [h1a] at this
    cases h2a : h2 a with
    | none => rfl
    | some n => rw [h2a] at this; simp at this
  | some n =>
    rw [h1a] at this
    cases h2a : h2 a with
    | none => rw [h2a] at this; simp at this
    | some m =>
      rw [h2a] at this
      simp only [Option.map_some', Option.some.injEq, processList.payload, Prod.mk.injEq] at this
      exact this.2.2.1

theorem IdsOrdered.sameRecords {st st1 : Jobs} {l l1 : List Nat} {k : Nat}
    (h : IdsOrdered st l k) (ht : Table st1 l1) (hsub : l1.Sublist l)
    (hs : st.heap.sameRecords st1.heap) (hpn : st1.processNumber = st.processNumber) :
    IdsOrdered st1 l1 k := by
  have hpid : st1.heap.pidAt = st.heap.pidAt := funext (fun a => hs.pidAt a)
  refine ⟨ht, by rw [hpn]; exact h.counter, ?_, ?_⟩
  · rw [hpid]
    exact h.increasing.sublist (hsub.map _)
  · intro a ha
    rw [hpid]
    exact h.range a (hsub.subset ha)

theorem removeAllLoop_spec : ∀ (l : List Nat) (st : Jobs) (fuel : Nat), Table st l →
    l.length < fuel →
    ∃ st1, removeAllLoop fuel st = some st1 ∧ Table st1 [] ∧ st.heap.sameRecords st1.heap ∧
      st1.brk = st.brk ∧ st1.processNumber = st.processNumber := by
  intro l
  induction l with
  | nil =>
    intro st fuel h hf
    have hh : st.head = none := h.seg
    cases fuel with
    | zero => simp at hf
    | succ fuel =>
      exact ⟨st, by simp [removeAllLoop, hh], h, Heap.sameRecords.refl _, rfl, rfl⟩
  | cons a l ih =>
    intro st fuel h hf
    have hh : st.head = some a := by
      have := h.head_eq
      simpa using this
    cases fuel with
    | zero => simp at hf
    | succ fuel =>
      obtain ⟨st1, h1, h2, h3, h4, h5⟩ := removeProcess_head st a l h
      obtain ⟨st2, g1, g2, g3, g4, g5⟩ := ih st1 fuel h2 (by simpa using hf)
      refine ⟨st2, by simp [removeAllLoop, hh, h1, g1], g2, h3.trans g3, by rw [g4, h4],
        by rw [g5, h5]⟩

theorem wrapInt_eq (x : Int) (h1 : -2147483648 ≤ x) (h2 : x ≤ 2147483647) : wrapInt x = x := by
  unfold wrapInt
  omega

theorem create_table (st : Jobs) (l : List Nat) (cmd : Cmd) (output status : Int)
    (h : Table st l) :
    ∃ st2, addProcess (newProcess st cmd output status).1 (newProcess st cmd output status).2 =
        some st2 ∧
      (newProcess st cmd output status).1.heap.pidAt (newProcess st cmd output status).2 =
        st.processNumber ∧
      Table st2 (l ++ [st.brk]) ∧
      st2.processNumber = wrapInt (st.processNumber + 1) ∧
      (∀ a, a ∈ l → st2.heap.pidAt a = st.heap.pidAt a) ∧
      st2.heap.pidAt st.brk = st.processNumber := by
  have hfresh : st.brk ∉ l := fun hm => Nat.lt_irrefl _ (h.lt_brk _ hm)
  have hstore : ∀ a, a ∈ l → (newProcess st cmd output status).1.heap a = st.heap a := by
    intro a ha
    have : a ≠ st.brk := fun e => hfresh (e ▸ ha)
    simp [newProcess, Heap.store, this]
  have ht1 : Table (newProcess st cmd output status).1 l := by
    refine ⟨IsSeg.congr l none st.head hstore h.seg, h.nodup, ?_⟩
    intro a ha
    have := h.lt_brk a ha
    simp only [newProcess]
    omega
  have hnew : (newProcess st cmd output status).1.heap st.brk =
      some { cmd := cmd, file := output, pid := st.processNumber, status := status,
             next := none, last := none } := by
    simp [newProcess, Heap.store]
  obtain ⟨st2, h1, h2, h3, h4, h5⟩ := addProcess_spec (newProcess st cmd output status).1 l
    st.brk _ ht1 hfresh (by simp [newProcess]) hnew rfl rfl
  have hpidnew : (newProcess st cmd output status).1.heap.pidAt st.brk = st.processNumber := by
    simp only [Heap.pidAt, hnew]
  refine ⟨st2, h1, hpidnew, h2, ?_, ?_, ?_⟩
  · rw [h5]
    simp only [newProcess]
  · intro a ha
    rw [h3.pidAt a]
    simp only [Heap.pidAt, hstore a ha]
  · rw [h3.pidAt st.brk, hpidnew]

theorem create_spec (st : Jobs) (l : List Nat) (k : Nat) (cmd : Cmd) (output status : Int)
    (h : IdsOrdered st l k) (hk : k < 2147483647) :
    ∃ st2, addProcess (newProcess st cmd output status).1 (newProcess st cmd output status).2 =
        some st2 ∧
      (newProcess st cmd output status).1.heap.pidAt (newProcess st cmd output status).2 =
        (k : Int) + 1 ∧
      IdsOrdered st2 (l ++ [st.brk]) (k + 1) := by
  have hcnt : st.processNumber = (k : Int) + 1 := by
    rw [h.counter]
    exact wrapInt_eq _ (by omega) (by omega)
  obtain ⟨st2, h1, hpidnew, h2, h5, hpidold, hpidbrk⟩ :=
    create_table st l cmd output status h.table
  rw [hcnt] at hpidnew hpidbrk h5
  refine ⟨st2, h1, hpidnew, h2, ?_, ?_, ?_⟩
  · rw [h5]
    push_cast
    rfl
  · rw [List.map_append, List.pairwise_append]
    refine ⟨?_, by simp, ?_⟩
    · have : l.map st2.heap.pidAt = l.map st.heap.pidAt :=
        List.map_congr_left (fun a ha => hpidold a ha)
      rw [this]
      exact h.increasing
    · intro x hx y hy
      rw [List.mem_map] at hx
      obtain ⟨a, ha, rfl⟩ := hx
      simp only [List.map_cons, List.map_nil, List.mem_singleton] at hy
      subst hy
      rw [hpidold a ha, hpidbrk]
      have := (h.range a ha).2
      omega
  · intro a ha
    rw [List.mem_append] at ha
    rcases ha with ha | ha
    · rw [hpidold a ha]
      have := h.range a ha
      push_cast
      omega
    · simp only [List.mem_singleton] at ha
      subst ha
      rw [hpidbrk]
      push_cast
      omega

theorem runOps_spec : ∀ (ops : List JobOp) (st : Jobs) (l : List Nat) (k : Nat),
    IdsOrdered st l k → k + createCount ops ≤ 2147483647 →
    ∃ st1 ids l1, runOps ops st = some (st1, ids) ∧
      ids = (List.range ids.length).map (fun (i : Nat) => (k : Int) + 1 + (i : Int)) ∧
      ids.length = createCount ops ∧
      IdsOrdered st1 l1 (k + ids.length) := by
  intro ops
  induction ops with
  | nil =>
    intro st l k h _
    exact ⟨st, [], l, rfl, rfl, rfl, h⟩
  | cons op ops ih =>
    intro st l k h hb
    cases op with
    | create cmd output status =>
      simp only [createCount] at hb
      obtain ⟨st2, h1, h2, h3⟩ := create_spec st l k cmd output status h (by omega)
      obtain ⟨st3, ids, l3, g1, g2, g4, g3⟩ := ih st2 _ _ h3 (by omega)
      refine ⟨st3, ((k : Int) + 1) :: ids, l3, ?_, ?_, ?_, ?_⟩
      · simp only [runOps, h1, g1, Option.map_some', h2]
      · simp only [List.length_cons, List.range_succ_eq_map, List.map_cons, List.map_map]
        congr 1
        · conv_lhs => rw [g2]
          apply List.map_congr_left
          intro i _
          simp only [Function.comp]
          push_cast
          ring
      · simp only [List.length_cons, createCount, g4]
      · have : k + (((k : Int) + 1) :: ids).length = k + 1 + ids.length := by
          simp only [List.length_cons]; omega
        rw [this]; exact g3
    | remove node =>
      simp only [createCount] at hb
      obtain ⟨st1, h1, h2, h3, _, h5, _, _⟩ := removeProcess_spec st l node h.table
      have h' := h.sameRecords h2 (List.erase_sublist _ _) h3 h5
      obtain ⟨st3, ids, l3, g1, g2, g4, g3⟩ := ih st1 _ _ h' hb
      exact ⟨st3, ids, l3, by simp only [runOps, h1, g1], g2, by simp only [createCount, g4], g3⟩
    | removeAll =>
      simp only [createCount] at hb
      obtain ⟨st1, h1, h2, h3, _, h5⟩ := removeAllLoop_spec l st (st.brk + 1) h.table
        (by have := h.table.length_le; omega)
      have h' := h.sameRecords h2 (List.nil_sublist _) h3 h5
      obtain ⟨st3, ids, l3, g1, g2, g4, g3⟩ := ih st1 _ _ h' hb
      exact ⟨st3, ids, l3, by simp only [runOps, removeAllProcesses, h1, g1], g2,
        by simp only [createCount, g4], g3⟩

theorem fresh_idsOrdered : IdsOrdered Jobs.fresh [] 0 :=
  ⟨⟨rfl, by simp, by simp⟩, by decide, by simp, by simp⟩

/-- Running `n` rounds of "create a record, clear the table" from an empty table that has
seen `k` creations hands out `n` ids and leaves an empty table that has seen `k + n`. -/
theorem runOps_rounds (cmd : Cmd) (output status : Int) (rest : List JobOp) :
    ∀ (n : Nat) (st : Jobs) (k : Nat), IdsOrdered st [] k → k + n ≤ 2147483647 →
    ∃ st1 ids, IdsOrdered st1 [] (k + n) ∧ ids.length = n ∧
      runOps ((List.replicate n [JobOp.create cmd output status, JobOp.removeAll]).flatten
          ++ rest) st =
        (runOps rest st1).map (fun r => (r.1, ids ++ r.2)) := by
  intro n
  induction n with
  | zero =>
    intro st k h _
    refine ⟨st, [], h, rfl, ?_⟩
    simp only [List.replicate_zero, List.flatten_nil, List.nil_append]
    cases runOps rest st <;> rfl
  | succ n ih =>
    intro st k h hb
    obtain ⟨st2, h1, h2, h3⟩ := create_spec st [] k cmd output status h (by omega)
    obtain ⟨st3, r1, r2, r3, _, r5⟩ := removeAllLoop_spec _ st2 (st2.brk + 1) h3.table
      (by have := h3.table.length_le; omega)
    have h4 : IdsOrdered st3 [] (k + 1) := h3.sameRecords r2 (List.nil_sublist _) r3 r5
    obtain ⟨st4, ids, g1, g2, g3⟩ := ih st3 (k + 1) h4 (by omega)
    refine ⟨st4, ((k : Int) + 1) :: ids, ?_, by simp only [List.length_cons, g2], ?_⟩
    · have : k + (n + 1) = k + 1 + n := by omega
      rw [this]; exact g1
    · have e : (List.replicate (n + 1) [JobOp.create cmd output status, JobOp.removeAll]).flatten
          ++ rest = JobOp.create cmd output status :: JobOp.removeAll ::
            ((List.replicate n [JobOp.create cmd output status, JobOp.removeAll]).flatten
              ++ rest) := by
        simp [List.replicate_succ]
      rw [e]
      simp only [runOps, h1, removeAllProcesses, r1, h2]
      rw [g3]
      cases runOps rest st4 <;> rfl

/-- C7, as amended: starting from the fresh job table, every sequence of creations
(`newProcess` followed by `addProcess`), `removeProcess` calls on arbitrary nodes and
`removeAllProcesses` calls that creates at most 2^31 - 1 = 2147483647 records runs to
completion; the k-th record created received display id k (the ids handed out are 1, 2, 3, ...
in creation order, so none is reused after a removal); and in the resulting table the display
ids are strictly increasing along the list, so no two records share one. -/
theorem displayIds_increasing (ops : List JobOp) (hcount : createCount ops ≤ 2147483647) :
    ∃ st ids l, runOps ops Jobs.fresh = some (st, ids) ∧
      ids.length = createCount ops ∧
      ids = (List.range ids.length).map (fun (i : Nat) => (i : Int) + 1) ∧
      Table st l ∧
      (l.map st.heap.pidAt).Pairwise (fun x y => x < y) ∧
      (∀ a, a ∈ l → st.heap.pidAt a ∈ ids) := by
  obtain ⟨st, ids, l, h1, h2, h4, h3⟩ :=
    runOps_spec ops Jobs.fresh [] 0 fresh_idsOrdered (by omega)
  have hids : ids = (List.range ids.length).map (fun (i : Nat) => (i : Int) + 1) := by
    conv_lhs => rw [h2]
    apply List.map_congr_left
    intro i _
    push_cast
    ring
  refine ⟨st, ids, l, h1, h4, hids, h3.table, h3.increasing, ?_⟩
  intro a ha
  obtain ⟨hlo, hhi⟩ := h3.range a ha
  rw [hids, List.mem_map]
  refine ⟨(st.heap.pidAt a - 1).toNat, ?_, ?_⟩
  · rw [List.mem_range]
    push_cast at hhi
    omega
  · omega

theorem displayIds_increasing_witness :
    createCount [.create (sampleCmd 500) 5 0, .create (sampleCmd 501) 6 0, .remove 0,
        .create (sampleCmd 502) 7 0, .removeAll, .create (sampleCmd 503) 8 0] ≤ 2147483647 ∧
    ∃ st ids l,
      runOps [.create (sampleCmd 500) 5 0, .create (sampleCmd 501) 6 0, .remove 0,
        .create (sampleCmd 502) 7 0, .removeAll, .create (sampleCmd 503) 8 0] Jobs.fresh =
          some (st, ids) ∧
      ids.length = createCount [.create (sampleCmd 500) 5 0, .create (sampleCmd 501) 6 0,
        .remove 0, .create (sampleCmd 502) 7 0, .removeAll, .create (sampleCmd 503) 8 0] ∧
      ids = (List.range ids.length).map (fun (i : Nat) => (i : Int) + 1) ∧
      Table st l ∧
      (l.map st.heap.pidAt).Pairwise (fun x y => x < y) ∧
      (∀ a, a ∈ l → st.heap.pidAt a ∈ ids) :=
  ⟨by decide, displayIds_increasing _ (by decide)⟩

/-- C7 as stated fails at the 2^31-th creation, where the `int` counter has left its range.
After 2147483646 rounds of creating a record and clearing the table, two more records are
created: the first receives display id 2147483647 and the second, the 2147483648-th record
created, receives -2147483648.  Both are in the table, the later one with the smaller id. -/
theorem displayIds_wrap_at_int_max :
    ∃ st pre a b,
      runOps ((List.replicate 2147483646
          [JobOp.create (sampleCmd 500) 5 0, JobOp.removeAll]).flatten ++
        [JobOp.create (sampleCmd 501) 6 0, JobOp.create (sampleCmd 502) 7 0]) Jobs.fresh =
          some (st, pre ++ [2147483647, -2147483648]) ∧
      pre.length = 2147483646 ∧
      Table st [a, b] ∧ st.heap.pidAt a = 2147483647 ∧ st.heap.pidAt b = -2147483648 := by
  obtain ⟨st1, pre, h1, hlen, hrun⟩ := runOps_rounds (sampleCmd 500) 5 0
    [JobOp.create (sampleCmd 501) 6 0, JobOp.create (sampleCmd 502) 7 0]
    2147483646 Jobs.fresh 0 fresh_idsOrdered (by omega)
  have hc1 : st1.processNumber = 2147483647 := by
    rw [h1.counter]
    decide
  obtain ⟨st2, c1, c2, c3, c4, _, c6⟩ := create_table st1 [] (sampleCmd 501) 6 0 h1.table
  obtain ⟨st3, d1, d2, d3, _, d5, d6⟩ := create_table st2 _ (sampleCmd 502) 7 0 c3
  have hc : st2.processNumber = -2147483648 := by
    rw [c4, hc1]
    decide
  refine ⟨st3, pre, st1.brk, st2.brk, ?_, hlen, d3, ?_, ?_⟩
  · rw [hrun]
    simp only [runOps, c1, d1, Option.map_some', c2, d2, hc, hc1]
  · rw [d5 st1.brk (by simp), c6, hc1]
  · rw [d6, hc]

/-! ## C11 -/

/-- C11, the code at the failing input: a background job is created Running (status 0) from
the fresh table, and at the next poll `waitpid` reports that its process was killed by a
signal.  `checkProcessStatus` prints the Terminated line and stores -2 in the record's status
(the comment there says 2); -2 is the status `printProcess` shows as Stopped, the one the stop
handler gives with `newProcess(foregroundCmd, STDOUT_FILENO, -2)`, and it is not greater than 0,
so the sweep of the same call leaves the record in the table and the next listing shows the
dead job as Stopped. -/
theorem checkProcessStatus_signaled_listed_stopped :
    ∃ st ids st1 files1 out,
      runOps [.create (sampleCmd 500) 5 0] Jobs.fresh = some (st, ids) ∧
      st.listing = [(1, 0)] ∧
      printProcess st = some [JobLine.running 1 "sleep 9 &\n".toList] ∧
      checkProcessStatus signaledWait sampleFiles st = some (st1, files1, out) ∧
      out = [Output.terminated 1 "sleep 9 ".toList] ∧
      st1.listing = [(1, -2)] ∧
      printProcess st1 = some [JobLine.stopped 1 "sleep 9 ".toList] := by
  refine ⟨_, _, _, _, _, rfl, ?_, ?_, rfl, ?_, ?_, ?_⟩ <;> decide
/-! ## C12 -/

/-- On a line with no newline except as its last character, the two arrays are filled from
the tokens of the text before the newline, none of which begins with a newline. -/
theorem textTokens_inputLine (line : List Char)
    (hshape : (∀ c, c ∈ line → c ≠ '\n') ∨
      ∃ body, line = body ++ ['\n'] ∧ ∀ c, c ∈ body → c ≠ '\n') :
    (∀ j : Nat, ((tokensOf line)[j]?).bind argOf = ((textTokens line)[j]?).bind argOf) ∧
    (∀ j : Nat, ((tokensOf line)[j]?).bind symOf = ((textTokens line)[j]?).bind symOf) ∧
    (∀ t, t ∈ textTokens line → deref t ≠ '\n') := by
  obtain ⟨_, hs⟩ := strcpy_shape line hshape
  have key : ∀ s : CStr, (∀ c, c ∈ s → c ≠ '\n') →
      ∀ t, t ∈ strtokAll [' '] s.length s → deref t ≠ '\n' := by
    intro s hs t ht
    obtain ⟨h1, h2⟩ := strtokAll_mem _ _ _ _ ht
    exact hs _ (h2 _ (deref_of_mem t h1))
  unfold tokensOf textTokens
  rcases hs with hs | ⟨body, hb, hs⟩
  · have h1 : (strcpy line).takeWhile (fun c => c != '\n') = strcpy line := by
      rw [List.takeWhile_eq_self_iff]
      intro x hx
      simpa using hs x hx
    rw [cutNewline_no_newline _ hs, h1]
    exact ⟨fun _ => rfl, fun _ => rfl, key _ hs⟩
  · rw [hb]
    have h1 : (body ++ ['\n']).takeWhile (fun c => c != '\n') = body :=
      (takeWhile_append_stop (fun c => c != '\n') body ['\n']
        (by intro x hx; simpa using hs x hx) (Or.inr ⟨'\n', [], rfl, by simp⟩)).1
    rw [h1]
    by_cases hbody : body = []
    · subst hbody
      refine ⟨?_, ?_, ?_⟩
      · intro j
        cases j with
        | zero => decide
        | succ j => cases j <;> rfl
      · intro j
        cases j with
        | zero => decide
        | succ j => cases j <;> rfl
      · intro t ht
        simp [strtokAll] at ht
    · rw [cutNewline_line body hbody hs]
      exact ⟨fun _ => rfl, fun _ => rfl, key _ hs⟩

/-- C12, as amended: for every line `fgets` delivers and every token position `i` of its
text, `parseCmd` records token `i` in `symbols[i]` (with `args[i]` null) if and only if the
token begins with one of the operator characters `| < > &`; every other token is recorded in
`args[i]` with `symbols[i]` null. -/
theorem parseCmd_symbol_iff_first_char (stdin : List Char) :
    ∃ c, parseCmd (Cmd.ofLine (fgets (MAX_LINE - 1) stdin)) = some c ∧
      ∀ (i : Nat) (t : CStr), (textTokens (fgets (MAX_LINE - 1) stdin))[i]? = some t →
        ((c.symbols i = some t ∧ c.args i = none) ↔ isOpChar (deref t) = true) ∧
        ((c.args i = some t ∧ c.symbols i = none) ↔ isOpChar (deref t) = false) := by
  obtain ⟨h1, h2⟩ := fgets_shape (MAX_LINE - 1) stdin
  obtain ⟨hn, _⟩ := tokensOf_inputLine (fgets (MAX_LINE - 1) stdin)
    (by simp only [MAX_LINE] at h1 ⊢; omega) h2
  obtain ⟨c, hc, ha, hs, _⟩ := parseCmd_spec _ hn
  obtain ⟨ta, ts, tn⟩ := textTokens_inputLine _ h2
  refine ⟨c, hc, ?_⟩
  intro i t ht
  have hnl : deref t ≠ '\n' := tn t (List.getElem?_mem ht)
  have hai : c.args i = argOf t := by rw [ha i, ta i, ht]; rfl
  have hsi : c.symbols i = symOf t := by rw [hs i, ts i, ht]; rfl
  rw [hai, hsi]
  rcases argOf_symOf_cases t with ⟨h, _⟩ | ⟨_, hop, h3, h4⟩ | ⟨_, hop, h3, h4⟩
  · exact absurd h hnl
  · rw [h3, h4, hop]; simp
  · rw [h3, h4, hop]; simp

/-- C12 as stated fails on tokens that begin with an operator character without being one of
the four operators: in the line `ls >out.txt &&`, the tokens `>out.txt` and `&&` are recorded
in `symbols[1]` and `symbols[2]`, and `args[1]`, `args[2]` are null. -/
theorem parseCmd_longer_operator_tokens :
    textTokens "ls >out.txt &&\n".toList = ["ls".toList, ">out.txt".toList, "&&".toList] ∧
    ">out.txt".toList ∉ [['|'], ['<'], ['>'], ['&']] ∧
    "&&".toList ∉ [['|'], ['<'], ['>'], ['&']] ∧
    ∃ c, parseCmd (Cmd.ofLine "ls >out.txt &&\n".toList) = some c ∧
      c.symbols 1 = some ">out.txt".toList ∧ c.args 1 = none ∧
      c.symbols 2 = some "&&".toList ∧ c.args 2 = none := by
  refine ⟨by decide, by decide, by decide, _, rfl, ?_, ?_, ?_, ?_⟩ <;> decide
/-! ## C13 -/

theorem tokensOf_blank (k : Nat) :
    (∀ j : Nat, ((tokensOf (List.replicate k ' ' ++ ['\n']))[j]?).bind argOf = none) ∧
    (∀ j : Nat, ((tokensOf (List.replicate k ' ' ++ ['\n']))[j]?).bind symOf = none) ∧
    (tokensOf (List.replicate k ' ' ++ ['\n'])).length < MAX_ARGS := by
  have hnul : ∀ c, c ∈ List.replicate k ' ' ++ ['\n'] → c ≠ NUL := by
    intro c hc
    rw [List.mem_append] at hc
    rcases hc with hc | hc
    · rw [List.eq_of_mem_replicate hc]; decide
    · simp only [List.mem_singleton] at hc
      subst hc; decide
  unfold tokensOf
  rw [strcpy_eq_self _ hnul]
  cases k with
  | zero =>
    refine ⟨?_, ?_, by decide⟩
    · intro j
      cases j with
      | zero => decide
      | succ j => cases j <;> rfl
    · intro j
      cases j with
      | zero => decide
      | succ j => cases j <;> rfl
  | succ k =>
    have hb : List.replicate (k + 1) ' ' ≠ [] := by simp
    have hnl : ∀ c, c ∈ List.replicate (k + 1) ' ' → c ≠ '\n' := by
      intro c hc
      rw [List.eq_of_mem_replicate hc]; decide
    rw [cutNewline_line _ hb hnl]
    have ht : strtokAll [' '] (List.replicate (k + 1) ' ').length (List.replicate (k + 1) ' ')
        = [] := by
      simp only [List.length_replicate]
      unfold strtokAll
      rw [strtok_spaces]
    rw [ht]
    exact ⟨fun _ => rfl, fun _ => rfl, by decide⟩

/-- C13, as amended: for every input line that is empty (just a newline) or consists only of
space characters before the newline, `parseCmd` returns an empty node: `args[0]` (like every
slot of `args`) is null, no `symbols` slot is populated and `length` is 0, so the caller's
test `!cmd->args[0]` treats the line as nothing to do. -/
theorem parseCmd_blank_line (k : Nat) :
    ∃ c, parseCmd (Cmd.ofLine (List.replicate k ' ' ++ ['\n'])) = some c ∧
      c.args 0 = none ∧ (∀ i, c.args i = none) ∧ (∀ i, c.symbols i = none) ∧ c.length = 0 := by
  obtain ⟨h1, h2, h3⟩ := tokensOf_blank k
  obtain ⟨c, hc, ha, hs, _, hpop, _⟩ := parseCmd_spec _ h3
  have hargs : ∀ i, c.args i = none := fun i => by rw [ha i, h1 i]
  have hsyms : ∀ i, c.symbols i = none := fun i => by rw [hs i, h2 i]
  refine ⟨c, hc, hargs 0, hargs, hsyms, ?_⟩
  by_contra hne
  rcases hpop 0 (by omega) with h | h
  · exact h (hargs 0)
  · exact h (hsyms 0)

/-- C13 as stated fails on whitespace other than the space: `parseCmd` splits at spaces only,
so for the line made of one tab and a newline the tab is a token, `args[0]` is non-null and
`length` is 1. -/
theorem parseCmd_tab_line :
    ∃ c, parseCmd (Cmd.ofLine ['\t', '\n']) = some c ∧
      c.args 0 = some ['\t'] ∧ c.length = 1 := by
  refine ⟨_, rfl, ?_, ?_⟩ <;> decide

/-! ## C14 -/

/-- C14, the code at the failing input: in `a | b | c` with every program launchable, the
child forked to evaluate `a | b` forks for `a` and `b`, waits for them and returns from its
`callCmd`; nothing ends the child there, so it goes on in the code of its parent, forks again
for the sibling node `c` (process 111) and waits.  The program `c` is launched twice: once by
the process that evaluates the whole line and once by that child. -/
theorem callCmd_pipe_chain_relaunches_sibling :
    ∃ c, parseCmd (Cmd.ofLine "a | b | c\n".toList) = some c ∧
      callCmd launchingOS (c.length + 1) c STDIN_FILENO STDOUT_FILENO [] =
        [ -- the process that evaluates the whole line
          { trace := [Ev.pipe true 3 4, Ev.fork 101, Ev.close 4, Ev.fork 103, Ev.close 3,
                      Ev.waitpid 101 101, Ev.waitpid 103 103],
            status := Status.returned },
          -- its second child: stage c
          { trace := [Ev.pipe true 3 4, Ev.fork 101, Ev.close 4, Ev.fork 0, Ev.dup2 3 0,
                      Ev.execvp (some ['c']) [['c']] true],
            status := Status.execed },
          -- its first child: evaluates `a | b`, returns, then forks for c as well
          { trace := [Ev.pipe true 3 4, Ev.fork 0, Ev.close 3, Ev.pipe true 3 4, Ev.fork 104,
                      Ev.close 4, Ev.fork 106, Ev.close 3, Ev.waitpid 104 104,
                      Ev.waitpid 106 106, Ev.close 4, Ev.fork 111, Ev.close 3,
                      Ev.waitpid 0 (-1), Ev.waitpid 111 111],
            status := Status.returned },
          -- stage c again, forked by the first child
          { trace := [Ev.pipe true 3 4, Ev.fork 0, Ev.close 3, Ev.pipe true 3 4, Ev.fork 104,
                      Ev.close 4, Ev.fork 106, Ev.close 3, Ev.waitpid 104 104,
                      Ev.waitpid 106 106, Ev.close 4, Ev.fork 0, Ev.dup2 3 0,
                      Ev.execvp (some ['c']) [['c']] true],
            status := Status.execed },
          -- stage b
          { trace := [Ev.pipe true 3 4, Ev.fork 0, Ev.close 3, Ev.pipe true 3 4, Ev.fork 104,
                      Ev.close 4, Ev.fork 0, Ev.dup2 3 0, Ev.dup2 4 1,
                      Ev.execvp (some ['b']) [['b']] true],
            status := Status.execed },
          -- stage a
          { trace := [Ev.pipe true 3 4, Ev.fork 0, Ev.close 3, Ev.pipe true 3 4, Ev.fork 0,
                      Ev.close 3, Ev.dup2 4 1, Ev.execvp (some ['a']) [['a']] true],
            status := Status.execed } ] ∧
      (callCmd launchingOS (c.length + 1) c STDIN_FILENO STDOUT_FILENO []).filterMap
        Proc.program = [['c'], ['c'], ['b'], ['a']] := by
  refine ⟨_, rfl, ?_, ?_⟩ <;> decide

/-! ## C15 -/

/-- C15, the code at the failing input: the line `a |` passes the caller's test (`args[0]` is
`a`), its split at the pipe leaves an empty right child, and the process forked for that child
finds no operator in it and executes it as a leaf: `execvp` is called with a null program and
an empty argument vector.  The same happens to the node between the two pipes of `a | | b`. -/
theorem callCmd_executes_empty_leaf :
    (∃ c, parseCmd (Cmd.ofLine "a |\n".toList) = some c ∧ c.args 0 = some ['a'] ∧
      callCmd sampleOS (c.length + 1) c STDIN_FILENO STDOUT_FILENO [] =
        [ { trace := [Ev.pipe true 3 4, Ev.fork 101, Ev.close 4, Ev.fork 103, Ev.close 3,
                      Ev.waitpid 101 101, Ev.waitpid 103 103],
            status := Status.returned },
          -- the right child of the pipe
          { trace := [Ev.pipe true 3 4, Ev.fork 101, Ev.close 4, Ev.fork 0, Ev.dup2 3 0,
                      Ev.execvp none [] false],
            status := Status.undefined },
          { trace := [Ev.pipe true 3 4, Ev.fork 0, Ev.close 3, Ev.dup2 4 1,
                      Ev.execvp (some ['a']) [['a']] true],
            status := Status.execed } ]) ∧
    (∃ c, parseCmd (Cmd.ofLine "a | | b\n".toList) = some c ∧ c.args 0 = some ['a'] ∧
      { trace := [Ev.pipe true 3 4, Ev.fork 0, Ev.close 3, Ev.pipe true 3 4, Ev.fork 104,
                  Ev.close 4, Ev.fork 0, Ev.dup2 3 0, Ev.dup2 4 1, Ev.execvp none [] false],
        status := Status.undefined } ∈
        callCmd sampleOS (c.length + 1) c STDIN_FILENO STDOUT_FILENO []) := by
  refine ⟨⟨_, rfl, ?_, ?_⟩, ⟨_, rfl, ?_, ?_⟩⟩ <;> decide

/-! ## C16 -/

theorem strcpy_length (line : List Char) : (strcpy line).length ≤ line.length :=
  (List.takeWhile_prefix _).length_le

/-- C16: for every input line of at most `MAX_LINE - 1 = 79` characters, `parseCmd` meets at
most 40 tokens and stays inside `args` and `symbols` (it returns a node: every checked write,
the terminator at the index after the final token included, and every access of
`setCmdLength`, is below `MAX_ARGS = 41`).  For the node it returns, `length` is below
`MAX_ARGS`, `findSymbolReverse`, which starts at index `length`, stays inside `symbols` for
every symbol, and when `splitPoint` finds an operator, `splitCMD` at that index stays inside
the arrays, its two terminator writes being at `splitIndex + 1` and `length - splitIndex`,
both below `MAX_ARGS`. -/
theorem parseCmd_indices_in_bounds (line : List Char) (hlen : line.length ≤ MAX_LINE - 1) :
    (tokensOf line).length ≤ 40 ∧ (tokensOf line).length < MAX_ARGS ∧
    ∃ c, parseCmd (Cmd.ofLine line) = some c ∧ c.length < MAX_ARGS ∧
      (∀ symbol, ∃ r, findSymbolReverse c symbol = some r) ∧
      ∃ r : Int, splitPoint c = some r ∧ -1 ≤ r ∧
        (r ≠ -1 → r.toNat + 1 < MAX_ARGS ∧ c.length - r.toNat < MAX_ARGS ∧
          ∃ c1, splitCMD c r = some c1) := by
  have hn : (tokensOf line).length ≤ 40 := by
    have h1 := strtokAll_length [' '] (cutNewline (strcpy line)).length (cutNewline (strcpy line))
    have h2 := cutNewline_length (strcpy line)
    have h3 := strcpy_length line
    unfold tokensOf
    simp only [MAX_LINE] at hlen
    omega
  have hn2 : (tokensOf line).length < MAX_ARGS := by
    simp only [MAX_ARGS, MAX_LINE]; omega
  refine ⟨hn, hn2, ?_⟩
  obtain ⟨c, hc, _, _, hle, hpop, hend, _⟩ := parseCmd_spec line hn2
  have hlenc : c.length < MAX_ARGS := by omega
  refine ⟨c, hc, hlenc, ?_, ?_⟩
  · intro symbol
    exact ⟨_, findSymbolReverseFrom_eq c.symbols symbol c.length hlenc⟩
  · refine ⟨_, splitPoint_eq c hlenc, ?_, ?_⟩
    · exact (lastIdx_spec _ c.length).1
    · intro hne
      obtain ⟨h1, h2, _, h4⟩ := lastIdx_spec (fun i =>
        symbolIs (c.symbols i) REDIRECT_IN_OP || symbolIs (c.symbols i) REDIRECT_OUT_OP ||
        symbolIs (c.symbols i) PIPE_OP || symbolIs (c.symbols i) BG_OP) c.length
      set r := lastIdx (fun i =>
        symbolIs (c.symbols i) REDIRECT_IN_OP || symbolIs (c.symbols i) REDIRECT_OUT_OP ||
        symbolIs (c.symbols i) PIPE_OP || symbolIs (c.symbols i) BG_OP) c.length with hr
      have hk : r = (r.toNat : Int) := by omega
      obtain ⟨hkl, hpk, _⟩ := (h4 r.toNat).1 hk
      have hsym : c.symbols r.toNat ≠ none := by
        intro hnone
        simp [hnone, symbolIs] at hpk
      have hlt : r.toNat < c.length := by
        rcases Nat.lt_or_ge r.toNat c.length with h | h
        · exact h
        · exfalso
          have : r.toNat = c.length := by omega
          exact hend (this ▸ Or.inr hsym)
      obtain ⟨l, rr, hsplit, _⟩ := splitCMD_spec c r.toNat hlt hlenc hpop
      refine ⟨by omega, by omega, ?_⟩
      rw [hk]
      exact ⟨_, hsplit⟩

theorem parseCmd_indices_in_bounds_witness :
    (tokensOf "a | b > c\n".toList).length ≤ 40 ∧
    (tokensOf "a | b > c\n".toList).length < MAX_ARGS ∧
    ∃ c, parseCmd (Cmd.ofLine "a | b > c\n".toList) = some c ∧ c.length < MAX_ARGS ∧
      (∀ symbol, ∃ r, findSymbolReverse c symbol = some r) ∧
      ∃ r : Int, splitPoint c = some r ∧ -1 ≤ r ∧
        (r ≠ -1 → r.toNat + 1 < MAX_ARGS ∧ c.length - r.toNat < MAX_ARGS ∧
          ∃ c1, splitCMD c r = some c1) :=
  parseCmd_indices_in_bounds "a | b > c\n".toList (by decide)

/-- The bound is what keeps `parseCmd` inside its arrays: a line of 41 one-letter tokens (81
characters, more than the line buffer holds) makes it write `args[41]`. -/
theorem parseCmd_out_of_bounds_example :
    parseCmd (Cmd.ofLine (List.replicate 41 ['a', ' ']).flatten) = none := by
  rfl
end Shell
